import Mathlib

/-!
# json-schema-tools: the schema relocation engine (`internal/registry/registry.go`)

A shallow embedding of the relocator of `internal/registry/registry.go` and of the
Go library functions it calls (`strings.HasPrefix`, `strings.TrimPrefix`,
`strings.Split`, `filepath.Clean`, `filepath.Join`, `filepath.Dir`, `filepath.Abs`,
`filepath.Rel`, all for a Unix target), followed by theorems about them. Two smaller
parts follow the relocator: `getActualType`, `isRequiredProperty` and
`generatePropertiesTable` of `internal/markdown/generator.go`, and `mergeMaps` of
`cmd/jst/command/validate/validate.go`.

Conventions of the embedding

* A Go `string` is a `List Char` (`Str`); literals are written `"...".toList`.
* A Go `(T, error)` result is an `Option T`; `none` is a non-nil error.
* A Go `map[string]interface{}` is an association list; the order of the list is the
  order in which `range` visits the map, a lookup returns the first binding of a key.
* The process state (working directory, file system, catalog, trace of reads and writes)
  is threaded explicitly through `World`; a panic or `os.Exit` is the outcome `abort`.
* The recursion `relocateJsonFile -> Load -> visit -> resolveRef -> relocateJsonFile`
  is cut by a fuel argument that bounds the nesting depth of `relocateJsonFile`.
* In `generator.go` a panic of a type assertion is the result `none`.
* `mergeMaps` writes to a map while it reads two others, so there a Go map is a reference:
  the maps live in a heap (`validate.Heap`) and a value that is a map is an address.
* File contents are kept in parsed form: a file holds either a JSON value or bytes that
  do not parse, and `json.Unmarshal` is not modelled byte by byte. The bytes that
  `visit` encodes with `json.MarshalIndent` are `visitBytes` of the stored value.
-/

namespace JsonSchemaTools

/-- A Go string. -/
abbrev Str := List Char

/-! ## Package `strings` -/

namespace strings

/-- Go `strings.HasPrefix(s, pre)`. -/
def HasPrefix (s pre : Str) : Bool := pre.isPrefixOf s

/-- Go `strings.TrimPrefix(s, pre)`. -/
def TrimPrefix (s pre : Str) : Str :=
  if HasPrefix s pre then s.drop pre.length else s

/-- Go `strings.Split(s, sep)` for a separator of one character: the pieces of `s`
between the occurrences of `sep`; always at least one piece. -/
def Split : Str → Char → List Str
  | [], _ => [[]]
  | c :: cs, sep =>
    if c = sep then [] :: Split cs sep
    else
      match Split cs sep with
      | [] => [[c]]
      | h :: t => (c :: h) :: t

end strings

/-! ## Package `path/filepath` (Unix) -/

namespace filepath

/-- The path separator. -/
def Separator : Char := '/'

/-- The path element `..`. -/
def dotdot : Str := ['.', '.']

/-- One step of the scan of `Clean`: `st` is the output written so far, as the list of
its elements, last element first. Empty elements and `.` are dropped; `..` removes the
last real element if there is one, is dropped at the root of a rooted path, and is
kept otherwise; any other element is appended. -/
def cleanStep (rooted : Bool) (st : List Str) (c : Str) : List Str :=
  if c = [] ∨ c = ['.'] then st
  else if c = dotdot then
    match st with
    | [] => if rooted then [] else [dotdot]
    | top :: rest => if top = dotdot then dotdot :: top :: rest else rest
  else c :: st

/-- The elements that `Clean` keeps, in order. -/
def cleanElems (rooted : Bool) (elems : List Str) : List Str :=
  (elems.foldl (cleanStep rooted) []).reverse

/-- Elements joined by single separators. -/
def joinElems : List Str → Str
  | [] => []
  | [c] => c
  | c :: d :: cs => c ++ Separator :: joinElems (d :: cs)

/-- Go `filepath.Clean(path)`: the shortest path equivalent to `path` by purely lexical
processing. The library scans the bytes once; here the scan is element by element. -/
def Clean (path : Str) : Str :=
  if path = [] then ['.']
  else
    let rooted := path.head? = some Separator
    let out := cleanElems rooted (strings.Split path Separator)
    if rooted then Separator :: joinElems out
    else if out = [] then ['.'] else joinElems out

/-- Go `filepath.Join(a, b)`: empty elements are ignored, the rest is joined by a
separator and cleaned. -/
def Join (a b : Str) : Str :=
  if a ≠ [] then Clean (a ++ Separator :: b)
  else if b ≠ [] then Clean b
  else []

/-- Go `filepath.IsAbs(path)`. -/
def IsAbs (path : Str) : Bool := strings.HasPrefix path [Separator]

/-- Go `filepath.Abs(path)`, with the working directory `wd` returned by `os.Getwd`
passed explicitly (`os.Getwd` is taken not to fail). -/
def Abs (wd path : Str) : Str :=
  if IsAbs path then Clean path else Join wd path

/-- The part of `path` up to and including its last separator. -/
def dirPart (path : Str) : Str :=
  (path.reverse.dropWhile (fun c => c ≠ Separator)).reverse

/-- Go `filepath.Dir(path)`: all but the last element of `path`, cleaned. -/
def Dir (path : Str) : Str := Clean (dirPart path)

/-- The elements of a cleaned path as `Rel` walks them: none for the empty string, the
single empty element for the root, and the pieces between separators otherwise (a
rooted path starts with an empty element). -/
def relElems (p : Str) : List Str :=
  if p = [] then [] else if p = [Separator] then [[]] else strings.Split p Separator

/-- Drops the longest common prefix of two lists of elements. -/
def dropCommon : List Str → List Str → List Str × List Str
  | b :: bs, t :: ts => if b = t then dropCommon bs ts else (b :: bs, t :: ts)
  | bs, ts => (bs, ts)

/-- Go `filepath.Rel(basepath, targpath)`: a relative path that reaches `targpath` from
`basepath`, or an error when one path is rooted and the other is not, or when the
first differing element of the base is `..`. The relocator always passes the result of `Abs`
as target, a rooted path; the clean form of a rooted base has no `..` element. -/
def Rel (basepath targpath : Str) : Option Str :=
  let base := Clean basepath
  let targ := Clean targpath
  if targ = base then some ['.']
  else
    let base := if base = ['.'] then [] else base
    let baseSlashed := base.head? = some Separator
    let targSlashed := targ.head? = some Separator
    if baseSlashed ≠ targSlashed then none
    else
      match dropCommon (relElems base) (relElems targ) with
      | (b :: bs, t :: ts) =>
        if b = dotdot then none
        else some (joinElems ((b :: bs).map (fun _ => dotdot) ++ t :: ts))
      | (b :: bs, []) => some (joinElems ((b :: bs).map (fun _ => dotdot)))
      | ([], ts) => some (joinElems ts)

end filepath

/-! ## JSON values, as `json.Unmarshal` produces them in `interface{}` -/

/-- A decoded JSON value. A number is kept as its literal. -/
inductive Json where
  | null : Json
  | bool (b : Bool) : Json
  | number (n : Str) : Json
  | str (s : Str) : Json
  | arr (items : List Json) : Json
  | obj (fields : List (Str × Json)) : Json

namespace Json

/-- Map index `m[key]` on a value expected to be a `map[string]interface{}`: the value
and whether the key is present. A nil map (here: any value that is not an object) has
no key. -/
def get (j : Json) (key : Str) : Option Json :=
  match j with
  | obj fields => fields.lookup key
  | _ => none

/-- Assignment to an existing key of an association list; the first binding changes. -/
def setField (key : Str) (v : Json) : List (Str × Json) → List (Str × Json)
  | [] => []
  | (k, x) :: rest => if k = key then (k, v) :: rest else (k, x) :: setField key v rest

/-- Assignment `m[key] = v` to a key that is present, in place. -/
def set (j : Json) (key : Str) (v : Json) : Json :=
  match j with
  | obj fields => obj (setField key v fields)
  | other => other

end Json

/-! ## The process state -/

/-- The bytes of a file, as far as `json.Unmarshal` tells them apart. -/
inductive Content where
  | garbage : Content
  | json (j : Json) : Content

/-- A file operation of the run. -/
inductive Event where
  | read (path : Str) : Event
  | write (path : Str) (data : Json) : Event

/-- The state of the process and of the file system. `files` maps absolute, clean
paths to contents (first binding wins); directories are implicit. -/
structure World where
  cwd : Str
  files : List (Str × Content)
  catalog : List Str
  trace : List Event

/-- The result of a computation that may panic or exit (`abort`), or whose model ran
out of fuel. -/
inductive Outcome (α : Type) where
  | ok (a : α) (w : World) : Outcome α
  | abort (w : World) : Outcome α
  | outOfFuel : Outcome α

namespace World

/-- The result of `os.Open(file)` followed by `io.ReadAll`: the path is resolved against the working
directory; `none` when there is no such file. -/
def readFile (w : World) (file : Str) : Option Content :=
  w.files.lookup (filepath.Abs w.cwd file)

/-- The read of `file` recorded in the trace. -/
def logRead (w : World) (file : Str) : World :=
  { w with trace := w.trace ++ [Event.read (filepath.Abs w.cwd file)] }

/-- The calls `os.MkdirAll(parent)` and `os.WriteFile(target, data)`. Writing to the empty path fails
and is only logged; any other write succeeds and is recorded. -/
def writeFile (w : World) (target : Str) (data : Json) : World :=
  if target = [] then w
  else
    { w with
      files := (filepath.Abs w.cwd target, Content.json data) :: w.files
      trace := w.trace ++ [Event.write (filepath.Abs w.cwd target) data] }

/-- The paths written so far, oldest first. -/
def writes (w : World) : List Str :=
  w.trace.filterMap (fun e => match e with
    | Event.write p _ => some p
    | Event.read _ => none)

/-- The paths read so far, oldest first. -/
def reads (w : World) : List Str :=
  w.trace.filterMap (fun e => match e with
    | Event.read p => some p
    | Event.write _ _ => none)

end World

/-! ## `internal/registry/registry.go` -/

/-- The relocator (`type relocator struct`); its `catalog` field lives in `World`. -/
structure relocator where
  execDir : Str
  destDir : Str
  newLocation : Str

/-- `NewRelocator(location, execDir, targetDir)`. -/
def NewRelocator (location execDir targetDir : Str) : relocator :=
  { execDir := execDir, destDir := targetDir, newLocation := location }

/-- `type VisitorContext struct`. -/
structure VisitorContext where
  File : Str

/-- The literal `file://`. -/
def fileScheme : Str := "file://".toList

/-- The key `$ref`. -/
def refKey : Str := "$ref".toList

/-- The key `properties`. -/
def propertiesKey : Str := "properties".toList

/-- The key `allOf`. -/
def allOfKey : Str := "allOf".toList

/-- The key `$def`. -/
def defKey : Str := "$def".toList

/-- The key `definitions`. -/
def definitionsKey : Str := "definitions".toList

/-- `relocator.resolveLocation(location, vc)`: the absolute source path, the new reference
and the absolute destination path; `cwd` is the working directory. -/
def resolveLocation (r : relocator) (cwd : Str) (location : Str) (vc : VisitorContext) :
    Option (Str × Str × Str) :=
  let location := strings.TrimPrefix location fileScheme
  let absPath := filepath.Abs cwd location
  match filepath.Rel r.execDir absPath with
  | none => none
  | some execRelPath =>
    let newPath := filepath.Join r.destDir execRelPath
    let newPath := filepath.Abs cwd newPath
    match filepath.Rel (filepath.Dir vc.File) absPath with
    | none => none
    | some refRelPath =>
      let newRef := filepath.Join r.newLocation refRelPath
      some (absPath, newRef, newPath)

/-- `relocator.resolveRef(ref, vc)`; `recur` is `r.relocateJsonFile`. A reference without `#`
panics on `refParts[1]`. -/
def resolveRef (r : relocator) (recur : Str → World → Outcome Unit) (ref : Str)
    (vc : VisitorContext) (w : World) : Outcome (Option Str) :=
  if strings.HasPrefix ref fileScheme then
    match strings.Split ref '#' with
    | location :: resource :: _ =>
      match resolveLocation r w.cwd location vc with
      | none => Outcome.ok none w
      | some (absPath, newRef, _) =>
        if absPath ∈ w.catalog then
          Outcome.ok (some (newRef ++ '#' :: resource)) w
        else
          match recur absPath { w with catalog := absPath :: w.catalog } with
          | Outcome.ok _ w1 => Outcome.ok (some (newRef ++ '#' :: resource)) w1
          | Outcome.abort w1 => Outcome.abort w1
          | Outcome.outOfFuel => Outcome.outOfFuel
    | _ => Outcome.abort w
  else Outcome.ok (some ref) w

/-- The body shared by the loops of `visitAllOf` and `visitProperties`: an item that is an
object with a `$ref` has the reference resolved and replaced; a `$ref` that is not a string
panics (`ref.(string)`); a resolution error leaves the item as it is. -/
def visitItem (r : relocator) (recur : Str → World → Outcome Unit) (vc : VisitorContext)
    (item : Json) (w : World) : Outcome Json :=
  match item with
  | Json.obj fields =>
    match fields.lookup refKey with
    | none => Outcome.ok item w
    | some (Json.str ref) =>
      match resolveRef r recur ref vc w with
      | Outcome.ok (some resolvedRef) w1 =>
        Outcome.ok (Json.obj (Json.setField refKey (Json.str resolvedRef) fields)) w1
      | Outcome.ok none w1 => Outcome.ok item w1
      | Outcome.abort w1 => Outcome.abort w1
      | Outcome.outOfFuel => Outcome.outOfFuel
    | some _ => Outcome.abort w
  | _ => Outcome.ok item w

/-- The loop `for _, allOfItem := range allOfSlice`. -/
def visitAllOfItems (r : relocator) (recur : Str → World → Outcome Unit) (vc : VisitorContext) :
    List Json → World → Outcome (List Json)
  | [], w => Outcome.ok [] w
  | item :: rest, w =>
    match visitItem r recur vc item w with
    | Outcome.ok item1 w1 =>
      match visitAllOfItems r recur vc rest w1 with
      | Outcome.ok rest1 w2 => Outcome.ok (item1 :: rest1) w2
      | Outcome.abort w2 => Outcome.abort w2
      | Outcome.outOfFuel => Outcome.outOfFuel
    | Outcome.abort w1 => Outcome.abort w1
    | Outcome.outOfFuel => Outcome.outOfFuel

/-- The loop `for propertyKey, propertyConfig := range propertiesMap`. -/
def visitPropertyEntries (r : relocator) (recur : Str → World → Outcome Unit)
    (vc : VisitorContext) : List (Str × Json) → World → Outcome (List (Str × Json))
  | [], w => Outcome.ok [] w
  | (k, item) :: rest, w =>
    match visitItem r recur vc item w with
    | Outcome.ok item1 w1 =>
      match visitPropertyEntries r recur vc rest w1 with
      | Outcome.ok rest1 w2 => Outcome.ok ((k, item1) :: rest1) w2
      | Outcome.abort w2 => Outcome.abort w2
      | Outcome.outOfFuel => Outcome.outOfFuel
    | Outcome.abort w1 => Outcome.abort w1
    | Outcome.outOfFuel => Outcome.outOfFuel

/-- `relocator.visitAllOf(definition, vc)`; the result is the definition after the in-place
updates. -/
def visitAllOf (r : relocator) (recur : Str → World → Outcome Unit) (definition : Json)
    (vc : VisitorContext) (w : World) : Outcome Json :=
  match definition.get allOfKey with
  | some (Json.arr allOfSlice) =>
    match visitAllOfItems r recur vc allOfSlice w with
    | Outcome.ok items w1 => Outcome.ok (definition.set allOfKey (Json.arr items)) w1
    | Outcome.abort w1 => Outcome.abort w1
    | Outcome.outOfFuel => Outcome.outOfFuel
  | _ => Outcome.ok definition w

/-- `relocator.visitProperties(definition, vc)`; the result is the definition after the
in-place updates. -/
def visitProperties (r : relocator) (recur : Str → World → Outcome Unit) (definition : Json)
    (vc : VisitorContext) (w : World) : Outcome Json :=
  match definition.get propertiesKey with
  | some (Json.obj propertiesMap) =>
    match visitPropertyEntries r recur vc propertiesMap w with
    | Outcome.ok entries w1 =>
      Outcome.ok (definition.set propertiesKey (Json.obj entries)) w1
    | Outcome.abort w1 => Outcome.abort w1
    | Outcome.outOfFuel => Outcome.outOfFuel
  | _ => Outcome.ok definition w

/-- The body of the loop over the definitions: `visitProperties` then `visitAllOf` on one
definition. -/
def visitDefinition (r : relocator) (recur : Str → World → Outcome Unit) (vc : VisitorContext)
    (definition : Json) (w : World) : Outcome Json :=
  match visitProperties r recur definition vc w with
  | Outcome.ok d1 w1 => visitAllOf r recur d1 vc w1
  | Outcome.abort w1 => Outcome.abort w1
  | Outcome.outOfFuel => Outcome.outOfFuel

/-- The loop `for definitionKey, definition := range definitionMap`. -/
def visitDefinitionEntries (r : relocator) (recur : Str → World → Outcome Unit)
    (vc : VisitorContext) : List (Str × Json) → World → Outcome (List (Str × Json))
  | [], w => Outcome.ok [] w
  | (k, definition) :: rest, w =>
    match visitDefinition r recur vc definition w with
    | Outcome.ok d1 w1 =>
      match visitDefinitionEntries r recur vc rest w1 with
      | Outcome.ok rest1 w2 => Outcome.ok ((k, d1) :: rest1) w2
      | Outcome.abort w2 => Outcome.abort w2
      | Outcome.outOfFuel => Outcome.outOfFuel
    | Outcome.abort w1 => Outcome.abort w1
    | Outcome.outOfFuel => Outcome.outOfFuel

/-- `relocator.visit(schema, vc)`: the rewritten document that `json.MarshalIndent` encodes
(the encoding of a decoded document does not fail). -/
def visit (r : relocator) (recur : Str → World → Outcome Unit) (schema : Json)
    (vc : VisitorContext) (w : World) : Outcome (Option Json) :=
  match visitDefinition r recur vc schema w with
  | Outcome.ok s2 w2 =>
    match s2.get defKey with
    | some (Json.obj definitionMap) =>
      match visitDefinitionEntries r recur vc definitionMap w2 with
      | Outcome.ok entries w3 =>
        Outcome.ok (some (s2.set defKey (Json.obj entries))) w3
      | Outcome.abort w3 => Outcome.abort w3
      | Outcome.outOfFuel => Outcome.outOfFuel
    | _ => Outcome.ok (some s2) w2
  | Outcome.abort w2 => Outcome.abort w2
  | Outcome.outOfFuel => Outcome.outOfFuel

/-- `relocator.Load(byteValue, vc)`: `json.Unmarshal` into a `map[string]interface{}` accepts an
object and `null` (which leaves a nil map) and fails on everything else. -/
def Load (r : relocator) (recur : Str → World → Outcome Unit) (byteValue : Content)
    (vc : VisitorContext) (w : World) : Outcome (Option Json) :=
  match byteValue with
  | Content.json (Json.obj fields) => visit r recur (Json.obj fields) vc w
  | Content.json Json.null => visit r recur Json.null vc w
  | _ => Outcome.ok none w

/-- `relocator.relocateJsonFile(file)`; the first argument bounds the depth of the recursion. -/
def relocateJsonFile (r : relocator) : Nat → Str → World → Outcome Unit
  | 0, _, _ => Outcome.outOfFuel
  | fuel + 1, file, w =>
    match w.readFile file with
    | none => Outcome.abort w
    | some byteValue =>
      let vc : VisitorContext := { File := file }
      match Load r (relocateJsonFile r fuel) byteValue vc (w.logRead file) with
      | Outcome.ok (some data) w1 =>
        let targetFile :=
          match resolveLocation r w1.cwd file vc with
          | some (_, _, t) => t
          | none => []
        let parent := filepath.Dir targetFile
        if strings.HasPrefix parent r.destDir then
          Outcome.ok () (w1.writeFile targetFile data)
        else Outcome.abort w1
      | Outcome.ok none w1 => Outcome.ok () w1
      | Outcome.abort w1 => Outcome.abort w1
      | Outcome.outOfFuel => Outcome.outOfFuel

/-- `relocator.Relocate(file)`: `os.Chdir(r.execDir)`, taken to succeed, then the relocation of
the root file. -/
def Relocate (r : relocator) (fuel : Nat) (file : Str) (w : World) : Outcome Unit :=
  relocateJsonFile r fuel file { w with cwd := filepath.Abs w.cwd r.execDir }

/-! ## Observations on outcomes and documents -/

namespace Outcome

/-- The state in which a computation ended, if it ended. -/
def world? {α : Type} : Outcome α → Option World
  | ok _ w => some w
  | abort w => some w
  | outOfFuel => none

/-- The value returned, if the computation returned. -/
def value? {α : Type} : Outcome α → Option α
  | ok a _ => some a
  | _ => none

/-- The computation returned normally. -/
def isOk {α : Type} : Outcome α → Bool
  | ok _ _ => true
  | _ => false

/-- The computation ended by a panic or an exit. -/
def isAbort {α : Type} : Outcome α → Bool
  | abort _ => true
  | _ => false

/-- The paths written up to the end of the computation. -/
def writes {α : Type} (o : Outcome α) : List Str :=
  match o.world? with
  | some w => w.writes
  | none => []

/-- The paths read up to the end of the computation. -/
def reads {α : Type} (o : Outcome α) : List Str :=
  match o.world? with
  | some w => w.reads
  | none => []

end Outcome

namespace Json

/-- The value reached from `j` by following object keys. -/
def at? : Json → List Str → Option Json
  | j, [] => some j
  | j, k :: ks =>
    match j.get k with
    | some v => at? v ks
    | none => none

/-- The string reached from `j` by following object keys. -/
def strAt (j : Json) (keys : List Str) : Option Str :=
  match j.at? keys with
  | some (str s) => some s
  | _ => none

/-- The element `i` of an array. -/
def item? (j : Json) (i : Nat) : Option Json :=
  match j with
  | arr items => items.get? i
  | _ => none

end Json

/-- The document held by the file at `path`, if it parses. -/
def World.fileJson (w : World) (path : Str) : Option Json :=
  match w.files.lookup path with
  | some (Content.json j) => some j
  | _ => none

/-- The elements of the clean form of an absolute path. -/
def absElems (p : Str) : List Str :=
  filepath.cleanElems true (strings.Split p filepath.Separator)

/-- The path `p` is `root` or a descendant of it, element by element (both absolute). -/
def under (root p : Str) : Prop := absElems root <+: absElems p

instance (root p : Str) : Decidable (under root p) :=
  inferInstanceAs (Decidable (absElems root <+: absElems p))

/-- A real path element: non-empty, without separator, neither `.` nor `..`. -/
def RealElem (e : Str) : Prop :=
  e ≠ [] ∧ e ≠ ['.'] ∧ e ≠ filepath.dotdot ∧ filepath.Separator ∉ e

instance (e : Str) : Decidable (RealElem e) :=
  inferInstanceAs (Decidable (e ≠ [] ∧ e ≠ ['.'] ∧ e ≠ filepath.dotdot ∧ filepath.Separator ∉ e))

/-- The last element of a path: what follows its last separator. -/
def lastElem (path : Str) : Str :=
  (path.reverse.takeWhile (fun c => c ≠ filepath.Separator)).reverse

/-- The fragment of a reference: everything after its first `#`. -/
def fragment (ref : Str) : Str := (ref.dropWhile (fun c => c ≠ '#')).drop 1

/-! ## The scope of the rewriting, as the specification words it -/

/-- An item with the value of its `$ref`, if it is an object that has one, blanked. -/
def maskItem (item : Json) : Json := item.set refKey Json.null

/-- A definition with every `properties.<k>.$ref` blanked. -/
def maskProperties (d : Json) : Json :=
  match d.get propertiesKey with
  | some (Json.obj ps) => d.set propertiesKey (Json.obj (ps.map (fun e => (e.1, maskItem e.2))))
  | _ => d

/-- A definition with every `allOf[i].$ref` blanked. -/
def maskAllOf (d : Json) : Json :=
  match d.get allOfKey with
  | some (Json.arr items) => d.set allOfKey (Json.arr (items.map maskItem))
  | _ => d

/-- A definition with every `properties.<k>.$ref` and `allOf[i].$ref` blanked. -/
def maskDefinition (d : Json) : Json := maskAllOf (maskProperties d)

/-- A document with the references in the scope of the rewriting blanked: those at
`properties.<k>.$ref` and `allOf[i].$ref` of the document and of each entry of `$def`. -/
def maskSchema (s : Json) : Json :=
  match (maskDefinition s).get defKey with
  | some (Json.obj ds) =>
    (maskDefinition s).set defKey (Json.obj (ds.map (fun e => (e.1, maskDefinition e.2))))
  | _ => maskDefinition s

/-! ## Scenarios -/

/-- The configuration of the scenarios: `execDir=/src`, `destDir=/out`, `newLocation="schemas"`. -/
def scenarioRelocator : relocator :=
  NewRelocator "schemas".toList "/src".toList "/out".toList

/-- A schema whose only content is `properties.<name>.$ref = ref`. -/
def refSchema (name ref : Str) : Json :=
  Json.obj [("properties".toList, Json.obj [(name, Json.obj [(refKey, Json.str ref)])])]

/-- A process started in `/` with the given files, an empty catalog and an empty trace. -/
def initialWorld (files : List (Str × Content)) : World :=
  { cwd := "/".toList, files := files, catalog := [], trace := [] }

/-- The file system of the worked scenario: `/src/a.json` refers to `/src/sub/b.json`. -/
def workedWorld : World :=
  initialWorld
    [("/src/a.json".toList,
        Content.json (refSchema "b".toList "file:///src/sub/b.json#/X".toList)),
     ("/src/sub/b.json".toList, Content.json (Json.obj []))]

/-- Two files that refer to each other. -/
def cycleWorld : World :=
  initialWorld
    [("/src/a.json".toList, Content.json (refSchema "b".toList "file:///src/b.json#/X".toList)),
     ("/src/b.json".toList, Content.json (refSchema "a".toList "file:///src/a.json#/Y".toList))]

/-- A root file that refers to `/outx/b.json`, a file outside `execDir` whose name shares a
string prefix with `destDir`. -/
def siblingWorld : World :=
  initialWorld
    [("/src/a.json".toList, Content.json (refSchema "b".toList "file:///outx/b.json#/X".toList)),
     ("/outx/b.json".toList, Content.json (Json.obj []))]

/-- The root file `/src/a.json` and the file `/src/b.json`. -/
def flatWorld : World :=
  initialWorld
    [("/src/a.json".toList, Content.json (Json.obj [])),
     ("/src/b.json".toList, Content.json (Json.obj []))]

/-- The file system `flatWorld` of a process whose working directory is `/src` and whose catalog
already holds `/src/b.json`. -/
def claimedWorld : World :=
  { flatWorld with cwd := "/src".toList, catalog := ["/src/b.json".toList] }

/-- A document without `$def`: its `definitions.X` has one file reference under `properties`
and one under `allOf`. -/
def definitionsSchema : Json :=
  Json.obj [(definitionsKey, Json.obj [("X".toList, Json.obj
    [(propertiesKey, Json.obj [("k".toList,
        Json.obj [(refKey, Json.str "file:///src/b.json#/X".toList)])]),
     (allOfKey, Json.arr [Json.obj [(refKey, Json.str "file:///src/b.json#/Y".toList)]])])])]

/-- A document with a reference in scope (`properties.b.$ref`) and references out of scope:
under a nested `properties` and under `oneOf`. -/
def frameSchema : Json :=
  Json.obj
    [(propertiesKey, Json.obj [("b".toList, Json.obj
        [(refKey, Json.str "file:///src/b.json#/X".toList),
         (propertiesKey, Json.obj [("c".toList,
            Json.obj [(refKey, Json.str "file:///src/c.json#/Y".toList)])])])]),
     ("oneOf".toList, Json.arr [Json.obj [(refKey, Json.str "file:///src/c.json#/Z".toList)]])]

/-- The document `frameSchema` after `visit`: only `properties.b.$ref` differs. -/
def frameSchemaOut : Json :=
  Json.obj
    [(propertiesKey, Json.obj [("b".toList, Json.obj
        [(refKey, Json.str "schemas/b.json#/X".toList),
         (propertiesKey, Json.obj [("c".toList,
            Json.obj [(refKey, Json.str "file:///src/c.json#/Y".toList)])])])]),
     ("oneOf".toList, Json.arr [Json.obj [(refKey, Json.str "file:///src/c.json#/Z".toList)]])]

/-! ## Termination: candidate paths, invariant, measure -/

/-- The reference that the visit of an item resolves. -/
def itemRefs : Json → List Str
  | Json.obj fields =>
    match fields.lookup refKey with
    | some (Json.str ref) => [ref]
    | _ => []
  | _ => []

/-- The references under `properties` of a definition. -/
def propsRefs (d : Json) : List Str :=
  match d.get propertiesKey with
  | some (Json.obj ps) => ps.flatMap (fun e => itemRefs e.2)
  | _ => []

/-- The references under `allOf` of a definition. -/
def allOfRefs (d : Json) : List Str :=
  match d.get allOfKey with
  | some (Json.arr items) => items.flatMap itemRefs
  | _ => []

/-- The references that the visit of a definition resolves. -/
def defRefs (d : Json) : List Str := propsRefs d ++ allOfRefs d

/-- The references that `visit` resolves in a document. -/
def docRefs (s : Json) : List Str :=
  defRefs s ++
    match s.get defKey with
    | some (Json.obj ds) => ds.flatMap (fun e => defRefs e.2)
    | _ => []

/-- The references that a relocation of the file resolves. -/
def contentRefs : Content → List Str
  | Content.json j => docRefs j
  | Content.garbage => []

/-- The absolute path that `resolveRef` computes for a file reference. -/
def refTarget (cwd ref : Str) : Str :=
  filepath.Abs cwd (strings.TrimPrefix ((strings.Split ref '#').headD []) fileScheme)

/-- The paths that the file references of a file system can put in the catalog. -/
def candidates (cwd : Str) (files : List (Str × Content)) : List Str :=
  (files.flatMap (fun e => contentRefs e.2)).map (refTarget cwd)

/-- A reference whose target, if it is a file reference, is one of the paths `K`. -/
def GoodRef (K : List Str) (cwd ref : Str) : Prop :=
  strings.HasPrefix ref fileScheme = true → refTarget cwd ref ∈ K

/-- The invariant of a run: the working directory is `cwd` and every file reference in
scope in a file targets one of the paths `K`. -/
def Inv (K : List Str) (cwd : Str) (w : World) : Prop :=
  w.cwd = cwd ∧ ∀ e ∈ w.files, ∀ ref ∈ contentRefs e.2, GoodRef K cwd ref

/-- The number of paths of `K` that are not in the catalog. -/
def pending (K catalog : List Str) : Nat :=
  (K.filter (fun p => decide (p ∉ catalog))).length

/-- The postcondition of a step started in `w`: it does not run out of fuel, and if it
returns, the value satisfies `Q`, the invariant holds and the catalog has only grown. -/
def Post {α : Type} (K : List Str) (cwd : Str) (Q : α → Prop) (w : World) : Outcome α → Prop
  | Outcome.ok a w1 => Q a ∧ Inv K cwd w1 ∧ w.catalog ⊆ w1.catalog
  | Outcome.abort _ => True
  | Outcome.outOfFuel => False

/-- `g` agrees with `f` wherever `f` does not run out of fuel. -/
def Extends (f g : Str → World → Outcome Unit) : Prop :=
  ∀ file w, g file w = f file w ∨ f file w = Outcome.outOfFuel

/-- A file that refers to itself. -/
def selfWorld : World :=
  initialWorld
    [("/src/a.json".toList,
        Content.json (refSchema "self".toList "file:///src/a.json#/X".toList))]

/-- A configuration whose `newLocation` is a URL. -/
def urlRelocator : relocator :=
  NewRelocator "https://example.com/schemas".toList "/src".toList "/out".toList

/-! ## Malformed references, growth of the catalog -/

/-- The item has a `$ref` that is not a string. -/
def itemMalformed : Json → Bool
  | Json.obj fields =>
    match fields.lookup refKey with
    | some (Json.str _) => false
    | some _ => true
    | none => false
  | _ => false

/-- A `properties.<k>.$ref` or `allOf[i].$ref` of the definition is not a string. -/
def definitionMalformed (d : Json) : Bool :=
  (match d.get propertiesKey with
    | some (Json.obj ps) => ps.any (fun e => itemMalformed e.2)
    | _ => false) ||
  (match d.get allOfKey with
    | some (Json.arr items) => items.any itemMalformed
    | _ => false)

/-- A `$ref` in the scope of `visit` is not a string. -/
def schemaMalformed (s : Json) : Bool :=
  definitionMalformed s ||
  (match s.get defKey with
    | some (Json.obj ds) => ds.any (fun e => definitionMalformed e.2)
    | _ => false)

/-- The catalog of every state in which the computation can end includes the catalog of
the state `w` in which it started. -/
def Grows {α : Type} (w : World) (o : Outcome α) : Prop :=
  ∀ w1, o.world? = some w1 → w.catalog ⊆ w1.catalog

/-- A document without file reference whose `properties.a.$ref` is the number `5`. -/
def numberRefSchema : Json :=
  Json.obj [(propertiesKey, Json.obj [("a".toList, Json.obj [(refKey, Json.number "5".toList)])])]

/-- A document without file reference: a local reference under `properties`, one under
`allOf`, one in a `$def` entry, and other values. -/
def plainSchema : Json :=
  Json.obj
    [("title".toList, Json.str "plain".toList),
     (propertiesKey, Json.obj
        [("a".toList, Json.obj [(refKey, Json.str "#/$def/A".toList)]),
         ("n".toList, Json.obj [("type".toList, Json.str "number".toList)])]),
     (allOfKey, Json.arr [Json.obj [(refKey, Json.str "https://example.com/s.json".toList)]]),
     (defKey, Json.obj [("A".toList, Json.obj
        [(propertiesKey, Json.obj [("b".toList, Json.obj [(refKey, Json.str "#/$def/A".toList)])]),
         ("required".toList, Json.arr [Json.str "b".toList])])])]

/-- The state after the first relocation of `/src/b.json` from `flatWorld` with working
directory `/src`. -/
def flatWorldAfter : World :=
  { cwd := "/src".toList
    files := ("/out/b.json".toList, Content.json (Json.obj [])) :: flatWorld.files
    catalog := ["/src/b.json".toList]
    trace := [Event.read "/src/b.json".toList, Event.write "/out/b.json".toList (Json.obj [])] }

/-- A root file whose bytes do not parse. -/
def garbageRootWorld : World :=
  initialWorld [("/src/a.json".toList, Content.garbage)]

/-- A root file that refers to `/src/b.json`, whose bytes do not parse. -/
def garbageRefWorld : World :=
  initialWorld
    [("/src/a.json".toList, Content.json (refSchema "b".toList "file:///src/b.json#/X".toList)),
     ("/src/b.json".toList, Content.garbage)]

/-- A root file whose reference to `/src/b.json` has no fragment. -/
def noFragmentWorld : World :=
  initialWorld
    [("/src/a.json".toList, Content.json (refSchema "b".toList "file:///src/b.json".toList)),
     ("/src/b.json".toList, Content.json (Json.obj []))]

/-- The configuration of the scenarios with `destDir` written with a trailing slash. -/
def trailingSlashRelocator : relocator :=
  NewRelocator "schemas".toList "/src".toList "/out/".toList

/-- The configuration of the scenarios with a relative `destDir`. -/
def relativeDestRelocator : relocator :=
  NewRelocator "schemas".toList "/src".toList "out".toList

/-! ## Package `encoding/json`: `MarshalIndent` on decoded values -/

namespace json

/-- A hexadecimal digit, lower case. -/
def hexDigit (n : Nat) : Char :=
  match n with
  | 0 => '0' | 1 => '1' | 2 => '2' | 3 => '3' | 4 => '4' | 5 => '5' | 6 => '6' | 7 => '7'
  | 8 => '8' | 9 => '9' | 10 => 'a' | 11 => 'b' | 12 => 'c' | 13 => 'd' | 14 => 'e'
  | _ => 'f'

/-- The encoding of one character inside a string, with the HTML escaping that `Marshal`
applies: quote and backslash are escaped, line feed, carriage return and tab have their
short forms, the other control characters and the characters `<`, `>`, `&` are written
as a six-character escape with four hexadecimal digits, and so are U+2028 and U+2029.
Go releases from 1.22 on write backspace and form feed in a short form as well; no form
holds a line break. -/
def escapeChar (c : Char) : Str :=
  if c = '"' then ['\\', '"']
  else if c = '\\' then ['\\', '\\']
  else if c = '\n' then ['\\', 'n']
  else if c = '\r' then ['\\', 'r']
  else if c = '\t' then ['\\', 't']
  else if c.toNat < 32 ∨ c = '<' ∨ c = '>' ∨ c = '&' then
    ['\\', 'u', '0', '0', hexDigit (c.toNat / 16), hexDigit (c.toNat % 16)]
  else if c.toNat = 8232 then ['\\', 'u', '2', '0', '2', '8']
  else if c.toNat = 8233 then ['\\', 'u', '2', '0', '2', '9']
  else [c]

/-- The encoding of a string: its escaped characters between double quotes. -/
def quote (s : Str) : Str := '"' :: s.flatMap escapeChar ++ ['"']

/-- The line break that `Indent` writes at nesting depth `depth`: a newline, the line
header `pre` and `depth` copies of the indent. -/
def newline (pre ind : Str) (depth : Nat) : Str :=
  '\n' :: pre ++ (List.replicate depth ind).flatten

/-- The order in which `Marshal` sorts the keys of a map: byte-wise on the encoded text,
which is the order of the code points. -/
def keyLt : Str → Str → Bool
  | [], [] => false
  | [], _ :: _ => true
  | _ :: _, [] => false
  | a :: as, b :: bs =>
    if a.toNat < b.toNat then true
    else if b.toNat < a.toNat then false
    else keyLt as bs

/-- Insertion of an entry in a list of entries sorted by key. -/
def insertByKey {β : Type} (e : Str × β) : List (Str × β) → List (Str × β)
  | [] => [e]
  | x :: xs => if keyLt e.1 x.1 then e :: x :: xs else x :: insertByKey e xs

/-- The entries sorted by key. -/
def sortByKey {β : Type} : List (Str × β) → List (Str × β)
  | [] => []
  | e :: rest => insertByKey e (sortByKey rest)

/-- The encoded members of an array or object from the first member on: a comma and a
line break at depth `depth + 1` between two members. -/
def membersBody (pre ind : Str) (depth : Nat) : List Str → Str
  | [] => []
  | [m] => m
  | m :: m1 :: ms =>
    m ++ ',' :: newline pre ind (depth + 1) ++ membersBody pre ind depth (m1 :: ms)

/-- An array or object with the given encoded members, opened at nesting depth `depth`:
without members the two brackets; otherwise each member on a line of its own at depth
`depth + 1` and the closing bracket on a line at depth `depth`. -/
def bracket (lb rb : Char) (pre ind : Str) (depth : Nat) (members : List Str) : Str :=
  match members with
  | [] => [lb, rb]
  | m :: ms =>
    lb :: newline pre ind (depth + 1) ++ membersBody pre ind depth (m :: ms)
      ++ newline pre ind depth ++ [rb]

mutual

/-- The indented encoding of a value that starts at nesting depth `depth`. The keys of an
object are sorted, the text of a key is followed by a colon and one space; a number is
written as its literal. -/
def encodeValue (pre ind : Str) (depth : Nat) : Json → Str
  | Json.null => "null".toList
  | Json.bool true => "true".toList
  | Json.bool false => "false".toList
  | Json.number n => n
  | Json.str s => quote s
  | Json.arr items => bracket '[' ']' pre ind depth (encodeItems pre ind (depth + 1) items)
  | Json.obj fields =>
    bracket '{' '}' pre ind depth
      ((sortByKey (encodeFields pre ind (depth + 1) fields)).map
        (fun e => quote e.1 ++ ':' :: ' ' :: e.2))

/-- The encodings of the elements of an array. -/
def encodeItems (pre ind : Str) (depth : Nat) : List Json → List Str
  | [] => []
  | x :: xs => encodeValue pre ind depth x :: encodeItems pre ind depth xs

/-- The keys of an object with the encodings of their values. -/
def encodeFields (pre ind : Str) (depth : Nat) : List (Str × Json) → List (Str × Str)
  | [] => []
  | (k, v) :: rest => (k, encodeValue pre ind depth v) :: encodeFields pre ind depth rest

end

/-- Go `json.MarshalIndent(v, pre, ind)` on a decoded value, where it does not fail. -/
def MarshalIndent (v : Json) (pre ind : Str) : Str := encodeValue pre ind 0 v

end json

/-- The last statement of `relocator.visit`: `json.MarshalIndent(schema, "", "   ")`, the
bytes that `visit` returns for the rewritten document and that `relocateJsonFile` hands
to `os.WriteFile`. -/
def visitBytes (schema : Json) : Str := json.MarshalIndent schema [] "   ".toList

/-! ## Indentation, as the specification words it -/

/-- A JSON number literal: at least one character, each a digit, a sign, the point or the
exponent mark. -/
def numberLiteral (n : Str) : Bool :=
  !n.isEmpty && n.all (fun c => "0123456789+-.eE".toList.contains c)

mutual

/-- Every number of the value is written as a JSON number literal, as `json.Unmarshal`
leaves it. -/
def numbersOk : Json → Bool
  | Json.number n => numberLiteral n
  | Json.arr items => itemsNumbersOk items
  | Json.obj fields => fieldsNumbersOk fields
  | _ => true

/-- Every number of the elements is a number literal. -/
def itemsNumbersOk : List Json → Bool
  | [] => true
  | x :: xs => numbersOk x && itemsNumbersOk xs

/-- Every number of the members is a number literal. -/
def fieldsNumbersOk : List (Str × Json) → Bool
  | [] => true
  | (_, v) :: rest => numbersOk v && fieldsNumbersOk rest

end

/-- The nesting levels of the lines of an array or object with the given members, after
its opening line: nothing when it has no member, otherwise the lines of the members and
the closing bracket at the depth of the opening. -/
def closeLevels (depth : Nat) (members : List (List Nat)) : List Nat :=
  match members with
  | [] => []
  | m :: ms => (m :: ms).flatten ++ [depth]

mutual

/-- The nesting levels of the lines of a value after the line on which it starts, for a
value that starts at nesting depth `depth`. -/
def restLevels (depth : Nat) : Json → List Nat
  | Json.arr items => closeLevels depth (itemsLevels (depth + 1) items)
  | Json.obj fields =>
    closeLevels depth ((json.sortByKey (fieldsLevels (depth + 1) fields)).map Prod.snd)
  | _ => []

/-- The nesting levels of the lines of each element of an array whose elements are at
depth `depth`. -/
def itemsLevels (depth : Nat) : List Json → List (List Nat)
  | [] => []
  | x :: xs => (depth :: restLevels depth x) :: itemsLevels depth xs

/-- The nesting levels of the lines of each member of an object whose members are at
depth `depth`, with the key of the member. -/
def fieldsLevels (depth : Nat) : List (Str × Json) → List (Str × List Nat)
  | [] => []
  | (k, v) :: rest => (k, depth :: restLevels depth v) :: fieldsLevels depth rest

end

/-- The nesting level of every line of the pretty-printed value, first line first. -/
def lineLevels (v : Json) : List Nat := 0 :: restLevels 0 v

/-- The number of spaces at the start of a line. -/
def leadingSpaces (line : Str) : Nat := (line.takeWhile (fun c => c == ' ')).length

/-- The line is indented for nesting level `level` with `width` spaces per level: it
starts with exactly `width * level` spaces and has text after them. -/
def IndentedAt (width level : Nat) (line : Str) : Prop :=
  leadingSpaces line = width * level ∧ leadingSpaces line < line.length

instance (width level : Nat) (line : Str) : Decidable (IndentedAt width level line) :=
  inferInstanceAs (Decidable (_ ∧ _))

/-- Every line of the text is indented for its nesting level, `width` spaces per level. -/
def Indented (width : Nat) (levels : List Nat) (text : Str) : Prop :=
  List.Forall₂ (IndentedAt width) levels (strings.Split text '\n')

instance (width : Nat) (levels : List Nat) (text : Str) :
    Decidable (Indented width levels text) :=
  inferInstanceAs (Decidable (List.Forall₂ _ _ _))

/-- The line starts with `width * level` spaces followed by a character that is not a space. -/
def Ind (width level : Nat) (line : Str) : Prop :=
  ∃ c rest, c ≠ ' ' ∧ line = List.replicate (width * level) ' ' ++ c :: rest

/-- The text starts with a character that is not a space and the lines after its first
line are indented for the levels `rl`. -/
def Text (width : Nat) (rl : List Nat) (e : Str) : Prop :=
  ∃ c cs tl, strings.Split e '\n' = (c :: cs) :: tl ∧ c ≠ ' ' ∧
    List.Forall₂ (Ind width) rl tl

/-- The encoded member `m` is a text whose lines have the levels `lv`, the first at `depth`. -/
def Member (width depth : Nat) (lv : List Nat) (m : Str) : Prop :=
  ∃ rl, lv = depth :: rl ∧ Text width rl m

/-- The pieces with `b` appended to the last one. -/
def appendLast (b : Str) : List Str → List Str
  | [] => []
  | [l] => [l ++ b]
  | l :: l1 :: rest => l :: appendLast b (l1 :: rest)

/-- Two entries have the same key and related values. -/
def SameKeys {α β : Type} (R : α → β → Prop) (a : Str × α) (b : Str × β) : Prop :=
  a.1 = b.1 ∧ R a.2 b.2

/-- A document with one member. -/
def oneMemberSchema : Json := Json.obj [("a".toList, Json.number "1".toList)]

/-- A document with nested objects and arrays, its keys not in order. -/
def nestedSchema : Json :=
  Json.obj
    [("c".toList, Json.arr []),
     ("a".toList,
      Json.obj [("b".toList, Json.arr [Json.number "1".toList, Json.str "x<y\n".toList])])]

/-! ## Package `strings`, continued -/

namespace strings

/-- Go `strings.Join(elems, sep)`. -/
def Join : List Str → Str → Str
  | [], _ => []
  | [a], _ => a
  | a :: b :: rest, sep => a ++ sep ++ Join (b :: rest) sep

/-- Two characters are equal under simple case folding, as `strings.EqualFold` compares
them: equal, or an ASCII capital and its small letter, or an ASCII letter and the one
character outside ASCII that folds to it (`k`, `K` and the Kelvin sign U+212A; `s`, `S`
and the long s U+017F). The folding of two letters outside ASCII is not part of the
model: such a pair is equal only when the two are the same character. -/
def foldEq (sr tr : Char) : Bool :=
  sr = tr ||
    (if max sr.toNat tr.toNat < 128 then
      decide (65 ≤ min sr.toNat tr.toNat) && decide (min sr.toNat tr.toNat ≤ 90)
        && decide (max sr.toNat tr.toNat = min sr.toNat tr.toNat + 32)
    else
      (decide (max sr.toNat tr.toNat = 8490)
          && (decide (min sr.toNat tr.toNat = 75) || decide (min sr.toNat tr.toNat = 107)))
        || (decide (max sr.toNat tr.toNat = 383)
          && (decide (min sr.toNat tr.toNat = 83) || decide (min sr.toNat tr.toNat = 115))))

/-- Go `strings.EqualFold(s, t)`: the two strings have the same length and their
characters are pairwise equal under simple case folding. -/
def EqualFold : Str → Str → Bool
  | [], [] => true
  | sr :: s, tr :: t => foldEq sr tr && EqualFold s t
  | _, _ => false

end strings

/-! ## `internal/markdown/generator.go` -/

namespace markdown

/-- The key `type`. -/
def typeKey : Str := "type".toList

/-- The key `required`. -/
def requiredKey : Str := "required".toList

/-- The loop of `getActualType` over the elements of a `type` array: the first element
that is a string and is not `null` in any mix of cases; after the loop the function
returns the empty string. -/
def firstActualType : List Json → Str
  | [] => []
  | Json.str strVal :: rest =>
    if !strings.EqualFold strVal "null".toList then strVal else firstActualType rest
  | _ :: rest => firstActualType rest

/-- `getActualType(schema, subSchemas)`. The result `none` is the panic of the type
assertion `ref.(string)` on a `$ref` that is not a string. -/
def getActualType (schema : Json) (subSchemas : List (Str × Str)) : Option Str :=
  match schema.get typeKey with
  | some typ =>
    match typ with
    | Json.str typeSr => some typeSr
    | Json.arr typesSlice => some (firstActualType typesSlice)
    | _ => some []
  | none =>
    match schema.get refKey with
    | some ref =>
      match ref with
      | Json.str r =>
        match subSchemas.lookup r with
        | some val => some val
        | none => some (strings.TrimPrefix r fileScheme)
      | _ => none
    | none => some []

/-- The loop of `isRequiredProperty`: some element of the `required` array is the string
`propertyKey` (the comparison `field == propertyKey` of an `interface{}` with a string). -/
def requiredLoop (propertyKey : Str) : List Json → Bool
  | [] => false
  | Json.str field :: rest => if field = propertyKey then true else requiredLoop propertyKey rest
  | _ :: rest => requiredLoop propertyKey rest

/-- `isRequiredProperty(propertyKey, schema)`. -/
def isRequiredProperty (propertyKey : Str) (schema : Json) : Bool :=
  match schema.get requiredKey with
  | some (Json.arr requiredFields) => requiredLoop propertyKey requiredFields
  | _ => false

/-- `haveKey(m, key)`. -/
def haveKey (m : Json) (key : Str) : Bool := (m.get key).isSome

/-- The verb `%v` of `fmt.Sprintf` on a `bool`. -/
def formatBool (b : Bool) : Str := if b then "true".toList else "false".toList

/-- The loop of `generatePropertiesTable` over the entries of `properties`, which appends
one row per entry to `res`. The result `none` is a panic: an entry that is not an object
(the type assertion on `innerSchema`) or a panic of `getActualType`. -/
def propertyRows (schema : Json) (subSchemas : List (Str × Str)) :
    List (Str × Json) → List Str → Option (List Str)
  | [], res => some res
  | (property, innerSchema) :: rest, res =>
    match innerSchema with
    | Json.obj fields =>
      match getActualType (Json.obj fields) subSchemas with
      | some actualType =>
        propertyRows schema subSchemas rest
          (res ++ ['|' :: property ++ '|' :: (if actualType = [] then "-".toList else actualType)
            ++ '|' :: formatBool (isRequiredProperty property schema) ++ ['|']])
      | none => none
    | _ => none

/-- `generatePropertiesTable(octothorpes, name, schema, subSchemas)`. The result `none`
is a panic: a `properties` that is not an object, or a panic of the loop. -/
def generatePropertiesTable (octothorpes name : Str) (schema : Json)
    (subSchemas : List (Str × Str)) : Option Str :=
  if haveKey schema propertiesKey then
    match schema.get propertiesKey with
    | some (Json.obj properties) =>
      match propertyRows schema subSchemas properties
          [octothorpes ++ ' ' :: name ++ " Properties".toList,
           '|' :: strings.Join ["Property".toList, "Type".toList, "Required".toList] ['|']
             ++ ['|'],
           '|' :: strings.Join [":------".toList, ":---".toList, ":--------".toList] ['|']
             ++ ['|']] with
      | some res => some (strings.Join res ['\n'])
      | none => none
    | _ => none
  else some (strings.Join [] ['\n'])

end markdown


/-! ## What `getActualType` and `generatePropertiesTable` return, as the specification words it -/

namespace markdown

/-- The string is `null` written in any mix of capitals and small letters. -/
def isNullWord (s : Str) : Bool :=
  match s with
  | [a, b, c, d] =>
    (a = 'n' || a = 'N') && (b = 'u' || b = 'U') && (c = 'l' || c = 'L') && (d = 'l' || d = 'L')
  | _ => false

/-- The elements of an array that are strings. -/
def stringElements : List Json → List Str
  | [] => []
  | Json.str s :: rest => s :: stringElements rest
  | _ :: rest => stringElements rest

/-- The first string element of a `type` array that is not `null` compared without regard
to case, or the empty string when there is none. -/
def firstNonNull (items : List Json) : Str :=
  ((stringElements items).find? (fun s => !isNullWord s)).getD []

/-- The call `getActualType(schema, _)` panics: without a `type`, a `$ref` that is not a
string. -/
def refPanics (schema : Json) : Bool :=
  match schema.get typeKey, schema.get refKey with
  | none, some (Json.str _) => false
  | none, some _ => true
  | _, _ => false

/-- The property name is an element of the `required` array of the schema. -/
def Required (property : Str) (schema : Json) : Prop :=
  ∃ items, schema.get requiredKey = some (Json.arr items) ∧ Json.str property ∈ items

/-- The row of the properties table for the entry `e` of `properties`: the name, the
actual type of the property schema or `-` when that is empty, and whether the property
is required. -/
def IsRow (schema : Json) (subSchemas : List (Str × Str)) (e : Str × Json) (row : Str) :
    Prop :=
  ∃ typ req, getActualType e.2 subSchemas = some typ ∧ (req = true ↔ Required e.1 schema) ∧
    row = '|' :: e.1 ++ '|' :: (if typ = [] then "-".toList else typ)
      ++ '|' :: (if req then "true".toList else "false".toList) ++ ['|']

end markdown

/-- A schema whose `$ref` is a number and that has no `type`. -/
def numberRefItem : Json := Json.obj [("$ref".toList, Json.number "5".toList)]

/-- A schema with the one property `b`, whose `$ref` is a number. -/
def numberRefTable : Json :=
  Json.obj [("properties".toList, Json.obj [("b".toList, numberRefItem)])]

/-- A schema whose `type` is an array that starts with `NULL`. -/
def typeListItem : Json :=
  Json.obj [("type".toList,
    Json.arr [Json.str "NULL".toList, Json.number "1".toList, Json.str "integer".toList])]

/-- The `properties` of `tableSchema`. -/
def tableProperties : List (Str × Json) :=
  [("a".toList, Json.obj [("type".toList, Json.str "string".toList)]),
   ("b".toList, Json.obj [("$ref".toList, Json.str "file://x.json".toList)]),
   ("c".toList, typeListItem),
   ("d".toList, Json.obj [])]

/-- A schema with four properties, one of them required. -/
def tableSchema : Json :=
  Json.obj
    [("properties".toList, Json.obj tableProperties),
     ("required".toList, Json.arr [Json.str "b".toList, Json.number "1".toList])]

/-! ## `cmd/jst/command/validate/validate.go`: `mergeMaps` -/

namespace validate

/-- A value held in an `interface{}`. A Go map is a reference: the value of a map is the
address of its object in the heap, so that two values may share one map. -/
inductive Value where
  | null : Value
  | bool (b : Bool) : Value
  | number (n : Str) : Value
  | str (s : Str) : Value
  | slice (items : List Value) : Value
  | map (addr : Nat) : Value

instance : Inhabited Value := ⟨Value.null⟩

/-- The entries of a `map[string]interface{}`, in the order in which `range` visits
them. -/
abbrev Object := List (Str × Value)

/-- The maps that exist, by address. -/
abbrev Heap := List Object

/-- The entries of the map at `addr`. -/
def objectAt (h : Heap) (addr : Nat) : Object := (h.get? addr).getD []

/-- The assignment `m[k] = v` on the entries of a map: the entry of the key changes, or
a new entry is added. -/
def assign (k : Str) (v : Value) : Object → Object
  | [] => [(k, v)]
  | (k1, v1) :: rest => if k1 = k then (k1, v) :: rest else (k1, v1) :: assign k v rest

/-- The assignment `m[k] = v` on the map at `addr`, in place. -/
def assignAt (h : Heap) (addr : Nat) (k : Str) (v : Value) : Heap :=
  h.set addr (assign k v (objectAt h addr))

/-- The first loop of `mergeMaps`, `for k, v := range a: out[k] = v`, over the
entries of `a`. -/
def copyEntries (out : Nat) : Object → Heap → Heap
  | [], h => h
  | (k, v) :: rest, h => copyEntries out rest (assignAt h out k v)

/-- The second loop of `mergeMaps`, over the entries of `b`: a value of `b` that is a map
and meets a map in `out` is replaced by the result of the recursive call on the two,
every other value is assigned to `out` as it is. The result `none` is a recursion that
does not end. -/
def mergeEntries (recur : Nat → Nat → Heap → Option (Nat × Heap)) (out : Nat) :
    Object → Heap → Option Heap
  | [], h => some h
  | (k, v) :: rest, h =>
    match v with
    | Value.map vm =>
      match (objectAt h out).lookup k with
      | some (Value.map bv) =>
        match recur bv vm h with
        | some (merged, h1) => mergeEntries recur out rest (assignAt h1 out k (Value.map merged))
        | none => none
      | _ => mergeEntries recur out rest (assignAt h out k v)
    | _ => mergeEntries recur out rest (assignAt h out k v)

/-- `mergeMaps(a, b)` on the maps at the addresses `a` and `b`: the address of the map
that is returned and the heap after the call. `make` allocates the map `out` at the next
free address. The fuel bounds the nesting of the recursive calls; `none` is a recursion
that does not end within it. Each of the two loops runs over the entries that its map
has when the loop starts. -/
def mergeMaps : Nat → Nat → Nat → Heap → Option (Nat × Heap)
  | 0, _, _, _ => none
  | fuel + 1, a, b, h =>
    let h0 := h ++ [[]]
    let h1 := copyEntries h.length (objectAt h0 a) h0
    match mergeEntries (mergeMaps fuel) h.length (objectAt h1 b) h1 with
    | some h2 => some (h.length, h2)
    | none => none

/-- The keys of a map. -/
def keys (m : Object) : List Str := m.map Prod.fst

/-- The maps that are values of the entries of a map. -/
def children : Object → List Nat
  | [] => []
  | (_, Value.map y) :: rest => y :: children rest
  | _ :: rest => children rest

/-- The first `n` maps of the heap are well formed and nested to a finite depth: a map has
one entry per key, the maps that are its values are among the first `n`, and the rank of
a map is above the rank of the maps that are its values. -/
def Layered (rank : Nat → Nat) (h : Heap) (n : Nat) : Prop :=
  ∀ i < n, (keys (objectAt h i)).Nodup ∧ ∀ y ∈ children (objectAt h i), y < n ∧ rank y < rank i

instance (rank : Nat → Nat) (h : Heap) (n : Nat) : Decidable (Layered rank h n) :=
  inferInstanceAs (Decidable (∀ i < n, _))

/-- The map at `r` in the heap `h1` is the right-biased deep merge of the maps at `a` and
`b` in the heap `h`, for maps nested less than `depth` deep: its keys are the keys of `a`
and of `b`; a key that only `a` has keeps the value of `a`; a key of `b` whose values in
`a` and in `b` are both maps has a map that is the deep merge of the two; every other key
of `b` has the value of `b`. -/
def DeepMerge : Nat → Heap → Nat → Nat → Heap → Nat → Prop
  | 0, _, _, _, _, _ => False
  | depth + 1, h, a, b, h1, r =>
    (∀ k, k ∈ keys (objectAt h1 r) ↔ k ∈ keys (objectAt h a) ∨ k ∈ keys (objectAt h b)) ∧
    (∀ k, k ∉ keys (objectAt h b) → (objectAt h1 r).lookup k = (objectAt h a).lookup k) ∧
    (∀ k x y, (objectAt h a).lookup k = some (Value.map x) →
      (objectAt h b).lookup k = some (Value.map y) →
      ∃ r1, (objectAt h1 r).lookup k = some (Value.map r1) ∧ DeepMerge depth h x y h1 r1) ∧
    (∀ k v, (objectAt h b).lookup k = some v →
      (∀ x y, ¬ ((objectAt h a).lookup k = some (Value.map x) ∧ v = Value.map y)) →
      (objectAt h1 r).lookup k = some v)

/-- The function `recur` behaves as `mergeMaps` on maps of the first `n` maps of the heap
`hB` whose second argument has a rank below `d`: in a heap that extends `hB`, it returns a
new map, changes no map that existed, and the new map is the deep merge of its arguments
in every later heap that keeps the maps allocated by the call. -/
def Merges (rank : Nat → Nat) (hB : Heap) (n d : Nat)
    (recur : Nat → Nat → Heap → Option (Nat × Heap)) : Prop :=
  ∀ h x y, n ≤ h.length → (∀ i < n, objectAt h i = objectAt hB i) → x < n → y < n →
    rank y < d →
    ∃ h1, recur x y h = some (h.length, h1) ∧ h.length < h1.length ∧
      (∀ i < h.length, objectAt h1 i = objectAt h i) ∧
      ∀ h2, (∀ i, h.length ≤ i → i < h1.length → objectAt h2 i = objectAt h1 i) →
        DeepMerge d hB x y h2 h.length

/-! ### Decoded documents in the heap -/

mutual

/-- The value of a decoded document in the heap: the maps of the document are allocated
one by one, the maps inside a map before the map itself. -/
def storeValue : Json → Heap → Value × Heap
  | Json.null, h => (Value.null, h)
  | Json.bool b, h => (Value.bool b, h)
  | Json.number n, h => (Value.number n, h)
  | Json.str s, h => (Value.str s, h)
  | Json.arr items, h => ((Value.slice (storeItems items h).1), (storeItems items h).2)
  | Json.obj fields, h =>
    (Value.map (storeFields fields h).2.length,
      (storeFields fields h).2 ++ [(storeFields fields h).1])

/-- The values of the elements of an array in the heap. -/
def storeItems : List Json → Heap → List Value × Heap
  | [], h => ([], h)
  | x :: xs, h =>
    ((storeValue x h).1 :: (storeItems xs (storeValue x h).2).1,
      (storeItems xs (storeValue x h).2).2)

/-- The entries of an object in the heap. -/
def storeFields : List (Str × Json) → Heap → Object × Heap
  | [], h => ([], h)
  | (k, v) :: rest, h =>
    ((k, (storeValue v h).1) :: (storeFields rest (storeValue v h).2).1,
      (storeFields rest (storeValue v h).2).2)

end

mutual

/-- Every object of the document has one entry per key, as a decoded object has. -/
def uniqueKeys : Json → Bool
  | Json.arr items => itemsUniqueKeys items
  | Json.obj fields => decide ((fields.map Prod.fst).Nodup) && fieldsUniqueKeys fields
  | _ => true

/-- Every object of the elements has one entry per key. -/
def itemsUniqueKeys : List Json → Bool
  | [] => true
  | x :: xs => uniqueKeys x && itemsUniqueKeys xs

/-- Every object of the values of the entries has one entry per key. -/
def fieldsUniqueKeys : List (Str × Json) → Bool
  | [] => true
  | (_, v) :: rest => uniqueKeys v && fieldsUniqueKeys rest

end

/-- The maps of the heap have one entry per key and the maps that are values of a map
have a smaller address than the map. -/
def Descending (h : Heap) : Prop :=
  ∀ i < h.length, (keys (objectAt h i)).Nodup ∧ ∀ y ∈ children (objectAt h i), y < i

end validate

/-- A heap with the two maps `0` and `1` to merge: both have a map under `o`, whose values
in turn share the empty map `4` under `w`; under `p` a map meets `null`. -/
def mergeHeap : validate.Heap :=
  [[("x".toList, validate.Value.number "1".toList), ("o".toList, validate.Value.map 2),
    ("p".toList, validate.Value.map 2)],
   [("o".toList, validate.Value.map 3), ("y".toList, validate.Value.str "s".toList),
    ("p".toList, validate.Value.null)],
   [("u".toList, validate.Value.bool true), ("w".toList, validate.Value.map 4)],
   [("u".toList, validate.Value.bool false), ("v".toList, validate.Value.null),
    ("w".toList, validate.Value.map 4)],
   []]

/-- The nesting rank of the maps of `mergeHeap`. -/
def mergeRank (i : Nat) : Nat := [2, 2, 1, 1, 0].getD i 0

end JsonSchemaTools

/-! # Theorems -/

namespace JsonSchemaTools

open Json filepath strings

/-! ## Association lists -/

theorem lookup_setField_ne (key k : Str) (v : Json) (fs : List (Str × Json)) (h : k ≠ key) :
    (setField key v fs).lookup k = fs.lookup k := by
  induction fs with
  | nil => rfl
  | cons e rest ih =>
    obtain ⟨k1, x⟩ := e
    by_cases h1 : k1 = key
    · subst h1
      have hb : (k == k1) = false := by simpa using h
      simp [setField, List.lookup_cons, hb]
    · by_cases h2 : k = k1
      · subst h2
        simp [setField, h1, List.lookup_cons]
      · have hb : (k == k1) = false := by simpa using h2
        simp [setField, h1, List.lookup_cons, hb, ih]

theorem lookup_setField_same (key : Str) (v x : Json) (fs : List (Str × Json))
    (h : fs.lookup key = some x) : (setField key v fs).lookup key = some v := by
  induction fs with
  | nil => simp at h
  | cons e rest ih =>
    obtain ⟨k1, y⟩ := e
    by_cases h1 : k1 = key
    · subst h1
      simp [setField, List.lookup_cons]
    · have h2 : (key == k1) = false := by simpa using fun h3 => h1 h3.symm
      simp only [List.lookup_cons, h2] at h
      simp [setField, h1, List.lookup_cons, h2, ih h]

theorem setField_setField (key : Str) (v v1 : Json) (fs : List (Str × Json)) :
    setField key v1 (setField key v fs) = setField key v1 fs := by
  induction fs with
  | nil => rfl
  | cons e rest ih =>
    obtain ⟨k1, y⟩ := e
    by_cases h1 : k1 = key
    · simp [setField, h1]
    · simp [setField, h1, ih]

theorem setField_comm (k k1 : Str) (h : k ≠ k1) (v v1 : Json) (fs : List (Str × Json)) :
    setField k v (setField k1 v1 fs) = setField k1 v1 (setField k v fs) := by
  induction fs with
  | nil => rfl
  | cons e rest ih =>
    obtain ⟨k2, y⟩ := e
    by_cases h1 : k2 = k
    · subst h1
      simp [setField, h]
    · by_cases h2 : k2 = k1
      · subst h2
        simp [setField, h1]
      · simp [setField, h1, h2, ih]

theorem get_set_ne (j : Json) (key k : Str) (v : Json) (h : k ≠ key) :
    (j.set key v).get k = j.get k := by
  cases j <;> simp [Json.set, Json.get, lookup_setField_ne _ _ _ _ h]

theorem get_set_same (j : Json) (key : Str) (v x : Json) (h : j.get key = some x) :
    (j.set key v).get key = some v := by
  cases j <;> simp [Json.get] at h
  simp [Json.set, Json.get, lookup_setField_same _ _ _ _ h]

theorem set_set (j : Json) (key : Str) (v v1 : Json) :
    (j.set key v).set key v1 = j.set key v1 := by
  cases j <;> simp [Json.set, setField_setField]

theorem set_comm (j : Json) (k k1 : Str) (h : k ≠ k1) (v v1 : Json) :
    (j.set k1 v1).set k v = (j.set k v).set k1 v1 := by
  cases j <;> simp [Json.set, setField_comm _ _ h]


/-! ### The frame of `visit` -/

theorem visitItem_mask (r : relocator) (recur : Str → World → Outcome Unit) (vc : VisitorContext)
    (item item1 : Json) (w w1 : World) (h : visitItem r recur vc item w = Outcome.ok item1 w1) :
    maskItem item1 = maskItem item := by
  unfold visitItem at h
  split at h
  · split at h
    · simp only [Outcome.ok.injEq] at h
      rw [← h.1]
    · split at h
      · simp only [Outcome.ok.injEq] at h
        rw [← h.1]
        simp [maskItem, Json.set, setField_setField]
      · simp only [Outcome.ok.injEq] at h
        rw [← h.1]
      · simp at h
      · simp at h
    · simp at h
  · simp only [Outcome.ok.injEq] at h
    rw [← h.1]

theorem visitAllOfItems_mask (r : relocator) (recur : Str → World → Outcome Unit)
    (vc : VisitorContext) (items items1 : List Json) (w w1 : World)
    (h : visitAllOfItems r recur vc items w = Outcome.ok items1 w1) :
    items1.map maskItem = items.map maskItem := by
  induction items generalizing items1 w w1 with
  | nil =>
    simp only [visitAllOfItems, Outcome.ok.injEq] at h
    rw [← h.1]
  | cons item rest ih =>
    simp only [visitAllOfItems] at h
    split at h
    · rename_i item1 w2 h1
      split at h
      · rename_i rest1 w3 h2
        simp only [Outcome.ok.injEq] at h
        rw [← h.1]
        simp [visitItem_mask _ _ _ _ _ _ _ h1, ih _ _ _ h2]
      · simp at h
      · simp at h
    · simp at h
    · simp at h

theorem visitPropertyEntries_mask (r : relocator) (recur : Str → World → Outcome Unit)
    (vc : VisitorContext) (ps ps1 : List (Str × Json)) (w w1 : World)
    (h : visitPropertyEntries r recur vc ps w = Outcome.ok ps1 w1) :
    ps1.map (fun e => (e.1, maskItem e.2)) = ps.map (fun e => (e.1, maskItem e.2)) := by
  induction ps generalizing ps1 w w1 with
  | nil =>
    simp only [visitPropertyEntries, Outcome.ok.injEq] at h
    rw [← h.1]
  | cons e rest ih =>
    obtain ⟨k, item⟩ := e
    simp only [visitPropertyEntries] at h
    split at h
    · rename_i item1 w2 h1
      split at h
      · rename_i rest1 w3 h2
        simp only [Outcome.ok.injEq] at h
        rw [← h.1]
        simp [visitItem_mask _ _ _ _ _ _ _ h1, ih _ _ _ h2]
      · simp at h
      · simp at h
    · simp at h
    · simp at h

/-- The shape of a successful `visitProperties`: nothing changes, or the value of
`properties` is replaced by an object whose entries differ in their `$ref` only. -/
theorem visitProperties_shape (r : relocator) (recur : Str → World → Outcome Unit)
    (vc : VisitorContext) (d d1 : Json) (w w1 : World)
    (h : visitProperties r recur d vc w = Outcome.ok d1 w1) :
    d1 = d ∨ ∃ ps ps1, d.get propertiesKey = some (Json.obj ps) ∧
      d1 = d.set propertiesKey (Json.obj ps1) ∧
      ps1.map (fun e => (e.1, maskItem e.2)) = ps.map (fun e => (e.1, maskItem e.2)) := by
  unfold visitProperties at h
  split at h
  · rename_i ps hget
    split at h
    · rename_i ps1 w2 h1
      simp only [Outcome.ok.injEq] at h
      exact Or.inr ⟨ps, ps1, hget, h.1.symm, visitPropertyEntries_mask _ _ _ _ _ _ _ h1⟩
    · simp at h
    · simp at h
  · simp only [Outcome.ok.injEq] at h
    exact Or.inl h.1.symm

/-- The shape of a successful `visitAllOf`. -/
theorem visitAllOf_shape (r : relocator) (recur : Str → World → Outcome Unit)
    (vc : VisitorContext) (d d1 : Json) (w w1 : World)
    (h : visitAllOf r recur d vc w = Outcome.ok d1 w1) :
    d1 = d ∨ ∃ xs xs1, d.get allOfKey = some (Json.arr xs) ∧
      d1 = d.set allOfKey (Json.arr xs1) ∧ xs1.map maskItem = xs.map maskItem := by
  unfold visitAllOf at h
  split at h
  · rename_i xs hget
    split at h
    · rename_i xs1 w2 h1
      simp only [Outcome.ok.injEq] at h
      exact Or.inr ⟨xs, xs1, hget, h.1.symm, visitAllOfItems_mask _ _ _ _ _ _ _ h1⟩
    · simp at h
    · simp at h
  · simp only [Outcome.ok.injEq] at h
    exact Or.inl h.1.symm

theorem maskProperties_set_ne (d : Json) (k : Str) (v : Json) (h : k ≠ propertiesKey) :
    maskProperties (d.set k v) = (maskProperties d).set k v := by
  unfold maskProperties
  rw [get_set_ne _ _ _ _ (Ne.symm h)]
  split
  · rw [set_comm _ _ _ h.symm]
  · rfl

theorem maskAllOf_set_ne (d : Json) (k : Str) (v : Json) (h : k ≠ allOfKey) :
    maskAllOf (d.set k v) = (maskAllOf d).set k v := by
  unfold maskAllOf
  rw [get_set_ne _ _ _ _ (Ne.symm h)]
  split
  · rw [set_comm _ _ _ h.symm]
  · rfl

theorem maskProperties_visit (r : relocator) (recur : Str → World → Outcome Unit)
    (vc : VisitorContext) (d d1 : Json) (w w1 : World)
    (h : visitProperties r recur d vc w = Outcome.ok d1 w1) :
    maskProperties d1 = maskProperties d := by
  rcases visitProperties_shape _ _ _ _ _ _ _ h with h1 | ⟨ps, ps1, hget, hd, hm⟩
  · rw [h1]
  · subst hd
    unfold maskProperties
    rw [get_set_same _ _ _ _ hget, hget]
    simp only [set_set, hm]

theorem maskAllOf_visit (r : relocator) (recur : Str → World → Outcome Unit)
    (vc : VisitorContext) (d d1 : Json) (w w1 : World)
    (h : visitAllOf r recur d vc w = Outcome.ok d1 w1) :
    maskAllOf d1 = maskAllOf d := by
  rcases visitAllOf_shape _ _ _ _ _ _ _ h with h1 | ⟨xs, xs1, hget, hd, hm⟩
  · rw [h1]
  · subst hd
    unfold maskAllOf
    rw [get_set_same _ _ _ _ hget, hget]
    simp only [set_set, hm]

theorem visitProperties_get (r : relocator) (recur : Str → World → Outcome Unit)
    (vc : VisitorContext) (d d1 : Json) (w w1 : World)
    (h : visitProperties r recur d vc w = Outcome.ok d1 w1) (k : Str) (hk : k ≠ propertiesKey) :
    d1.get k = d.get k := by
  rcases visitProperties_shape _ _ _ _ _ _ _ h with h1 | ⟨ps, ps1, _, hd, _⟩
  · rw [h1]
  · rw [hd, get_set_ne _ _ _ _ hk]

theorem visitAllOf_get (r : relocator) (recur : Str → World → Outcome Unit)
    (vc : VisitorContext) (d d1 : Json) (w w1 : World)
    (h : visitAllOf r recur d vc w = Outcome.ok d1 w1) (k : Str) (hk : k ≠ allOfKey) :
    d1.get k = d.get k := by
  rcases visitAllOf_shape _ _ _ _ _ _ _ h with h1 | ⟨xs, xs1, _, hd, _⟩
  · rw [h1]
  · rw [hd, get_set_ne _ _ _ _ hk]

theorem visitDefinition_inv (r : relocator) (recur : Str → World → Outcome Unit)
    (vc : VisitorContext) (d d2 : Json) (w w2 : World)
    (h : visitDefinition r recur vc d w = Outcome.ok d2 w2) :
    ∃ d1 w1, visitProperties r recur d vc w = Outcome.ok d1 w1 ∧
      visitAllOf r recur d1 vc w1 = Outcome.ok d2 w2 := by
  unfold visitDefinition at h
  split at h
  · rename_i d1 w1 h1
    exact ⟨d1, w1, h1, h⟩
  · simp at h
  · simp at h

theorem visitDefinition_get (r : relocator) (recur : Str → World → Outcome Unit)
    (vc : VisitorContext) (d d2 : Json) (w w2 : World)
    (h : visitDefinition r recur vc d w = Outcome.ok d2 w2) (k : Str)
    (hp : k ≠ propertiesKey) (ha : k ≠ allOfKey) : d2.get k = d.get k := by
  obtain ⟨d1, w1, h1, h2⟩ := visitDefinition_inv _ _ _ _ _ _ _ h
  rw [visitAllOf_get _ _ _ _ _ _ _ h2 k ha, visitProperties_get _ _ _ _ _ _ _ h1 k hp]

theorem propertiesKey_ne_allOfKey : propertiesKey ≠ allOfKey := by decide

theorem maskDefinition_visit (r : relocator) (recur : Str → World → Outcome Unit)
    (vc : VisitorContext) (d d2 : Json) (w w2 : World)
    (h : visitDefinition r recur vc d w = Outcome.ok d2 w2) :
    maskDefinition d2 = maskDefinition d := by
  obtain ⟨d1, w1, h1, h2⟩ := visitDefinition_inv _ _ _ _ _ _ _ h
  have hP := maskProperties_visit _ _ _ _ _ _ _ h1
  have hA := maskAllOf_visit _ _ _ _ _ _ _ h2
  unfold maskDefinition
  rw [← hP]
  rcases visitAllOf_shape _ _ _ _ _ _ _ h2 with e | ⟨xs, xs1, hget, hd, hm⟩
  · rw [e]
  · -- `d2 = d1.set allOf _`
    rw [hd] at hA ⊢
    rw [maskProperties_set_ne _ _ _ (Ne.symm propertiesKey_ne_allOfKey)]
    -- describe `maskProperties d1` as an update of `d1`
    have key : ∀ m : Json, maskAllOf ((d1.set propertiesKey m).set allOfKey (Json.arr xs1))
        = maskAllOf (d1.set propertiesKey m) := by
      intro m
      rw [set_comm _ _ _ (Ne.symm propertiesKey_ne_allOfKey),
        maskAllOf_set_ne _ _ _ propertiesKey_ne_allOfKey, hA,
        maskAllOf_set_ne _ _ _ propertiesKey_ne_allOfKey]
    unfold maskProperties
    split
    · exact key _
    · exact hA


theorem visitDefinitionEntries_mask (r : relocator) (recur : Str → World → Outcome Unit)
    (vc : VisitorContext) (ds ds1 : List (Str × Json)) (w w1 : World)
    (h : visitDefinitionEntries r recur vc ds w = Outcome.ok ds1 w1) :
    ds1.map (fun e => (e.1, maskDefinition e.2)) = ds.map (fun e => (e.1, maskDefinition e.2)) := by
  induction ds generalizing ds1 w w1 with
  | nil =>
    simp only [visitDefinitionEntries, Outcome.ok.injEq] at h
    rw [← h.1]
  | cons e rest ih =>
    obtain ⟨k, d⟩ := e
    simp only [visitDefinitionEntries] at h
    split at h
    · rename_i d1 w2 h1
      split at h
      · rename_i rest1 w3 h2
        simp only [Outcome.ok.injEq] at h
        rw [← h.1]
        simp [maskDefinition_visit _ _ _ _ _ _ _ h1, ih _ _ _ h2]
      · simp at h
      · simp at h
    · simp at h
    · simp at h

/-- The two ways in which `visit` returns a document. -/
theorem visit_inv (r : relocator) (recur : Str → World → Outcome Unit)
    (vc : VisitorContext) (schema out : Json) (w w3 : World)
    (h : visit r recur schema vc w = Outcome.ok (some out) w3) :
    ∃ s2 w2, visitDefinition r recur vc schema w = Outcome.ok s2 w2 ∧
      ((∃ defs defs1, s2.get defKey = some (Json.obj defs) ∧
          visitDefinitionEntries r recur vc defs w2 = Outcome.ok defs1 w3 ∧
          out = s2.set defKey (Json.obj defs1)) ∨
        ((∀ defs, s2.get defKey ≠ some (Json.obj defs)) ∧ out = s2 ∧ w3 = w2)) := by
  unfold visit at h
  split at h
  · rename_i s2 w2 h1
    refine ⟨s2, w2, h1, ?_⟩
    split at h
    · rename_i defs hget
      split at h
      · rename_i defs1 w4 h2
        simp only [Outcome.ok.injEq, Option.some.injEq] at h
        refine Or.inl ⟨defs, defs1, hget, ?_, h.1.symm⟩
        rw [h2, h.2]
      · simp at h
      · simp at h
    · rename_i hne
      simp only [Outcome.ok.injEq, Option.some.injEq] at h
      exact Or.inr ⟨fun defs hd => hne defs hd, h.1.symm, h.2.symm⟩
  · simp at h
  · simp at h

theorem defKey_ne_propertiesKey : defKey ≠ propertiesKey := by decide

theorem defKey_ne_allOfKey : defKey ≠ allOfKey := by decide

theorem maskDefinition_set_ne (d : Json) (k : Str) (v : Json) (hp : k ≠ propertiesKey)
    (ha : k ≠ allOfKey) : maskDefinition (d.set k v) = (maskDefinition d).set k v := by
  unfold maskDefinition
  rw [maskProperties_set_ne _ _ _ hp, maskAllOf_set_ne _ _ _ ha]

theorem maskDefinition_get (d : Json) (k : Str) (hp : k ≠ propertiesKey) (ha : k ≠ allOfKey) :
    (maskDefinition d).get k = d.get k := by
  have h1 : (maskProperties d).get k = d.get k := by
    unfold maskProperties
    split
    · rw [get_set_ne _ _ _ _ hp]
    · rfl
  have h2 : (maskAllOf (maskProperties d)).get k = (maskProperties d).get k := by
    unfold maskAllOf
    split
    · rw [get_set_ne _ _ _ _ ha]
    · rfl
  unfold maskDefinition
  rw [h2, h1]

theorem maskSchema_visit (r : relocator) (recur : Str → World → Outcome Unit)
    (vc : VisitorContext) (schema out : Json) (w w3 : World)
    (h : visit r recur schema vc w = Outcome.ok (some out) w3) :
    maskSchema out = maskSchema schema := by
  obtain ⟨s2, w2, h1, h2⟩ := visit_inv _ _ _ _ _ _ _ h
  have hM := maskDefinition_visit _ _ _ _ _ _ _ h1
  rcases h2 with ⟨defs, defs1, hget, hv, hout⟩ | ⟨_, hout, _⟩
  · have hm := visitDefinitionEntries_mask _ _ _ _ _ _ _ hv
    have hg : (maskDefinition s2).get defKey = some (Json.obj defs) := by
      rw [maskDefinition_get _ _ defKey_ne_propertiesKey defKey_ne_allOfKey, hget]
    unfold maskSchema
    rw [hout, maskDefinition_set_ne _ _ _ defKey_ne_propertiesKey defKey_ne_allOfKey,
      get_set_same _ _ _ _ hg, ← hM, hg]
    simp only [set_set, hm]
  · unfold maskSchema
    rw [hout, hM]

theorem visit_get (r : relocator) (recur : Str → World → Outcome Unit)
    (vc : VisitorContext) (schema out : Json) (w w3 : World)
    (h : visit r recur schema vc w = Outcome.ok (some out) w3) (k : Str)
    (hp : k ≠ propertiesKey) (ha : k ≠ allOfKey) (hd : k ≠ defKey) :
    out.get k = schema.get k := by
  obtain ⟨s2, w2, h1, h2⟩ := visit_inv _ _ _ _ _ _ _ h
  have hg := visitDefinition_get _ _ _ _ _ _ _ h1 k hp ha
  rcases h2 with ⟨defs, defs1, _, _, hout⟩ | ⟨_, hout, _⟩
  · rw [hout, get_set_ne _ _ _ _ hd, hg]
  · rw [hout, hg]


theorem maskItem_get (a : Json) (key : Str) (hk : key ≠ refKey) :
    (maskItem a).get key = a.get key := by
  unfold maskItem
  rw [get_set_ne _ _ _ _ hk]

theorem lookup_of_mask_eq (ps ps1 : List (Str × Json))
    (h : ps1.map (fun e => (e.1, maskItem e.2)) = ps.map (fun e => (e.1, maskItem e.2)))
    (k key : Str) (hk : key ≠ refKey) :
    (ps1.lookup k).bind (fun v => v.get key) = (ps.lookup k).bind (fun v => v.get key) := by
  induction ps generalizing ps1 with
  | nil =>
    simp only [List.map_nil, List.map_eq_nil_iff] at h
    rw [h]
  | cons e rest ih =>
    cases ps1 with
    | nil => simp at h
    | cons e1 rest1 =>
      obtain ⟨k1, a1⟩ := e1
      obtain ⟨k0, a0⟩ := e
      simp only [List.map_cons, List.cons.injEq, Prod.mk.injEq] at h
      obtain ⟨⟨hk1, ha⟩, hrest⟩ := h
      subst hk1
      simp only [List.lookup_cons]
      cases hb : (k == k1) with
      | true =>
        simp only [Option.some_bind]
        rw [← maskItem_get a1 key hk, ← maskItem_get a0 key hk, ha]
      | false => exact ih rest1 hrest

theorem at_two (j : Json) (k key : Str) :
    j.at? [k, key] = (j.get k).bind (fun v => v.get key) := by
  cases h : j.get k with
  | none => simp [Json.at?, h]
  | some v =>
    cases h1 : v.get key with
    | none => simp [Json.at?, h, h1]
    | some x => simp [Json.at?, h, h1]

theorem at_cons (j : Json) (k : Str) (ks : List Str) :
    j.at? (k :: ks) = (j.get k).bind (fun v => v.at? ks) := by
  cases h : j.get k with
  | none => simp [Json.at?, h]
  | some v => simp [Json.at?, h]

theorem visit_at_properties (r : relocator) (recur : Str → World → Outcome Unit)
    (vc : VisitorContext) (schema out : Json) (w w3 : World)
    (h : visit r recur schema vc w = Outcome.ok (some out) w3) (k key : Str)
    (hk : key ≠ refKey) :
    out.at? [propertiesKey, k, key] = schema.at? [propertiesKey, k, key] := by
  obtain ⟨s2, w2, h1, h2⟩ := visit_inv _ _ _ _ _ _ _ h
  obtain ⟨d1, w1, hp, ha⟩ := visitDefinition_inv _ _ _ _ _ _ _ h1
  have e1 : out.get propertiesKey = s2.get propertiesKey := by
    rcases h2 with ⟨defs, defs1, _, _, hout⟩ | ⟨_, hout, _⟩
    · rw [hout, get_set_ne _ _ _ _ (Ne.symm defKey_ne_propertiesKey)]
    · rw [hout]
  have e2 : s2.get propertiesKey = d1.get propertiesKey :=
    visitAllOf_get _ _ _ _ _ _ _ ha _ propertiesKey_ne_allOfKey
  rw [at_cons, at_cons schema, e1, e2]
  rcases visitProperties_shape _ _ _ _ _ _ _ hp with e | ⟨ps, ps1, hget, hd, hm⟩
  · rw [e]
  · rw [hd, get_set_same _ _ _ _ hget, hget]
    simp only [Option.some_bind, at_two, Json.get]
    exact lookup_of_mask_eq ps ps1 hm k key hk

/-! ## The library model on the examples of the Go documentation and tests -/

/-- `Clean`, `Join`, `Dir` and `Rel` on inputs taken from the tables of the tests of
`path/filepath`. -/
theorem filepath_examples :
    Clean "".toList = ".".toList ∧
    Clean "abc//def//ghi".toList = "abc/def/ghi".toList ∧
    Clean "abc/def/../../..".toList = "..".toList ∧
    Clean "/abc/def/../../..".toList = "/".toList ∧
    Clean "abc/def/../../../ghi/jkl/../../../mno".toList = "../../mno".toList ∧
    Clean "/../abc".toList = "/abc".toList ∧
    Clean "abc/../../././../def".toList = "../../def".toList ∧
    Join "a".toList "b".toList = "a/b".toList ∧
    Join "a".toList "".toList = "a".toList ∧
    Join "".toList "b".toList = "b".toList ∧
    Join "/".toList "a/b".toList = "/a/b".toList ∧
    Join "".toList "".toList = "".toList ∧
    Dir "".toList = ".".toList ∧
    Dir "/foo".toList = "/".toList ∧
    Dir "x/".toList = "x".toList ∧
    Dir "abc/def".toList = "abc".toList ∧
    filepath.Rel "/a/b".toList "/a/b/.".toList = some ".".toList ∧
    filepath.Rel "/ab/cd".toList "/ab/cde".toList = some "../cde".toList ∧
    filepath.Rel "/a/b/c".toList "/a/c/d".toList = some "../../c/d".toList ∧
    filepath.Rel "/a/b/c/d/".toList "/a/b/".toList = some "../..".toList ∧
    filepath.Rel "/../../a/b".toList "/../../a/b/c/d".toList = some "c/d".toList ∧
    filepath.Rel ".".toList "a/b".toList = some "a/b".toList ∧
    filepath.Rel "a".toList "/a".toList = none ∧
    filepath.Rel "/a".toList "a".toList = none := by
  decide

/-! ## `strings.Split` -/

theorem Split_ne_nil (s : Str) (c : Char) : Split s c ≠ [] := by
  cases s with
  | nil => simp [Split]
  | cons x xs =>
    unfold Split
    split
    · simp
    · split <;> simp

theorem Split_cons_sep (c : Char) (s : Str) : Split (c :: s) c = [] :: Split s c := by
  simp [Split]

theorem Split_cons_ne (x c : Char) (s : Str) (h : x ≠ c) :
    Split (x :: s) c = (x :: (Split s c).headD []) :: (Split s c).tail := by
  have hne := Split_ne_nil s c
  conv_lhs => unfold Split
  simp only [h, if_false]
  cases hs : Split s c with
  | nil => exact absurd hs hne
  | cons a t => simp

theorem Split_append (a b : Str) (c : Char) :
    Split (a ++ c :: b) c = Split a c ++ Split b c := by
  induction a with
  | nil => simp [Split]
  | cons x xs ih =>
    by_cases h : x = c
    · subst h
      simp [Split_cons_sep, ih]
    · have hne := Split_ne_nil xs x
      rw [List.cons_append, Split_cons_ne _ _ _ h, Split_cons_ne _ _ _ h, ih]
      cases hs : Split xs c with
      | nil => exact absurd hs (Split_ne_nil xs c)
      | cons p t => simp

theorem Split_of_not_mem (a : Str) (c : Char) (h : c ∉ a) : Split a c = [a] := by
  induction a with
  | nil => simp [Split]
  | cons x xs ih =>
    have hx : x ≠ c := fun e => h (by simp [e])
    have hxs : c ∉ xs := fun e => h (by simp [e])
    rw [Split_cons_ne _ _ _ hx, ih hxs]
    simp

theorem not_mem_of_mem_Split (s : Str) (c : Char) (e : Str) (h : e ∈ Split s c) : c ∉ e := by
  induction s generalizing e with
  | nil =>
    simp only [Split, List.mem_singleton] at h
    simp [h]
  | cons x xs ih =>
    by_cases hx : x = c
    · subst hx
      rw [Split_cons_sep] at h
      rcases List.mem_cons.1 h with h1 | h1
      · simp [h1]
      · exact ih e h1
    · rw [Split_cons_ne _ _ _ hx] at h
      have hne := Split_ne_nil xs c
      cases hs : Split xs c with
      | nil => exact absurd hs hne
      | cons p t =>
        rw [hs] at h ih
        simp only [List.headD_cons, List.tail_cons, List.mem_cons] at h
        rcases h with h1 | h1
        · have hp := ih p (by simp)
          rw [h1]
          intro hm
          rcases List.mem_cons.1 hm with h2 | h2
          · exact hx h2.symm
          · exact hp h2
        · exact ih e (by simp [h1])

/-! ## `joinElems` -/

theorem joinElems_cons_cons (c d : Str) (cs : List Str) :
    joinElems (c :: d :: cs) = c ++ Separator :: joinElems (d :: cs) := rfl

theorem joinElems_cons (c : Str) (cs : List Str) (h : cs ≠ []) :
    joinElems (c :: cs) = c ++ Separator :: joinElems cs := by
  cases cs with
  | nil => exact absurd rfl h
  | cons d ds => rfl

theorem joinElems_append (xs ys : List Str) (hx : xs ≠ []) (hy : ys ≠ []) :
    joinElems (xs ++ ys) = joinElems xs ++ Separator :: joinElems ys := by
  induction xs with
  | nil => exact absurd rfl hx
  | cons x rest ih =>
    cases rest with
    | nil =>
      simp only [List.singleton_append]
      rw [joinElems_cons _ _ hy]
      rfl
    | cons y rest1 =>
      have e1 : joinElems (x :: (y :: rest1 ++ ys)) = x ++ Separator :: joinElems (y :: rest1 ++ ys) :=
        joinElems_cons _ _ (by simp)
      rw [List.cons_append, e1, ih (by simp), joinElems_cons_cons]
      simp

theorem Split_joinElems (xs : List Str) (hx : xs ≠ []) (h : ∀ e ∈ xs, Separator ∉ e) :
    Split (joinElems xs) Separator = xs := by
  induction xs with
  | nil => exact absurd rfl hx
  | cons x rest ih =>
    cases rest with
    | nil =>
      simp only [joinElems]
      exact Split_of_not_mem _ _ (h x (by simp))
    | cons y rest1 =>
      rw [joinElems_cons_cons, Split_append, Split_of_not_mem _ _ (h x (by simp)),
        ih (by simp) (fun e he => h e (by simp [he]))]
      simp


/-! ## `filepath.Clean` on rooted paths -/

theorem cleanStep_real (b : Bool) (st : List Str) (c : Str) (h : RealElem c) :
    cleanStep b st c = c :: st := by
  obtain ⟨h1, h2, h3, _⟩ := h
  simp [cleanStep, h1, h2, h3]

theorem foldl_cleanStep_real (b : Bool) (st xs : List Str) (h : ∀ e ∈ xs, RealElem e) :
    xs.foldl (cleanStep b) st = xs.reverse ++ st := by
  induction xs generalizing st with
  | nil => rfl
  | cons x rest ih =>
    rw [List.foldl_cons, cleanStep_real b st x (h x (by simp)),
      ih _ (fun e he => h e (by simp [he]))]
    simp

theorem cleanStep_all_real (st : List Str) (c : Str) (hst : ∀ e ∈ st, RealElem e)
    (hc : Separator ∉ c) : ∀ e ∈ cleanStep true st c, RealElem e := by
  unfold cleanStep
  split
  · exact hst
  · rename_i h1
    split
    · cases st with
      | nil => simp
      | cons top rest =>
        have htop : top ≠ dotdot := (hst top (by simp)).2.2.1
        simp only [htop, if_false]
        exact fun e he => hst e (by simp [he])
    · rename_i h2
      intro e he
      rcases List.mem_cons.1 he with h3 | h3
      · rw [h3]
        exact ⟨fun e0 => h1 (Or.inl e0), fun e0 => h1 (Or.inr e0), h2, hc⟩
      · exact hst e h3

theorem foldl_cleanStep_all_real (st xs : List Str) (hst : ∀ e ∈ st, RealElem e)
    (hxs : ∀ e ∈ xs, Separator ∉ e) : ∀ e ∈ xs.foldl (cleanStep true) st, RealElem e := by
  induction xs generalizing st with
  | nil => exact hst
  | cons x rest ih =>
    rw [List.foldl_cons]
    exact ih _ (cleanStep_all_real st x hst (hxs x (by simp)))
      (fun e he => hxs e (by simp [he]))

theorem absElems_real (p : Str) : ∀ e ∈ absElems p, RealElem e := by
  intro e he
  unfold absElems cleanElems at he
  rw [List.mem_reverse] at he
  exact foldl_cleanStep_all_real [] _ (by simp) (fun x hx => not_mem_of_mem_Split _ _ _ hx) e he

theorem IsAbs_iff (p : Str) : IsAbs p = true ↔ ∃ q, p = Separator :: q := by
  cases p with
  | nil => simp [IsAbs, HasPrefix, List.isPrefixOf]
  | cons x xs =>
    simp only [IsAbs, HasPrefix, List.isPrefixOf, Bool.and_true, beq_iff_eq, List.cons.injEq,
      exists_eq_right']
    exact eq_comm

theorem Clean_abs (p : Str) (h : IsAbs p = true) :
    Clean p = Separator :: joinElems (absElems p) := by
  obtain ⟨q, rfl⟩ := (IsAbs_iff p).1 h
  simp [Clean, absElems]

theorem absElems_cons_sep (q : Str) :
    absElems (Separator :: q) = cleanElems true (Split q Separator) := by
  unfold absElems
  rw [Split_cons_sep]
  simp [cleanElems, cleanStep]

theorem cleanElems_real (b : Bool) (xs : List Str) (h : ∀ e ∈ xs, RealElem e) :
    cleanElems b xs = xs := by
  unfold cleanElems
  rw [foldl_cleanStep_real b [] xs h]
  simp

theorem absElems_root_join (xs : List Str) (h : ∀ e ∈ xs, RealElem e) :
    absElems (Separator :: joinElems xs) = xs := by
  rw [absElems_cons_sep]
  cases xs with
  | nil => simp [joinElems, Split, cleanElems, cleanStep]
  | cons x rest =>
    rw [Split_joinElems _ (by simp) (fun e he => (h e he).2.2.2), cleanElems_real _ _ h]

theorem absElems_Clean (p : Str) (h : IsAbs p = true) : absElems (Clean p) = absElems p := by
  rw [Clean_abs p h, absElems_root_join _ (absElems_real p)]

theorem IsAbs_cons_sep (q : Str) : IsAbs (Separator :: q) = true :=
  (IsAbs_iff _).2 ⟨q, rfl⟩

theorem IsAbs_Clean (p : Str) (h : IsAbs p = true) : IsAbs (Clean p) = true := by
  rw [Clean_abs p h]
  exact IsAbs_cons_sep _

theorem Clean_Clean (p : Str) (h : IsAbs p = true) : Clean (Clean p) = Clean p := by
  rw [Clean_abs (Clean p) (IsAbs_Clean p h), absElems_Clean p h, ← Clean_abs p h]

theorem Clean_root_join (xs : List Str) (h : ∀ e ∈ xs, RealElem e) :
    Clean (Separator :: joinElems xs) = Separator :: joinElems xs := by
  rw [Clean_abs _ (IsAbs_cons_sep _), absElems_root_join xs h]

theorem root_join_inj (xs ys : List Str) (hx : ∀ e ∈ xs, RealElem e) (hy : ∀ e ∈ ys, RealElem e)
    (h : Separator :: joinElems xs = Separator :: joinElems ys) : xs = ys := by
  rw [← absElems_root_join xs hx, ← absElems_root_join ys hy, h]


/-! ## `filepath.Join` on a rooted first argument -/

theorem absElems_reverse (a : Str) :
    (absElems a).reverse = (Split a Separator).foldl (cleanStep true) [] := by
  simp [absElems, cleanElems]

theorem Join_abs (a b : Str) (h : IsAbs a = true) :
    Join a b = Separator ::
      joinElems (((Split b Separator).foldl (cleanStep true) (absElems a).reverse).reverse) := by
  obtain ⟨q, rfl⟩ := (IsAbs_iff a).1 h
  have e : Clean (Separator :: q ++ Separator :: b)
      = Separator :: joinElems (absElems (Separator :: q ++ Separator :: b)) :=
    Clean_abs _ (IsAbs_cons_sep _)
  simp only [filepath.Join, ne_eq, reduceCtorEq, not_false_eq_true, if_true]
  rw [e, absElems_reverse]
  congr 2
  rw [← List.foldl_append, ← Split_append, absElems, cleanElems]

theorem Join_abs_real (a : Str) (ys : List Str) (h : IsAbs a = true) (hne : ys ≠ [])
    (hy : ∀ e ∈ ys, RealElem e) :
    Join a (joinElems ys) = Separator :: joinElems (absElems a ++ ys) := by
  rw [Join_abs a _ h, Split_joinElems ys hne (fun e he => (hy e he).2.2.2),
    foldl_cleanStep_real _ _ _ hy]
  simp

theorem Join_abs_dot (a : Str) (h : IsAbs a = true) :
    Join a ['.'] = Separator :: joinElems (absElems a) := by
  rw [Join_abs a _ h]
  simp [Split, Separator, cleanStep]

theorem foldl_cleanStep_pop (pops st : List Str) (h : ∀ e ∈ pops, RealElem e) :
    (List.replicate pops.length dotdot).foldl (cleanStep true) (pops ++ st) = st := by
  induction pops with
  | nil => rfl
  | cons top rest ih =>
    have htop : top ≠ dotdot := (h top (by simp)).2.2.1
    simp only [List.length_cons, List.replicate_succ, List.foldl_cons, List.cons_append]
    have e : cleanStep true (top :: (rest ++ st)) dotdot = rest ++ st := by
      simp [cleanStep, dotdot, htop]
      intro h1
      exact absurd h1 htop
    rw [e]
    exact ih (fun e he => h e (by simp [he]))

theorem Separator_not_mem_dotdot : Separator ∉ dotdot := by decide

/-- Joining a rooted path with a relative path that first climbs out of the last elements
`rb` and then descends through `rt`. -/
theorem Join_abs_updown (a : Str) (base rb rt : List Str) (h : IsAbs a = true)
    (ha : absElems a = base ++ rb) (hrt : ∀ e ∈ rt, RealElem e)
    (hne : rb.map (fun _ => dotdot) ++ rt ≠ []) :
    Join a (joinElems (rb.map (fun _ => dotdot) ++ rt)) = Separator :: joinElems (base ++ rt) := by
  have hrb : ∀ e ∈ rb, RealElem e := fun e he => absElems_real a e (by rw [ha]; simp [he])
  rw [Join_abs a _ h, Split_joinElems _ hne]
  · rw [List.foldl_append, ha, List.reverse_append, List.map_const', ← List.length_reverse,
      foldl_cleanStep_pop rb.reverse base.reverse (fun e he => hrb e (List.mem_reverse.1 he)),
      foldl_cleanStep_real _ _ _ hrt]
    simp
  · intro e he
    rcases List.mem_append.1 he with h1 | h1
    · obtain ⟨_, _, rfl⟩ := List.mem_map.1 h1
      exact Separator_not_mem_dotdot
    · exact (hrt e h1).2.2.2


/-! ## `filepath.Rel` on rooted paths -/

theorem dropCommon_spec (bs ts : List Str) :
    ∃ cm, bs = cm ++ (dropCommon bs ts).1 ∧ ts = cm ++ (dropCommon bs ts).2 := by
  induction bs generalizing ts with
  | nil => exact ⟨[], by simp [dropCommon]⟩
  | cons b rest ih =>
    cases ts with
    | nil => exact ⟨[], by simp [dropCommon]⟩
    | cons t ts1 =>
      by_cases h : b = t
      · subst h
        obtain ⟨cm, h1, h2⟩ := ih ts1
        refine ⟨b :: cm, ?_, ?_⟩
        · simp only [dropCommon, if_true, List.cons_append, List.cons.injEq, true_and]
          exact h1
        · simp only [dropCommon, if_true, List.cons_append, List.cons.injEq, true_and]
          exact h2
      · exact ⟨[], by simp [dropCommon, h]⟩

theorem dropCommon_append (e xs ys : List Str) :
    dropCommon (e ++ xs) (e ++ ys) = dropCommon xs ys := by
  induction e with
  | nil => rfl
  | cons x rest ih => simp [dropCommon, ih]

theorem dropCommon_nil_left (ys : List Str) : dropCommon [] ys = ([], ys) := by
  cases ys <;> rfl

theorem dropCommon_prefix (e ys : List Str) : dropCommon e (e ++ ys) = ([], ys) := by
  have h := dropCommon_append e [] ys
  rw [List.append_nil] at h
  rw [h, dropCommon_nil_left]

theorem joinElems_ne_nil (x : Str) (rest : List Str) (hx : x ≠ []) :
    joinElems (x :: rest) ≠ [] := by
  cases rest with
  | nil => simpa [joinElems] using hx
  | cons y ys => simp [joinElems, hx]

theorem relElems_root_join (xs : List Str) (h : ∀ e ∈ xs, RealElem e) :
    relElems (Separator :: joinElems xs) = [] :: xs := by
  cases xs with
  | nil => simp [relElems, joinElems]
  | cons x rest =>
    have hne := joinElems_ne_nil x rest (h x (by simp)).1
    unfold relElems
    simp only [reduceCtorEq, if_false, List.cons.injEq, true_and, hne]
    rw [Split_cons_sep, Split_joinElems _ (by simp) (fun e he => (h e he).2.2.2)]

/-- `Rel` between two rooted paths never fails: it climbs out of the elements of the base
that the target does not share and descends through the remaining elements of the target. -/
theorem Rel_abs (b t : Str) (hb : IsAbs b = true) (ht : IsAbs t = true) :
    filepath.Rel b t =
      if absElems t = absElems b then some ['.']
      else some (joinElems ((dropCommon (absElems b) (absElems t)).1.map (fun _ => dotdot)
        ++ (dropCommon (absElems b) (absElems t)).2)) := by
  have hB := absElems_real b
  have hT := absElems_real t
  unfold filepath.Rel
  simp only [Clean_abs b hb, Clean_abs t ht]
  by_cases heq : absElems t = absElems b
  · simp [heq]
  · have hne : ¬ (Separator :: joinElems (absElems t) = Separator :: joinElems (absElems b)) :=
      fun e => heq (root_join_inj _ _ hT hB e)
    have hdot : ¬ (Separator :: joinElems (absElems b) = ['.']) := by
      simp [Separator]
    simp only [hne, heq, if_false, hdot, List.head?_cons, ne_eq, not_true_eq_false]
    rw [relElems_root_join _ hB, relElems_root_join _ hT]
    simp only [dropCommon, if_true]
    obtain ⟨cm, h1, _⟩ := dropCommon_spec (absElems b) (absElems t)
    cases hd : dropCommon (absElems b) (absElems t) with
    | mk rb rt =>
      rw [hd] at h1
      cases rb with
      | nil => simp
      | cons b0 bs =>
        have hb0 : b0 ≠ dotdot := (hB b0 (by rw [h1]; simp)).2.2.1
        cases rt with
        | nil => simp
        | cons t0 ts => simp [hb0]

theorem Rel_abs_under (b t : Str) (ys : List Str) (hb : IsAbs b = true) (ht : IsAbs t = true)
    (h : absElems t = absElems b ++ ys) :
    filepath.Rel b t = if ys = [] then some ['.'] else some (joinElems ys) := by
  rw [Rel_abs b t hb ht, h, dropCommon_prefix]
  by_cases hy : ys = []
  · simp [hy]
  · simp [hy]

/-! ## `filepath.Dir` -/

theorem dropWhile_append_stop {α : Type} (p : α → Bool) (xs ys : List α) (y : α)
    (hxs : ∀ x ∈ xs, p x = true) (hy : p y = false) :
    (xs ++ y :: ys).dropWhile p = y :: ys := by
  induction xs with
  | nil => simp [List.dropWhile, hy]
  | cons x rest ih =>
    simp only [List.cons_append, List.dropWhile, hxs x (by simp)]
    exact ih (fun z hz => hxs z (by simp [hz]))

theorem takeWhile_append_stop {α : Type} (p : α → Bool) (xs ys : List α) (y : α)
    (hxs : ∀ x ∈ xs, p x = true) (hy : p y = false) :
    (xs ++ y :: ys).takeWhile p = xs := by
  induction xs with
  | nil => simp [List.takeWhile, hy]
  | cons x rest ih =>
    simp [List.takeWhile_cons, hxs x (by simp), ih (fun z hz => hxs z (by simp [hz]))]

theorem dirPart_append (a f : Str) (hf : Separator ∉ f) :
    dirPart (a ++ Separator :: f) = a ++ [Separator] := by
  unfold dirPart
  have e : (a ++ Separator :: f).reverse = f.reverse ++ Separator :: a.reverse := by simp
  rw [e, dropWhile_append_stop _ _ _ _ (fun x hx => by
    have : x ≠ Separator := fun h => hf (by rw [← h]; exact List.mem_reverse.1 hx)
    simpa using this) (by simp)]
  simp

theorem lastElem_append (a f : Str) (hf : Separator ∉ f) :
    lastElem (a ++ Separator :: f) = f := by
  unfold lastElem
  have e : (a ++ Separator :: f).reverse = f.reverse ++ Separator :: a.reverse := by simp
  rw [e, takeWhile_append_stop _ _ _ _ (fun x hx => by
    have : x ≠ Separator := fun h => hf (by rw [← h]; exact List.mem_reverse.1 hx)
    simpa using this) (by simp)]
  simp

theorem Separator_not_mem_lastElem (p : Str) : Separator ∉ lastElem p := by
  unfold lastElem
  intro h
  have h1 := List.mem_takeWhile_imp (List.mem_reverse.1 h)
  simp at h1

/-- A rooted path is its directory part, which ends in a separator, followed by its last
element. -/
theorem dropWhile_head_false {α : Type} (p : α → Bool) (l : List α) (y : α) (ys : List α)
    (h : l.dropWhile p = y :: ys) : p y = false := by
  induction l with
  | nil => simp at h
  | cons x rest ih =>
    rw [List.dropWhile_cons] at h
    cases hx : p x with
    | true =>
      rw [hx] at h
      exact ih h
    | false =>
      rw [hx] at h
      simp only [Bool.false_eq_true, if_false, List.cons.injEq] at h
      rw [← h.1]
      exact hx

theorem abs_split_last (p : Str) (h : IsAbs p = true) :
    ∃ a, p = a ++ Separator :: lastElem p := by
  obtain ⟨q, rfl⟩ := (IsAbs_iff p).1 h
  have h1 : (Separator :: q).reverse
      = (Separator :: q).reverse.takeWhile (fun c => c ≠ Separator)
        ++ (Separator :: q).reverse.dropWhile (fun c => c ≠ Separator) :=
    (List.takeWhile_append_dropWhile _ _).symm
  cases hd : (Separator :: q).reverse.dropWhile (fun c => decide (c ≠ Separator)) with
  | nil =>
    have h2 : ∀ x ∈ (Separator :: q).reverse, decide (x ≠ Separator) = true :=
      List.dropWhile_eq_nil_iff.1 hd
    have h3 := h2 Separator (by simp)
    simp at h3
  | cons y ys =>
    have hy := dropWhile_head_false _ _ _ _ hd
    have hy1 : y = Separator := by simpa using hy
    subst hy1
    refine ⟨ys.reverse, ?_⟩
    have h4 := congrArg List.reverse h1
    rw [List.reverse_reverse, hd] at h4
    have h5 : lastElem (Separator :: q)
        = ((Separator :: q).reverse.takeWhile (fun c => c ≠ Separator)).reverse := rfl
    rw [h5]
    exact h4.trans (by simp)

theorem absElems_append_last (a f : Str) (hf : RealElem f) :
    absElems (a ++ Separator :: f) = absElems (a ++ [Separator]) ++ [f] := by
  unfold absElems cleanElems
  rw [Split_append, Split_append, Split_of_not_mem f _ hf.2.2.2, List.foldl_append,
    List.foldl_append]
  simp only [Split, List.foldl_cons, List.foldl_nil]
  rw [cleanStep_real _ _ _ hf]
  simp [cleanStep]

theorem IsAbs_append (a b : Str) (h : IsAbs a = true) : IsAbs (a ++ b) = true := by
  obtain ⟨q, rfl⟩ := (IsAbs_iff a).1 h
  exact IsAbs_cons_sep _

/-- The directory of a rooted path whose last element is a real one: the clean path of the
elements before the last. -/
theorem Dir_abs (p : Str) (h : IsAbs p = true) (hf : RealElem (lastElem p)) :
    IsAbs (dirPart p) = true ∧ Dir p = Separator :: joinElems (absElems (dirPart p)) ∧
      absElems p = absElems (dirPart p) ++ [lastElem p] := by
  obtain ⟨a, ha⟩ := abs_split_last p h
  have hd : dirPart p = a ++ [Separator] := by
    conv_lhs => rw [ha]
    exact dirPart_append a _ hf.2.2.2
  have habs : IsAbs (a ++ [Separator]) = true := by
    cases a with
    | nil => exact IsAbs_cons_sep _
    | cons x xs =>
      rw [ha] at h
      obtain ⟨q, hq⟩ := (IsAbs_iff _).1 h
      simp only [List.cons_append, List.cons.injEq] at hq
      rw [hq.1]
      exact IsAbs_cons_sep _
  refine ⟨by rw [hd]; exact habs, ?_, ?_⟩
  · unfold Dir
    rw [hd, Clean_abs _ habs]
  · rw [hd]
    conv_lhs => rw [ha]
    exact absElems_append_last a _ hf

theorem absElems_Dir (p : Str) (h : IsAbs p = true) (hf : RealElem (lastElem p)) :
    absElems (Dir p) = absElems (dirPart p) := by
  rw [(Dir_abs p h hf).2.1, absElems_root_join _ (absElems_real _)]

theorem IsAbs_Dir (p : Str) (h : IsAbs p = true) (hf : RealElem (lastElem p)) :
    IsAbs (Dir p) = true := by
  rw [(Dir_abs p h hf).2.1]
  exact IsAbs_cons_sep _

theorem lastElem_root_join (xs : List Str) (f : Str) (hf : RealElem f) :
    lastElem (Separator :: joinElems (xs ++ [f])) = f := by
  cases xs with
  | nil => exact lastElem_append [] f hf.2.2.2
  | cons x rest =>
    rw [joinElems_append _ _ (by simp) (by simp)]
    exact lastElem_append (Separator :: joinElems (x :: rest)) f hf.2.2.2


/-! ## `resolveLocation` -/

theorem TrimPrefix_abs (p : Str) (h : IsAbs p = true) : TrimPrefix p fileScheme = p := by
  obtain ⟨q, rfl⟩ := (IsAbs_iff p).1 h
  simp [TrimPrefix, HasPrefix, fileScheme, List.isPrefixOf, Separator]

theorem Abs_abs (cwd p : Str) (h : IsAbs p = true) : Abs cwd p = Clean p := by
  simp [Abs, h]

theorem IsAbs_Join (a b : Str) (h : IsAbs a = true) : IsAbs (Join a b) = true := by
  rw [Join_abs a b h]
  exact IsAbs_cons_sep _

theorem IsAbs_Abs (cwd p : Str) (h : IsAbs cwd = true) : IsAbs (Abs cwd p) = true := by
  unfold Abs
  split
  · rename_i hp
    exact IsAbs_Clean p hp
  · exact IsAbs_Join cwd p h

/-- The steps of `resolveLocation`, named. -/
theorem resolveLocation_inv (r : relocator) (cwd location : Str) (vc : VisitorContext)
    (absPath newRef newPath : Str)
    (h : resolveLocation r cwd location vc = some (absPath, newRef, newPath)) :
    absPath = Abs cwd (TrimPrefix location fileScheme) ∧
    ∃ execRelPath refRelPath,
      filepath.Rel r.execDir absPath = some execRelPath ∧
      filepath.Rel (Dir vc.File) absPath = some refRelPath ∧
      newPath = Abs cwd (Join r.destDir execRelPath) ∧
      newRef = Join r.newLocation refRelPath := by
  unfold resolveLocation at h
  simp only at h
  split at h
  · simp at h
  · rename_i rel h1
    split at h
    · simp at h
    · rename_i hop h2
      simp only [Option.some.injEq, Prod.mk.injEq] at h
      obtain ⟨ha, hr, hp⟩ := h
      subst ha
      exact ⟨rfl, rel, hop, h1, h2, hp.symm, hr.symm⟩

theorem resolveLocation_of (r : relocator) (cwd location : Str) (vc : VisitorContext)
    (rel hop : Str)
    (h1 : filepath.Rel r.execDir (Abs cwd (TrimPrefix location fileScheme)) = some rel)
    (h2 : filepath.Rel (Dir vc.File) (Abs cwd (TrimPrefix location fileScheme)) = some hop) :
    resolveLocation r cwd location vc
      = some (Abs cwd (TrimPrefix location fileScheme), Join r.newLocation hop,
          Abs cwd (Join r.destDir rel)) := by
  simp only [resolveLocation, h1, h2]

/-- The destination of a rooted path `p` whose elements are those of `execDir` followed by
`ys`: the elements of `destDir` followed by `ys`. -/
theorem destination_under (e d p cwd : Str) (ys : List Str) (he : IsAbs e = true)
    (hd : IsAbs d = true) (hp : IsAbs p = true) (h : absElems p = absElems e ++ ys) :
    ∃ rel, filepath.Rel e p = some rel ∧
      Join d rel = Separator :: joinElems (absElems d ++ ys) ∧
      Abs cwd (Join d rel) = Separator :: joinElems (absElems d ++ ys) := by
  have hys : ∀ x ∈ ys, RealElem x := fun x hx => absElems_real p x (by rw [h]; simp [hx])
  have hall : ∀ x ∈ absElems d ++ ys, RealElem x := by
    intro x hx
    rcases List.mem_append.1 hx with h1 | h1
    · exact absElems_real d x h1
    · exact hys x h1
  have hrel := Rel_abs_under e p ys he hp h
  by_cases hy : ys = []
  · subst hy
    refine ⟨['.'], by simpa using hrel, Join_abs_dot d hd |>.trans (by simp), ?_⟩
    rw [Abs_abs _ _ (IsAbs_Join d _ hd), Join_abs_dot d hd, Clean_root_join _ (absElems_real d)]
    simp
  · refine ⟨joinElems ys, by simpa [hy] using hrel, Join_abs_real d ys hd hy hys, ?_⟩
    rw [Abs_abs _ _ (IsAbs_Join d _ hd), Join_abs_real d ys hd hy hys, Clean_root_join _ hall]

theorem prefix_of_prefix_concat (e l : List Str) (x : Str) (h : e <+: l ++ [x])
    (hne : l ++ [x] ≠ e) : e <+: l := by
  rcases List.prefix_concat_iff.1 h with h1 | h1
  · exact absurd h1.symm (by simpa using hne)
  · exact h1


/-- The relative hop from the directory of `cur` to `tgt`, applied from a directory whose
elements are `ds` followed by the elements of the directory of `cur` below `es`, reaches
`ds` followed by the elements of `tgt` below `es`. -/
theorem hop_reaches (b t a : Str) (es ds cs ts : List Str) (hb : IsAbs b = true)
    (ht : IsAbs t = true) (ha : IsAbs a = true) (hbe : absElems b = es ++ cs)
    (hte : absElems t = es ++ ts) (hae : absElems a = ds ++ cs) :
    ∃ hop, filepath.Rel b t = some hop ∧ Join a hop = Separator :: joinElems (ds ++ ts) := by
  have hts : ∀ x ∈ ts, RealElem x := fun x hx => absElems_real t x (by rw [hte]; simp [hx])
  rw [Rel_abs b t hb ht, hbe, hte, dropCommon_append]
  by_cases heq : ts = cs
  · subst heq
    refine ⟨['.'], by simp, ?_⟩
    rw [Join_abs_dot a ha, hae]
  · have hne : ¬ (es ++ ts = es ++ cs) := fun h => heq (List.append_cancel_left h)
    obtain ⟨cm, h1, h2⟩ := dropCommon_spec cs ts
    refine ⟨_, if_neg hne, ?_⟩
    have hrt : ∀ x ∈ (dropCommon cs ts).2, RealElem x :=
      fun x hx => hts x (by rw [h2]; simp [hx])
    have hnil : (dropCommon cs ts).1.map (fun _ => dotdot) ++ (dropCommon cs ts).2 ≠ [] := by
      intro h
      simp only [List.append_eq_nil, List.map_eq_nil_iff] at h
      apply heq
      have e1 : cs = cm := by
        have h3 := h1
        rw [h.1, List.append_nil] at h3
        exact h3
      have e2 : ts = cm := by
        have h3 := h2
        rw [h.2, List.append_nil] at h3
        exact h3
      rw [e1, e2]
    have hsplit : absElems a = (ds ++ cm) ++ (dropCommon cs ts).1 := by
      rw [hae, List.append_assoc, ← h1]
    rw [Join_abs_updown a (ds ++ cm) _ _ ha hsplit hrt hnil, List.append_assoc, ← h2]

/-! ## `resolveRef` -/

theorem HasPrefix_append (pre s : Str) : HasPrefix (pre ++ s) pre = true := by
  unfold HasPrefix
  rw [List.isPrefixOf_iff_prefix]
  exact List.prefix_append pre s

theorem TrimPrefix_append (pre s : Str) : TrimPrefix (pre ++ s) pre = s := by
  simp [TrimPrefix, HasPrefix_append]

theorem Split_reference (path ptr : Str) (hpath : '#' ∉ path) (hptr : '#' ∉ ptr) :
    Split (fileScheme ++ path ++ '#' :: ptr) '#' = [fileScheme ++ path, ptr] := by
  have h1 : '#' ∉ fileScheme ++ path := by
    intro h
    rcases List.mem_append.1 h with h2 | h2
    · revert h2
      decide
    · exact hpath h2
  rw [Split_append, Split_of_not_mem _ _ h1, Split_of_not_mem _ _ hptr]
  rfl

/-- What a successful `resolveRef` on a file reference returns. -/
theorem resolveRef_file_inv (r : relocator) (recur : Str → World → Outcome Unit) (ref : Str)
    (vc : VisitorContext) (w w1 : World) (v : Str) (hf : HasPrefix ref fileScheme = true)
    (h : resolveRef r recur ref vc w = Outcome.ok (some v) w1) :
    ∃ location resource rest absPath newRef newPath,
      Split ref '#' = location :: resource :: rest ∧
      resolveLocation r w.cwd location vc = some (absPath, newRef, newPath) ∧
      v = newRef ++ '#' :: resource := by
  unfold resolveRef at h
  rw [if_pos hf] at h
  split at h
  · rename_i location resource rest hs
    split at h
    · simp at h
    · rename_i absPath newRef newPath hl
      refine ⟨location, resource, rest, absPath, newRef, newPath, hs, hl, ?_⟩
      split at h
      · simp only [Outcome.ok.injEq, Option.some.injEq] at h
        exact h.1.symm
      · split at h
        · simp only [Outcome.ok.injEq, Option.some.injEq] at h
          exact h.1.symm
        · simp at h
        · simp at h
  · simp at h

/-! ## Termination -/

theorem pending_mono (K c1 c2 : List Str) (h : c1 ⊆ c2) : pending K c2 ≤ pending K c1 := by
  unfold pending
  apply List.Sublist.length_le
  apply List.monotone_filter_right
  intro a ha
  simp only [decide_eq_true_eq] at ha ⊢
  exact fun h1 => ha (h h1)

theorem pending_lt (K cat : List Str) (p : Str) (hK : p ∈ K) (hc : p ∉ cat) :
    pending K (p :: cat) < pending K cat := by
  unfold pending
  have e : K.filter (fun q => decide (q ∉ p :: cat))
      = (K.filter (fun q => decide (q ∉ cat))).filter (fun q => decide (q ≠ p)) := by
    rw [List.filter_filter]
    congr 1
    funext q
    simp only [List.mem_cons, not_or, ne_eq, Bool.decide_and, Bool.and_comm]
  rw [e]
  apply List.length_filter_lt_length_iff_exists.2
  exact ⟨p, List.mem_filter.2 ⟨hK, by simpa using hc⟩, by simp⟩


/-! ### Rewritten references are not file references -/

theorem cleanStep_pieces (b : Bool) (st : List Str) (c : Str)
    (hst : ∀ e ∈ st, e ≠ [] ∧ Separator ∉ e) (hc : Separator ∉ c) :
    ∀ e ∈ cleanStep b st c, e ≠ [] ∧ Separator ∉ e := by
  have hdd : dotdot ≠ [] ∧ Separator ∉ dotdot := by decide
  unfold cleanStep
  split
  · exact hst
  · rename_i h1
    split
    · cases st with
      | nil =>
        cases b
        · intro e he
          simp only [Bool.false_eq_true, if_false, List.mem_singleton] at he
          rw [he]
          exact hdd
        · simp
      | cons top rest =>
        simp only
        split
        · intro e he
          rcases List.mem_cons.1 he with h2 | h2
          · rw [h2]
            exact hdd
          · exact hst e h2
        · exact fun e he => hst e (by simp [he])
    · intro e he
      rcases List.mem_cons.1 he with h3 | h3
      · rw [h3]
        exact ⟨fun e0 => h1 (Or.inl e0), hc⟩
      · exact hst e h3

theorem cleanElems_pieces (b : Bool) (xs : List Str) (hxs : ∀ e ∈ xs, Separator ∉ e) :
    ∀ e ∈ cleanElems b xs, e ≠ [] ∧ Separator ∉ e := by
  have key : ∀ (ys st : List Str), (∀ e ∈ st, e ≠ [] ∧ Separator ∉ e) →
      (∀ e ∈ ys, Separator ∉ e) → ∀ e ∈ ys.foldl (cleanStep b) st, e ≠ [] ∧ Separator ∉ e := by
    intro ys
    induction ys with
    | nil => exact fun st hst _ => hst
    | cons y rest ih =>
      intro st hst hys
      rw [List.foldl_cons]
      exact ih _ (cleanStep_pieces b st y hst (hys y (by simp))) (fun e he => hys e (by simp [he]))
  intro e he
  unfold cleanElems at he
  exact key xs [] (by simp) hxs e (List.mem_reverse.1 he)

theorem joinElems_no_file_prefix (out : List Str) (h : ∀ e ∈ out, e ≠ [] ∧ Separator ∉ e) :
    ¬ fileScheme <+: joinElems out := by
  rintro ⟨t, ht⟩
  cases out with
  | nil =>
    simp only [joinElems] at ht
    exact absurd (congrArg List.length ht) (by simp [fileScheme])
  | cons x rest =>
    have hs := Split_joinElems (x :: rest) (by simp) (fun e he => (h e he).2)
    have e1 : fileScheme ++ t = "file:".toList ++ Separator :: (Separator :: t) := rfl
    rw [← ht, e1, Split_append, Split_cons_sep] at hs
    have hmem : ([] : Str) ∈ x :: rest := by
      rw [← hs]
      simp
    exact (h [] hmem).1 rfl

theorem Clean_no_file_prefix (p : Str) : ¬ fileScheme <+: Clean p := by
  unfold Clean
  have hp := cleanElems_pieces (p.head? = some Separator) (Split p Separator)
    (fun e he => not_mem_of_mem_Split _ _ _ he)
  split
  · decide
  · simp only
    split
    · rintro ⟨t, ht⟩
      have := congrArg List.head? ht
      simp [fileScheme, Separator] at this
    · split
      · decide
      · exact joinElems_no_file_prefix _ hp

theorem Join_no_file_prefix (a b : Str) : ¬ fileScheme <+: Join a b := by
  unfold filepath.Join
  split
  · exact Clean_no_file_prefix _
  · split
    · exact Clean_no_file_prefix _
    · decide

theorem rewritten_not_file (a b resource : Str) :
    HasPrefix (Join a b ++ '#' :: resource) fileScheme = false := by
  cases h : HasPrefix (Join a b ++ '#' :: resource) fileScheme with
  | false => rfl
  | true =>
    exfalso
    unfold HasPrefix at h
    rw [List.isPrefixOf_iff_prefix] at h
    have h1 : Join a b ++ ['#'] <+: Join a b ++ '#' :: resource := by
      have : Join a b ++ '#' :: resource = (Join a b ++ ['#']) ++ resource := by simp
      rw [this]
      exact List.prefix_append _ _
    rcases List.prefix_or_prefix_of_prefix h h1 with h2 | h2
    · rcases List.prefix_concat_iff.1 h2 with h3 | h3
      · have : '#' ∈ fileScheme := by rw [h3]; simp
        revert this
        decide
      · exact Join_no_file_prefix a b h3
    · have : '#' ∈ fileScheme := h2.subset (by simp)
      revert this
      decide


/-! ### Every step preserves the invariant -/

theorem Inv_catalog (K : List Str) (cwd : Str) (w : World) (cat : List Str) (h : Inv K cwd w) :
    Inv K cwd { w with catalog := cat } := h

theorem resolveRef_post (K : List Str) (cwd : Str) (n : Nat) (r : relocator)
    (recur : Str → World → Outcome Unit)
    (hrec : ∀ file w1, Inv K cwd w1 → pending K w1.catalog < n →
      Post K cwd (fun _ : Unit => True) w1 (recur file w1))
    (ref : Str) (vc : VisitorContext) (w : World) (hw : Inv K cwd w)
    (hn : pending K w.catalog ≤ n) (hg : GoodRef K cwd ref) :
    Post K cwd (fun v => ∀ s, v = some s → GoodRef K cwd s) w (resolveRef r recur ref vc w) := by
  unfold resolveRef
  split
  · rename_i hf
    split
    · rename_i location resource rest hs
      split
      · exact ⟨fun s hs => by simp at hs, hw, fun _ h => h⟩
      · rename_i absPath newRef newPath hl
        obtain ⟨ha, _, refRel, _, _, _, hnr⟩ := resolveLocation_inv _ _ _ _ _ _ _ hl
        have hnew : GoodRef K cwd (newRef ++ '#' :: resource) := by
          intro hpre
          rw [hnr, rewritten_not_file] at hpre
          exact absurd hpre (by simp)
        split
        · exact ⟨fun s hs => by
            simp only [Option.some.injEq] at hs
            rw [← hs]
            exact hnew, hw, fun _ h => h⟩
        · rename_i hcat
          have hK : absPath ∈ K := by
            have h1 := hg hf
            unfold refTarget at h1
            rw [hs, List.headD_cons, ← hw.1, ← ha] at h1
            exact h1
          have hlt : pending K (absPath :: w.catalog) < n :=
            lt_of_lt_of_le (pending_lt K w.catalog absPath hK hcat) hn
          have hpost := hrec absPath { w with catalog := absPath :: w.catalog }
            (Inv_catalog K cwd w _ hw) hlt
          split
          · rename_i u w1 hr
            rw [hr] at hpost
            exact ⟨fun s hs => by
              simp only [Option.some.injEq] at hs
              rw [← hs]
              exact hnew, hpost.2.1, fun x hx => hpost.2.2 (List.mem_cons_of_mem _ hx)⟩
          · trivial
          · rename_i hr
            rw [hr] at hpost
            exact hpost
    · trivial
  · exact ⟨fun s hs => by
      simp only [Option.some.injEq] at hs
      rw [← hs]
      exact hg, hw, fun _ h => h⟩

theorem itemRefs_set (fields : List (Str × Json)) (x : Json) (s : Str)
    (h : fields.lookup refKey = some x) :
    itemRefs (Json.obj (setField refKey (Json.str s) fields)) = [s] := by
  simp [itemRefs, lookup_setField_same _ _ _ _ h]

theorem visitItem_post (K : List Str) (cwd : Str) (n : Nat) (r : relocator)
    (recur : Str → World → Outcome Unit)
    (hrec : ∀ file w1, Inv K cwd w1 → pending K w1.catalog < n →
      Post K cwd (fun _ : Unit => True) w1 (recur file w1))
    (vc : VisitorContext) (item : Json) (w : World) (hw : Inv K cwd w)
    (hn : pending K w.catalog ≤ n) (hg : ∀ ref ∈ itemRefs item, GoodRef K cwd ref) :
    Post K cwd (fun item1 => ∀ ref ∈ itemRefs item1, GoodRef K cwd ref) w
      (visitItem r recur vc item w) := by
  unfold visitItem
  split
  · rename_i fields
    split
    · exact ⟨hg, hw, fun _ h => h⟩
    · rename_i ref hl
      have hgr : GoodRef K cwd ref := hg ref (by simp [itemRefs, hl])
      have hpost := resolveRef_post K cwd n r recur hrec ref vc w hw hn hgr
      split
      · rename_i resolved w1 hr
        rw [hr] at hpost
        refine ⟨?_, hpost.2.1, hpost.2.2⟩
        intro ref1 h1
        rw [itemRefs_set _ _ _ hl, List.mem_singleton] at h1
        rw [h1]
        exact hpost.1 resolved rfl
      · rename_i w1 hr
        rw [hr] at hpost
        exact ⟨hg, hpost.2.1, hpost.2.2⟩
      · trivial
      · rename_i hr
        rw [hr] at hpost
        exact hpost
    · trivial
  · exact ⟨hg, hw, fun _ h => h⟩


theorem visitAllOfItems_post (K : List Str) (cwd : Str) (n : Nat) (r : relocator)
    (recur : Str → World → Outcome Unit)
    (hrec : ∀ file w1, Inv K cwd w1 → pending K w1.catalog < n →
      Post K cwd (fun _ : Unit => True) w1 (recur file w1))
    (vc : VisitorContext) (items : List Json) (w : World) (hw : Inv K cwd w)
    (hn : pending K w.catalog ≤ n)
    (hg : ∀ item ∈ items, ∀ ref ∈ itemRefs item, GoodRef K cwd ref) :
    Post K cwd (fun items1 => ∀ item ∈ items1, ∀ ref ∈ itemRefs item, GoodRef K cwd ref) w
      (visitAllOfItems r recur vc items w) := by
  induction items generalizing w with
  | nil => exact ⟨by simp, hw, fun _ h => h⟩
  | cons item rest ih =>
    unfold visitAllOfItems
    have hpost := visitItem_post K cwd n r recur hrec vc item w hw hn (hg item (by simp))
    split
    · rename_i item1 w1 hr
      rw [hr] at hpost
      have hn1 : pending K w1.catalog ≤ n := le_trans (pending_mono K _ _ hpost.2.2) hn
      have hrest := ih w1 hpost.2.1 hn1 (fun x hx => hg x (by simp [hx]))
      split
      · rename_i rest1 w2 hr2
        rw [hr2] at hrest
        refine ⟨?_, hrest.2.1, fun x hx => hrest.2.2 (hpost.2.2 hx)⟩
        intro x hx
        rcases List.mem_cons.1 hx with h1 | h1
        · rw [h1]
          exact hpost.1
        · exact hrest.1 x h1
      · trivial
      · rename_i hr2
        rw [hr2] at hrest
        exact hrest
    · trivial
    · rename_i hr
      rw [hr] at hpost
      exact hpost

theorem visitPropertyEntries_post (K : List Str) (cwd : Str) (n : Nat) (r : relocator)
    (recur : Str → World → Outcome Unit)
    (hrec : ∀ file w1, Inv K cwd w1 → pending K w1.catalog < n →
      Post K cwd (fun _ : Unit => True) w1 (recur file w1))
    (vc : VisitorContext) (ps : List (Str × Json)) (w : World) (hw : Inv K cwd w)
    (hn : pending K w.catalog ≤ n)
    (hg : ∀ e ∈ ps, ∀ ref ∈ itemRefs e.2, GoodRef K cwd ref) :
    Post K cwd (fun ps1 => ∀ e ∈ ps1, ∀ ref ∈ itemRefs e.2, GoodRef K cwd ref) w
      (visitPropertyEntries r recur vc ps w) := by
  induction ps generalizing w with
  | nil => exact ⟨by simp, hw, fun _ h => h⟩
  | cons e rest ih =>
    obtain ⟨k, item⟩ := e
    unfold visitPropertyEntries
    have hpost := visitItem_post K cwd n r recur hrec vc item w hw hn (hg (k, item) (by simp))
    split
    · rename_i item1 w1 hr
      rw [hr] at hpost
      have hn1 : pending K w1.catalog ≤ n := le_trans (pending_mono K _ _ hpost.2.2) hn
      have hrest := ih w1 hpost.2.1 hn1 (fun x hx => hg x (by simp [hx]))
      split
      · rename_i rest1 w2 hr2
        rw [hr2] at hrest
        refine ⟨?_, hrest.2.1, fun x hx => hrest.2.2 (hpost.2.2 hx)⟩
        intro x hx
        rcases List.mem_cons.1 hx with h1 | h1
        · rw [h1]
          exact hpost.1
        · exact hrest.1 x h1
      · trivial
      · rename_i hr2
        rw [hr2] at hrest
        exact hrest
    · trivial
    · rename_i hr
      rw [hr] at hpost
      exact hpost

theorem allOfKey_ne_propertiesKey : allOfKey ≠ propertiesKey := by decide

theorem propsRefs_set_ne (d : Json) (k : Str) (v : Json) (h : propertiesKey ≠ k) :
    propsRefs (d.set k v) = propsRefs d := by
  unfold propsRefs
  rw [get_set_ne _ _ _ _ h]

theorem allOfRefs_set_ne (d : Json) (k : Str) (v : Json) (h : allOfKey ≠ k) :
    allOfRefs (d.set k v) = allOfRefs d := by
  unfold allOfRefs
  rw [get_set_ne _ _ _ _ h]

theorem defRefs_set_ne (d : Json) (k : Str) (v : Json) (hp : propertiesKey ≠ k)
    (ha : allOfKey ≠ k) : defRefs (d.set k v) = defRefs d := by
  unfold defRefs
  rw [propsRefs_set_ne _ _ _ hp, allOfRefs_set_ne _ _ _ ha]

theorem visitProperties_post (K : List Str) (cwd : Str) (n : Nat) (r : relocator)
    (recur : Str → World → Outcome Unit)
    (hrec : ∀ file w1, Inv K cwd w1 → pending K w1.catalog < n →
      Post K cwd (fun _ : Unit => True) w1 (recur file w1))
    (vc : VisitorContext) (d : Json) (w : World) (hw : Inv K cwd w)
    (hn : pending K w.catalog ≤ n) (hg : ∀ ref ∈ defRefs d, GoodRef K cwd ref) :
    Post K cwd (fun d1 => ∀ ref ∈ defRefs d1, GoodRef K cwd ref) w
      (visitProperties r recur d vc w) := by
  unfold visitProperties
  split
  · rename_i ps hget
    have hps : ∀ e ∈ ps, ∀ ref ∈ itemRefs e.2, GoodRef K cwd ref := by
      intro e he ref href
      apply hg ref
      unfold defRefs propsRefs
      rw [hget]
      exact List.mem_append_left _ (List.mem_flatMap.2 ⟨e, he, href⟩)
    have hpost := visitPropertyEntries_post K cwd n r recur hrec vc ps w hw hn hps
    split
    · rename_i ps1 w1 hr
      rw [hr] at hpost
      refine ⟨?_, hpost.2.1, hpost.2.2⟩
      intro ref href
      unfold defRefs at href
      rw [allOfRefs_set_ne _ _ _ allOfKey_ne_propertiesKey] at href
      rcases List.mem_append.1 href with h1 | h1
      · unfold propsRefs at h1
        rw [get_set_same _ _ _ _ hget] at h1
        obtain ⟨e, he, h2⟩ := List.mem_flatMap.1 h1
        exact hpost.1 e he ref h2
      · exact hg ref (List.mem_append_right _ h1)
    · trivial
    · rename_i hr
      rw [hr] at hpost
      exact hpost
  · exact ⟨hg, hw, fun _ h => h⟩

theorem visitAllOf_post (K : List Str) (cwd : Str) (n : Nat) (r : relocator)
    (recur : Str → World → Outcome Unit)
    (hrec : ∀ file w1, Inv K cwd w1 → pending K w1.catalog < n →
      Post K cwd (fun _ : Unit => True) w1 (recur file w1))
    (vc : VisitorContext) (d : Json) (w : World) (hw : Inv K cwd w)
    (hn : pending K w.catalog ≤ n) (hg : ∀ ref ∈ defRefs d, GoodRef K cwd ref) :
    Post K cwd (fun d1 => ∀ ref ∈ defRefs d1, GoodRef K cwd ref) w
      (visitAllOf r recur d vc w) := by
  unfold visitAllOf
  split
  · rename_i xs hget
    have hxs : ∀ x ∈ xs, ∀ ref ∈ itemRefs x, GoodRef K cwd ref := by
      intro x hx ref href
      apply hg ref
      unfold defRefs allOfRefs
      rw [hget]
      exact List.mem_append_right _ (List.mem_flatMap.2 ⟨x, hx, href⟩)
    have hpost := visitAllOfItems_post K cwd n r recur hrec vc xs w hw hn hxs
    split
    · rename_i xs1 w1 hr
      rw [hr] at hpost
      refine ⟨?_, hpost.2.1, hpost.2.2⟩
      intro ref href
      unfold defRefs at href
      rw [propsRefs_set_ne _ _ _ propertiesKey_ne_allOfKey] at href
      rcases List.mem_append.1 href with h1 | h1
      · exact hg ref (List.mem_append_left _ h1)
      · unfold allOfRefs at h1
        rw [get_set_same _ _ _ _ hget] at h1
        obtain ⟨x, hx, h2⟩ := List.mem_flatMap.1 h1
        exact hpost.1 x hx ref h2
    · trivial
    · rename_i hr
      rw [hr] at hpost
      exact hpost
  · exact ⟨hg, hw, fun _ h => h⟩

theorem visitDefinition_post (K : List Str) (cwd : Str) (n : Nat) (r : relocator)
    (recur : Str → World → Outcome Unit)
    (hrec : ∀ file w1, Inv K cwd w1 → pending K w1.catalog < n →
      Post K cwd (fun _ : Unit => True) w1 (recur file w1))
    (vc : VisitorContext) (d : Json) (w : World) (hw : Inv K cwd w)
    (hn : pending K w.catalog ≤ n) (hg : ∀ ref ∈ defRefs d, GoodRef K cwd ref) :
    Post K cwd (fun d1 => ∀ ref ∈ defRefs d1, GoodRef K cwd ref) w
      (visitDefinition r recur vc d w) := by
  unfold visitDefinition
  have hpost := visitProperties_post K cwd n r recur hrec vc d w hw hn hg
  split
  · rename_i d1 w1 hr
    rw [hr] at hpost
    have hn1 : pending K w1.catalog ≤ n := le_trans (pending_mono K _ _ hpost.2.2) hn
    have h2 := visitAllOf_post K cwd n r recur hrec vc d1 w1 hpost.2.1 hn1 hpost.1
    cases hv : visitAllOf r recur d1 vc w1 with
    | ok d2 w2 =>
      rw [hv] at h2
      exact ⟨h2.1, h2.2.1, fun x hx => h2.2.2 (hpost.2.2 hx)⟩
    | abort w2 => trivial
    | outOfFuel =>
      rw [hv] at h2
      exact h2
  · trivial
  · rename_i hr
    rw [hr] at hpost
    exact hpost


theorem visitDefinitionEntries_post (K : List Str) (cwd : Str) (n : Nat) (r : relocator)
    (recur : Str → World → Outcome Unit)
    (hrec : ∀ file w1, Inv K cwd w1 → pending K w1.catalog < n →
      Post K cwd (fun _ : Unit => True) w1 (recur file w1))
    (vc : VisitorContext) (ds : List (Str × Json)) (w : World) (hw : Inv K cwd w)
    (hn : pending K w.catalog ≤ n)
    (hg : ∀ e ∈ ds, ∀ ref ∈ defRefs e.2, GoodRef K cwd ref) :
    Post K cwd (fun ds1 => ∀ e ∈ ds1, ∀ ref ∈ defRefs e.2, GoodRef K cwd ref) w
      (visitDefinitionEntries r recur vc ds w) := by
  induction ds generalizing w with
  | nil => exact ⟨by simp, hw, fun _ h => h⟩
  | cons e rest ih =>
    obtain ⟨k, d⟩ := e
    unfold visitDefinitionEntries
    have hpost := visitDefinition_post K cwd n r recur hrec vc d w hw hn (hg (k, d) (by simp))
    split
    · rename_i d1 w1 hr
      rw [hr] at hpost
      have hn1 : pending K w1.catalog ≤ n := le_trans (pending_mono K _ _ hpost.2.2) hn
      have hrest := ih w1 hpost.2.1 hn1 (fun x hx => hg x (by simp [hx]))
      split
      · rename_i rest1 w2 hr2
        rw [hr2] at hrest
        refine ⟨?_, hrest.2.1, fun x hx => hrest.2.2 (hpost.2.2 hx)⟩
        intro x hx
        rcases List.mem_cons.1 hx with h1 | h1
        · rw [h1]
          exact hpost.1
        · exact hrest.1 x h1
      · trivial
      · rename_i hr2
        rw [hr2] at hrest
        exact hrest
    · trivial
    · rename_i hr
      rw [hr] at hpost
      exact hpost

theorem visit_post (K : List Str) (cwd : Str) (n : Nat) (r : relocator)
    (recur : Str → World → Outcome Unit)
    (hrec : ∀ file w1, Inv K cwd w1 → pending K w1.catalog < n →
      Post K cwd (fun _ : Unit => True) w1 (recur file w1))
    (vc : VisitorContext) (schema : Json) (w : World) (hw : Inv K cwd w)
    (hn : pending K w.catalog ≤ n) (hg : ∀ ref ∈ docRefs schema, GoodRef K cwd ref) :
    Post K cwd (fun out => ∀ j, out = some j → ∀ ref ∈ docRefs j, GoodRef K cwd ref) w
      (visit r recur schema vc w) := by
  unfold visit
  have hpost := visitDefinition_post K cwd n r recur hrec vc schema w hw hn
    (fun ref href => hg ref (List.mem_append_left _ href))
  split
  · rename_i s2 w2 hr
    rw [hr] at hpost
    have hD : s2.get defKey = schema.get defKey :=
      visitDefinition_get _ _ _ _ _ _ _ hr _ defKey_ne_propertiesKey defKey_ne_allOfKey
    have hn2 : pending K w2.catalog ≤ n := le_trans (pending_mono K _ _ hpost.2.2) hn
    split
    · rename_i ds hget
      have hds : ∀ e ∈ ds, ∀ ref ∈ defRefs e.2, GoodRef K cwd ref := by
        intro e he ref href
        apply hg ref
        unfold docRefs
        rw [← hD, hget]
        exact List.mem_append_right _ (List.mem_flatMap.2 ⟨e, he, href⟩)
      have h3 := visitDefinitionEntries_post K cwd n r recur hrec vc ds w2 hpost.2.1 hn2 hds
      split
      · rename_i ds1 w3 hr3
        rw [hr3] at h3
        refine ⟨?_, h3.2.1, fun x hx => h3.2.2 (hpost.2.2 hx)⟩
        intro j hj ref href
        simp only [Option.some.injEq] at hj
        rw [← hj] at href
        unfold docRefs at href
        rw [defRefs_set_ne _ _ _ (Ne.symm defKey_ne_propertiesKey) (Ne.symm defKey_ne_allOfKey),
          get_set_same _ _ _ _ hget] at href
        rcases List.mem_append.1 href with h1 | h1
        · exact hpost.1 ref h1
        · obtain ⟨e, he, h2⟩ := List.mem_flatMap.1 h1
          exact h3.1 e he ref h2
      · trivial
      · rename_i hr3
        rw [hr3] at h3
        exact h3
    · rename_i hno
      refine ⟨?_, hpost.2.1, hpost.2.2⟩
      intro j hj ref href
      simp only [Option.some.injEq] at hj
      rw [← hj] at href
      unfold docRefs at href
      rcases List.mem_append.1 href with h1 | h1
      · exact hpost.1 ref h1
      · apply hg ref
        unfold docRefs
        rw [← hD]
        exact List.mem_append_right _ h1
  · trivial
  · rename_i hr
    rw [hr] at hpost
    exact hpost

theorem Load_post (K : List Str) (cwd : Str) (n : Nat) (r : relocator)
    (recur : Str → World → Outcome Unit)
    (hrec : ∀ file w1, Inv K cwd w1 → pending K w1.catalog < n →
      Post K cwd (fun _ : Unit => True) w1 (recur file w1))
    (vc : VisitorContext) (c : Content) (w : World) (hw : Inv K cwd w)
    (hn : pending K w.catalog ≤ n) (hg : ∀ ref ∈ contentRefs c, GoodRef K cwd ref) :
    Post K cwd (fun out => ∀ j, out = some j → ∀ ref ∈ docRefs j, GoodRef K cwd ref) w
      (Load r recur c vc w) := by
  unfold Load
  split
  · exact visit_post K cwd n r recur hrec vc _ w hw hn hg
  · exact visit_post K cwd n r recur hrec vc _ w hw hn hg
  · exact ⟨fun j hj => by simp at hj, hw, fun _ h => h⟩

theorem mem_of_lookup {β : Type} (l : List (Str × β)) (k : Str) (v : β)
    (h : l.lookup k = some v) : ∃ e ∈ l, e.2 = v := by
  induction l with
  | nil => simp at h
  | cons e rest ih =>
    obtain ⟨k1, x⟩ := e
    rw [List.lookup_cons] at h
    cases hb : (k == k1) with
    | true =>
      rw [hb] at h
      simp only [Option.some.injEq] at h
      exact ⟨(k1, x), by simp, h⟩
    | false =>
      rw [hb] at h
      obtain ⟨e, he, hv⟩ := ih h
      exact ⟨e, by simp [he], hv⟩

theorem Inv_writeFile (K : List Str) (cwd : Str) (w : World) (target : Str) (data : Json)
    (hw : Inv K cwd w) (hd : ∀ ref ∈ docRefs data, GoodRef K cwd ref) :
    Inv K cwd (w.writeFile target data) ∧ (w.writeFile target data).catalog = w.catalog := by
  unfold World.writeFile
  split
  · exact ⟨hw, rfl⟩
  · refine ⟨⟨hw.1, ?_⟩, rfl⟩
    intro e he ref href
    rcases List.mem_cons.1 he with h1 | h1
    · rw [h1] at href
      exact hd ref href
    · exact hw.2 e h1 ref href

/-- With fuel above the number of candidate paths outside the catalog, `relocateJsonFile`
does not run out of fuel and keeps the invariant. -/
theorem relocateJsonFile_post (K : List Str) (cwd : Str) (r : relocator) (n : Nat) :
    ∀ file w, Inv K cwd w → pending K w.catalog < n →
      Post K cwd (fun _ : Unit => True) w (relocateJsonFile r n file w) := by
  induction n with
  | zero => exact fun _ _ _ h => absurd h (Nat.not_lt_zero _)
  | succ n ih =>
    intro file w hw hn
    unfold relocateJsonFile
    split
    · trivial
    · rename_i c hread
      simp only
      obtain ⟨e, he, hc⟩ := mem_of_lookup _ _ _ hread
      have hg : ∀ ref ∈ contentRefs c, GoodRef K cwd ref := by
        rw [← hc]
        exact hw.2 e he
      have hpost := Load_post K cwd n r (relocateJsonFile r n) ih { File := file } c
        (w.logRead file) hw (Nat.lt_succ_iff.1 hn) hg
      split
      · rename_i data w1 hr
        rw [hr] at hpost
        split
        · obtain ⟨h1, h2⟩ := Inv_writeFile K cwd w1 _ data hpost.2.1 (hpost.1 data rfl)
          exact ⟨trivial, h1, by rw [h2]; exact hpost.2.2⟩
        · trivial
      · rename_i w1 hr
        rw [hr] at hpost
        exact ⟨trivial, hpost.2.1, hpost.2.2⟩
      · trivial
      · rename_i hr
        rw [hr] at hpost
        exact hpost

theorem Inv_candidates (w : World) : Inv (candidates w.cwd w.files) w.cwd w := by
  refine ⟨rfl, ?_⟩
  intro e he ref href _
  unfold candidates
  exact List.mem_map.2 ⟨ref, List.mem_flatMap.2 ⟨e, he, href⟩, rfl⟩

/-- Termination: with enough fuel `Relocate` ends, whatever the file system, the catalog
and the root file. -/
theorem Relocate_terminates (r : relocator) (file : Str) (w : World) :
    ∃ n, ∀ m, n ≤ m → Relocate r m file w ≠ Outcome.outOfFuel := by
  refine ⟨pending (candidates (filepath.Abs w.cwd r.execDir) w.files) w.catalog + 1, ?_⟩
  intro m hm h
  have hpost := relocateJsonFile_post (candidates (filepath.Abs w.cwd r.execDir) w.files)
    (filepath.Abs w.cwd r.execDir) r m file { w with cwd := filepath.Abs w.cwd r.execDir }
    (Inv_candidates { w with cwd := filepath.Abs w.cwd r.execDir }) (by simpa using hm)
  unfold Relocate at h
  rw [h] at hpost
  exact hpost

/-! ## Independence of the fuel -/

theorem resolveRef_extends (r : relocator) (f g : Str → World → Outcome Unit)
    (h : Extends f g) (ref : Str) (vc : VisitorContext) (w : World) :
    resolveRef r g ref vc w = resolveRef r f ref vc w ∨
      resolveRef r f ref vc w = Outcome.outOfFuel := by
  unfold resolveRef
  split
  · split
    · split
      · exact Or.inl rfl
      · split
        · exact Or.inl rfl
        · rename_i absPath _ _ _ _
          rcases h absPath { w with catalog := absPath :: w.catalog } with e | e
          · rw [e]
            exact Or.inl rfl
          · rw [e]
            exact Or.inr rfl
    · exact Or.inl rfl
  · exact Or.inl rfl

theorem visitItem_extends (r : relocator) (f g : Str → World → Outcome Unit)
    (h : Extends f g) (vc : VisitorContext) (item : Json) (w : World) :
    visitItem r g vc item w = visitItem r f vc item w ∨
      visitItem r f vc item w = Outcome.outOfFuel := by
  unfold visitItem
  split
  · split
    · exact Or.inl rfl
    · rename_i ref _
      rcases resolveRef_extends r f g h ref vc w with e | e
      · rw [e]
        exact Or.inl rfl
      · rw [e]
        exact Or.inr rfl
    · exact Or.inl rfl
  · exact Or.inl rfl

theorem visitAllOfItems_extends (r : relocator) (f g : Str → World → Outcome Unit)
    (h : Extends f g) (vc : VisitorContext) (items : List Json) (w : World) :
    visitAllOfItems r g vc items w = visitAllOfItems r f vc items w ∨
      visitAllOfItems r f vc items w = Outcome.outOfFuel := by
  induction items generalizing w with
  | nil => exact Or.inl rfl
  | cons item rest ih =>
    unfold visitAllOfItems
    rcases visitItem_extends r f g h vc item w with e | e
    · rw [e]
      cases visitItem r f vc item w with
      | ok item1 w1 =>
        dsimp only
        rcases ih w1 with e2 | e2
        · rw [e2]
          exact Or.inl rfl
        · rw [e2]
          exact Or.inr rfl
      | abort w1 => exact Or.inl rfl
      | outOfFuel => exact Or.inl rfl
    · rw [e]
      exact Or.inr rfl

theorem visitPropertyEntries_extends (r : relocator) (f g : Str → World → Outcome Unit)
    (h : Extends f g) (vc : VisitorContext) (ps : List (Str × Json)) (w : World) :
    visitPropertyEntries r g vc ps w = visitPropertyEntries r f vc ps w ∨
      visitPropertyEntries r f vc ps w = Outcome.outOfFuel := by
  induction ps generalizing w with
  | nil => exact Or.inl rfl
  | cons e0 rest ih =>
    obtain ⟨k, item⟩ := e0
    unfold visitPropertyEntries
    rcases visitItem_extends r f g h vc item w with e | e
    · rw [e]
      cases visitItem r f vc item w with
      | ok item1 w1 =>
        dsimp only
        rcases ih w1 with e2 | e2
        · rw [e2]
          exact Or.inl rfl
        · rw [e2]
          exact Or.inr rfl
      | abort w1 => exact Or.inl rfl
      | outOfFuel => exact Or.inl rfl
    · rw [e]
      exact Or.inr rfl

theorem visitAllOf_extends (r : relocator) (f g : Str → World → Outcome Unit)
    (h : Extends f g) (vc : VisitorContext) (d : Json) (w : World) :
    visitAllOf r g d vc w = visitAllOf r f d vc w ∨
      visitAllOf r f d vc w = Outcome.outOfFuel := by
  unfold visitAllOf
  split
  · rename_i xs _
    rcases visitAllOfItems_extends r f g h vc xs w with e | e
    · rw [e]
      exact Or.inl rfl
    · rw [e]
      exact Or.inr rfl
  · exact Or.inl rfl

theorem visitProperties_extends (r : relocator) (f g : Str → World → Outcome Unit)
    (h : Extends f g) (vc : VisitorContext) (d : Json) (w : World) :
    visitProperties r g d vc w = visitProperties r f d vc w ∨
      visitProperties r f d vc w = Outcome.outOfFuel := by
  unfold visitProperties
  split
  · rename_i ps _
    rcases visitPropertyEntries_extends r f g h vc ps w with e | e
    · rw [e]
      exact Or.inl rfl
    · rw [e]
      exact Or.inr rfl
  · exact Or.inl rfl

theorem visitDefinition_extends (r : relocator) (f g : Str → World → Outcome Unit)
    (h : Extends f g) (vc : VisitorContext) (d : Json) (w : World) :
    visitDefinition r g vc d w = visitDefinition r f vc d w ∨
      visitDefinition r f vc d w = Outcome.outOfFuel := by
  unfold visitDefinition
  rcases visitProperties_extends r f g h vc d w with e | e
  · rw [e]
    cases visitProperties r f d vc w with
    | ok d1 w1 => exact visitAllOf_extends r f g h vc d1 w1
    | abort w1 => exact Or.inl rfl
    | outOfFuel => exact Or.inl rfl
  · rw [e]
    exact Or.inr rfl

theorem visitDefinitionEntries_extends (r : relocator) (f g : Str → World → Outcome Unit)
    (h : Extends f g) (vc : VisitorContext) (ds : List (Str × Json)) (w : World) :
    visitDefinitionEntries r g vc ds w = visitDefinitionEntries r f vc ds w ∨
      visitDefinitionEntries r f vc ds w = Outcome.outOfFuel := by
  induction ds generalizing w with
  | nil => exact Or.inl rfl
  | cons e0 rest ih =>
    obtain ⟨k, d⟩ := e0
    unfold visitDefinitionEntries
    rcases visitDefinition_extends r f g h vc d w with e | e
    · rw [e]
      cases visitDefinition r f vc d w with
      | ok d1 w1 =>
        dsimp only
        rcases ih w1 with e2 | e2
        · rw [e2]
          exact Or.inl rfl
        · rw [e2]
          exact Or.inr rfl
      | abort w1 => exact Or.inl rfl
      | outOfFuel => exact Or.inl rfl
    · rw [e]
      exact Or.inr rfl

theorem visit_extends (r : relocator) (f g : Str → World → Outcome Unit)
    (h : Extends f g) (vc : VisitorContext) (schema : Json) (w : World) :
    visit r g schema vc w = visit r f schema vc w ∨
      visit r f schema vc w = Outcome.outOfFuel := by
  unfold visit
  rcases visitDefinition_extends r f g h vc schema w with e | e
  · rw [e]
    cases visitDefinition r f vc schema w with
    | ok s2 w2 =>
      simp only
      split
      · rename_i ds _
        rcases visitDefinitionEntries_extends r f g h vc ds w2 with e2 | e2
        · rw [e2]
          exact Or.inl rfl
        · rw [e2]
          exact Or.inr rfl
      · exact Or.inl rfl
    | abort w1 => exact Or.inl rfl
    | outOfFuel => exact Or.inl rfl
  · rw [e]
    exact Or.inr rfl

theorem Load_extends (r : relocator) (f g : Str → World → Outcome Unit)
    (h : Extends f g) (vc : VisitorContext) (c : Content) (w : World) :
    Load r g c vc w = Load r f c vc w ∨ Load r f c vc w = Outcome.outOfFuel := by
  unfold Load
  split
  · exact visit_extends r f g h vc _ w
  · exact visit_extends r f g h vc _ w
  · exact Or.inl rfl

/-- One more unit of fuel does not change a result that was reached. -/
theorem relocateJsonFile_succ (r : relocator) (n : Nat) :
    Extends (relocateJsonFile r n) (relocateJsonFile r (n + 1)) := by
  induction n with
  | zero => exact fun _ _ => Or.inr rfl
  | succ n ih =>
    intro file w
    unfold relocateJsonFile
    cases w.readFile file with
    | none => exact Or.inl rfl
    | some c =>
      simp only
      rcases Load_extends r _ _ ih { File := file } c (w.logRead file) with e | e
      · rw [e]
        exact Or.inl rfl
      · rw [e]
        exact Or.inr rfl

/-- More fuel does not change a result that was reached. -/
theorem relocateJsonFile_fuel (r : relocator) (n m : Nat) (hm : n ≤ m) (file : Str) (w : World)
    (h : relocateJsonFile r n file w ≠ Outcome.outOfFuel) :
    relocateJsonFile r m file w = relocateJsonFile r n file w := by
  induction m with
  | zero =>
    have : n = 0 := Nat.le_zero.1 hm
    rw [this]
  | succ m ih =>
    rcases Nat.lt_or_ge n (m + 1) with h1 | h1
    · have h2 := ih (Nat.lt_succ_iff.1 h1)
      rcases relocateJsonFile_succ r m file w with e | e
      · rw [e, h2]
      · rw [h2] at e
        exact absurd e h
    · have : n = m + 1 := Nat.le_antisymm hm h1
      rw [this]

/-! ## Documents without file references -/

theorem setField_of_lookup (key : Str) (v : Json) (fs : List (Str × Json))
    (h : fs.lookup key = some v) : setField key v fs = fs := by
  induction fs with
  | nil => rfl
  | cons e rest ih =>
    obtain ⟨k1, y⟩ := e
    by_cases h1 : key = k1
    · subst h1
      simp only [List.lookup_cons, beq_self_eq_true, Option.some.injEq] at h
      simp [setField, h]
    · have hb : (key == k1) = false := by simpa using h1
      simp only [List.lookup_cons, hb] at h
      have h3 : ¬ k1 = key := fun h4 => h1 h4.symm
      simp [setField, h3, ih h]

theorem set_of_get (j : Json) (key : Str) (v : Json) (h : j.get key = some v) :
    j.set key v = j := by
  cases j with
  | obj fs =>
    simp only [Json.get] at h
    simp only [Json.set, setField_of_lookup _ _ _ h]
  | _ => rfl

theorem resolveRef_not_file (r : relocator) (recur : Str → World → Outcome Unit) (ref : Str)
    (vc : VisitorContext) (w : World) (h : HasPrefix ref fileScheme = false) :
    resolveRef r recur ref vc w = Outcome.ok (some ref) w := by
  simp [resolveRef, h]

theorem visitItem_plain (r : relocator) (recur : Str → World → Outcome Unit)
    (vc : VisitorContext) (item : Json) (w : World)
    (hfile : ∀ ref ∈ itemRefs item, HasPrefix ref fileScheme = false)
    (hstr : itemMalformed item = false) :
    visitItem r recur vc item w = Outcome.ok item w := by
  cases item with
  | obj fields =>
    cases hl : fields.lookup refKey with
    | none => simp only [visitItem, hl]
    | some v =>
      cases v with
      | str ref =>
        have h1 : HasPrefix ref fileScheme = false := hfile ref (by simp [itemRefs, hl])
        simp only [visitItem, hl, resolveRef_not_file r recur ref vc w h1,
          setField_of_lookup _ _ _ hl]
      | null => simp [itemMalformed, hl] at hstr
      | bool b => simp [itemMalformed, hl] at hstr
      | number n => simp [itemMalformed, hl] at hstr
      | arr xs => simp [itemMalformed, hl] at hstr
      | obj fs => simp [itemMalformed, hl] at hstr
  | _ => rfl

theorem visitAllOfItems_plain (r : relocator) (recur : Str → World → Outcome Unit)
    (vc : VisitorContext) (items : List Json) (w : World)
    (hfile : ∀ item ∈ items, ∀ ref ∈ itemRefs item, HasPrefix ref fileScheme = false)
    (hstr : items.any itemMalformed = false) :
    visitAllOfItems r recur vc items w = Outcome.ok items w := by
  induction items with
  | nil => rfl
  | cons item rest ih =>
    simp only [List.any_cons, Bool.or_eq_false_iff] at hstr
    unfold visitAllOfItems
    rw [visitItem_plain r recur vc item w (hfile item (by simp)) hstr.1]
    simp only [ih (fun x hx => hfile x (by simp [hx])) hstr.2]

theorem visitPropertyEntries_plain (r : relocator) (recur : Str → World → Outcome Unit)
    (vc : VisitorContext) (ps : List (Str × Json)) (w : World)
    (hfile : ∀ e ∈ ps, ∀ ref ∈ itemRefs e.2, HasPrefix ref fileScheme = false)
    (hstr : ps.any (fun e => itemMalformed e.2) = false) :
    visitPropertyEntries r recur vc ps w = Outcome.ok ps w := by
  induction ps with
  | nil => rfl
  | cons e rest ih =>
    obtain ⟨k, item⟩ := e
    simp only [List.any_cons, Bool.or_eq_false_iff] at hstr
    unfold visitPropertyEntries
    rw [visitItem_plain r recur vc item w (hfile (k, item) (by simp)) hstr.1]
    simp only [ih (fun x hx => hfile x (by simp [hx])) hstr.2]

theorem visitDefinition_plain (r : relocator) (recur : Str → World → Outcome Unit)
    (vc : VisitorContext) (d : Json) (w : World)
    (hfile : ∀ ref ∈ defRefs d, HasPrefix ref fileScheme = false)
    (hstr : definitionMalformed d = false) :
    visitDefinition r recur vc d w = Outcome.ok d w := by
  unfold definitionMalformed at hstr
  rw [Bool.or_eq_false_iff] at hstr
  have hP : visitProperties r recur d vc w = Outcome.ok d w := by
    unfold visitProperties
    split
    · rename_i ps hget
      have h1 := hstr.1
      rw [hget] at h1
      have h2 : ∀ e ∈ ps, ∀ ref ∈ itemRefs e.2, HasPrefix ref fileScheme = false := by
        intro e he ref href
        apply hfile ref
        unfold defRefs propsRefs
        rw [hget]
        exact List.mem_append_left _ (List.mem_flatMap.2 ⟨e, he, href⟩)
      rw [visitPropertyEntries_plain r recur vc ps w h2 h1]
      simp only [set_of_get _ _ _ hget]
    · rfl
  have hA : visitAllOf r recur d vc w = Outcome.ok d w := by
    unfold visitAllOf
    split
    · rename_i xs hget
      have h1 := hstr.2
      rw [hget] at h1
      have h2 : ∀ x ∈ xs, ∀ ref ∈ itemRefs x, HasPrefix ref fileScheme = false := by
        intro x hx ref href
        apply hfile ref
        unfold defRefs allOfRefs
        rw [hget]
        exact List.mem_append_right _ (List.mem_flatMap.2 ⟨x, hx, href⟩)
      rw [visitAllOfItems_plain r recur vc xs w h2 h1]
      simp only [set_of_get _ _ _ hget]
    · rfl
  unfold visitDefinition
  rw [hP]
  exact hA

theorem visitDefinitionEntries_plain (r : relocator) (recur : Str → World → Outcome Unit)
    (vc : VisitorContext) (ds : List (Str × Json)) (w : World)
    (hfile : ∀ e ∈ ds, ∀ ref ∈ defRefs e.2, HasPrefix ref fileScheme = false)
    (hstr : ds.any (fun e => definitionMalformed e.2) = false) :
    visitDefinitionEntries r recur vc ds w = Outcome.ok ds w := by
  induction ds with
  | nil => rfl
  | cons e rest ih =>
    obtain ⟨k, d⟩ := e
    simp only [List.any_cons, Bool.or_eq_false_iff] at hstr
    unfold visitDefinitionEntries
    rw [visitDefinition_plain r recur vc d w (hfile (k, d) (by simp)) hstr.1]
    simp only [ih (fun x hx => hfile x (by simp [hx])) hstr.2]

theorem visit_plain (r : relocator) (recur : Str → World → Outcome Unit)
    (vc : VisitorContext) (schema : Json) (w : World)
    (hfile : ∀ ref ∈ docRefs schema, HasPrefix ref fileScheme = false)
    (hstr : schemaMalformed schema = false) :
    visit r recur schema vc w = Outcome.ok (some schema) w := by
  unfold schemaMalformed at hstr
  rw [Bool.or_eq_false_iff] at hstr
  unfold visit
  rw [visitDefinition_plain r recur vc schema w
    (fun ref href => hfile ref (List.mem_append_left _ href)) hstr.1]
  simp only
  split
  · rename_i ds hget
    have h1 := hstr.2
    rw [hget] at h1
    have h2 : ∀ e ∈ ds, ∀ ref ∈ defRefs e.2, HasPrefix ref fileScheme = false := by
      intro e he ref href
      apply hfile ref
      unfold docRefs
      rw [hget]
      exact List.mem_append_right _ (List.mem_flatMap.2 ⟨e, he, href⟩)
    rw [visitDefinitionEntries_plain r recur vc ds w h2 h1]
    simp only [set_of_get _ _ _ hget]
  · rfl


/-! ## A recursion that ends makes every step end -/

theorem resolveRef_ends (r : relocator) (recur : Str → World → Outcome Unit)
    (hrec : ∀ file w, recur file w ≠ Outcome.outOfFuel) (ref : Str) (vc : VisitorContext)
    (w : World) : resolveRef r recur ref vc w ≠ Outcome.outOfFuel := by
  unfold resolveRef
  split
  · split
    · split
      · simp
      · split
        · simp
        · rename_i absPath _ _ _ _
          have h := hrec absPath { w with catalog := absPath :: w.catalog }
          split
          · simp
          · simp
          · rename_i e
            exact absurd e h
    · simp
  · simp

theorem visitItem_ends (r : relocator) (recur : Str → World → Outcome Unit)
    (hrec : ∀ file w, recur file w ≠ Outcome.outOfFuel) (vc : VisitorContext) (item : Json)
    (w : World) : visitItem r recur vc item w ≠ Outcome.outOfFuel := by
  unfold visitItem
  split
  · split
    · simp
    · rename_i ref _
      have h := resolveRef_ends r recur hrec ref vc w
      split
      · simp
      · simp
      · simp
      · rename_i e
        exact absurd e h
    · simp
  · simp

theorem visitAllOfItems_ends (r : relocator) (recur : Str → World → Outcome Unit)
    (hrec : ∀ file w, recur file w ≠ Outcome.outOfFuel) (vc : VisitorContext)
    (items : List Json) (w : World) :
    visitAllOfItems r recur vc items w ≠ Outcome.outOfFuel := by
  induction items generalizing w with
  | nil => simp [visitAllOfItems]
  | cons item rest ih =>
    unfold visitAllOfItems
    have h := visitItem_ends r recur hrec vc item w
    split
    · rename_i item1 w1 _
      have h2 := ih w1
      split
      · simp
      · simp
      · rename_i e
        exact absurd e h2
    · simp
    · rename_i e
      exact absurd e h

theorem visitPropertyEntries_ends (r : relocator) (recur : Str → World → Outcome Unit)
    (hrec : ∀ file w, recur file w ≠ Outcome.outOfFuel) (vc : VisitorContext)
    (ps : List (Str × Json)) (w : World) :
    visitPropertyEntries r recur vc ps w ≠ Outcome.outOfFuel := by
  induction ps generalizing w with
  | nil => simp [visitPropertyEntries]
  | cons e0 rest ih =>
    obtain ⟨k, item⟩ := e0
    unfold visitPropertyEntries
    have h := visitItem_ends r recur hrec vc item w
    split
    · rename_i item1 w1 _
      have h2 := ih w1
      split
      · simp
      · simp
      · rename_i e
        exact absurd e h2
    · simp
    · rename_i e
      exact absurd e h

theorem visitProperties_ends (r : relocator) (recur : Str → World → Outcome Unit)
    (hrec : ∀ file w, recur file w ≠ Outcome.outOfFuel) (vc : VisitorContext) (d : Json)
    (w : World) : visitProperties r recur d vc w ≠ Outcome.outOfFuel := by
  unfold visitProperties
  split
  · rename_i ps _
    have h := visitPropertyEntries_ends r recur hrec vc ps w
    split
    · simp
    · simp
    · rename_i e
      exact absurd e h
  · simp

theorem visitAllOf_ends (r : relocator) (recur : Str → World → Outcome Unit)
    (hrec : ∀ file w, recur file w ≠ Outcome.outOfFuel) (vc : VisitorContext) (d : Json)
    (w : World) : visitAllOf r recur d vc w ≠ Outcome.outOfFuel := by
  unfold visitAllOf
  split
  · rename_i xs _
    have h := visitAllOfItems_ends r recur hrec vc xs w
    split
    · simp
    · simp
    · rename_i e
      exact absurd e h
  · simp

theorem visitDefinition_ends (r : relocator) (recur : Str → World → Outcome Unit)
    (hrec : ∀ file w, recur file w ≠ Outcome.outOfFuel) (vc : VisitorContext) (d : Json)
    (w : World) : visitDefinition r recur vc d w ≠ Outcome.outOfFuel := by
  unfold visitDefinition
  have h := visitProperties_ends r recur hrec vc d w
  split
  · exact visitAllOf_ends r recur hrec vc _ _
  · simp
  · rename_i e
    exact absurd e h

theorem visitDefinitionEntries_ends (r : relocator) (recur : Str → World → Outcome Unit)
    (hrec : ∀ file w, recur file w ≠ Outcome.outOfFuel) (vc : VisitorContext)
    (ds : List (Str × Json)) (w : World) :
    visitDefinitionEntries r recur vc ds w ≠ Outcome.outOfFuel := by
  induction ds generalizing w with
  | nil => simp [visitDefinitionEntries]
  | cons e0 rest ih =>
    obtain ⟨k, d⟩ := e0
    unfold visitDefinitionEntries
    have h := visitDefinition_ends r recur hrec vc d w
    split
    · rename_i d1 w1 _
      have h2 := ih w1
      split
      · simp
      · simp
      · rename_i e
        exact absurd e h2
    · simp
    · rename_i e
      exact absurd e h

theorem visit_ends (r : relocator) (recur : Str → World → Outcome Unit)
    (hrec : ∀ file w, recur file w ≠ Outcome.outOfFuel) (vc : VisitorContext) (schema : Json)
    (w : World) : visit r recur schema vc w ≠ Outcome.outOfFuel := by
  unfold visit
  have h := visitDefinition_ends r recur hrec vc schema w
  split
  · rename_i s2 w2 _
    split
    · rename_i ds _
      have h2 := visitDefinitionEntries_ends r recur hrec vc ds w2
      split
      · simp
      · simp
      · rename_i e
        exact absurd e h2
    · simp
  · simp
  · rename_i e
    exact absurd e h

/-! ## A `$ref` that is not a string -/

theorem isAbort_of_not_ok {α : Type} (o : Outcome α) (h1 : o.isOk = false)
    (h2 : o ≠ Outcome.outOfFuel) : o.isAbort = true := by
  cases o with
  | ok a w => simp [Outcome.isOk] at h1
  | abort w => rfl
  | outOfFuel => exact absurd rfl h2

theorem visitItem_malformed (r : relocator) (recur : Str → World → Outcome Unit)
    (vc : VisitorContext) (item : Json) (w : World) (h : itemMalformed item = true) :
    visitItem r recur vc item w = Outcome.abort w := by
  cases item with
  | obj fields =>
    cases hl : fields.lookup refKey with
    | none => simp [itemMalformed, hl] at h
    | some v =>
      cases v with
      | str ref => simp [itemMalformed, hl] at h
      | null => simp only [visitItem, hl]
      | bool b => simp only [visitItem, hl]
      | number n => simp only [visitItem, hl]
      | arr xs => simp only [visitItem, hl]
      | obj fs => simp only [visitItem, hl]
  | null => simp [itemMalformed] at h
  | bool b => simp [itemMalformed] at h
  | number n => simp [itemMalformed] at h
  | str s => simp [itemMalformed] at h
  | arr xs => simp [itemMalformed] at h

theorem visitAllOfItems_malformed (r : relocator) (recur : Str → World → Outcome Unit)
    (vc : VisitorContext) (items : List Json) (w : World)
    (h : items.any itemMalformed = true) :
    (visitAllOfItems r recur vc items w).isOk = false := by
  induction items generalizing w with
  | nil => simp at h
  | cons item rest ih =>
    unfold visitAllOfItems
    by_cases hi : itemMalformed item = true
    · rw [visitItem_malformed r recur vc item w hi]
      rfl
    · have hr : rest.any itemMalformed = true := by
        simp only [List.any_cons, Bool.or_eq_true] at h
        rcases h with h1 | h1
        · exact absurd h1 hi
        · exact h1
      split
      · rename_i item1 w1 _
        have h2 := ih w1 hr
        split
        · rename_i e
          rw [e] at h2
          simp [Outcome.isOk] at h2
        · rfl
        · rfl
      · rfl
      · rfl

theorem visitPropertyEntries_malformed (r : relocator) (recur : Str → World → Outcome Unit)
    (vc : VisitorContext) (ps : List (Str × Json)) (w : World)
    (h : ps.any (fun e => itemMalformed e.2) = true) :
    (visitPropertyEntries r recur vc ps w).isOk = false := by
  induction ps generalizing w with
  | nil => simp at h
  | cons e0 rest ih =>
    obtain ⟨k, item⟩ := e0
    unfold visitPropertyEntries
    by_cases hi : itemMalformed item = true
    · rw [visitItem_malformed r recur vc item w hi]
      rfl
    · have hr : rest.any (fun e => itemMalformed e.2) = true := by
        simp only [List.any_cons, Bool.or_eq_true] at h
        rcases h with h1 | h1
        · exact absurd h1 hi
        · exact h1
      split
      · rename_i item1 w1 _
        have h2 := ih w1 hr
        split
        · rename_i e
          rw [e] at h2
          simp [Outcome.isOk] at h2
        · rfl
        · rfl
      · rfl
      · rfl

theorem visitDefinition_malformed (r : relocator) (recur : Str → World → Outcome Unit)
    (vc : VisitorContext) (d : Json) (w : World) (h : definitionMalformed d = true) :
    (visitDefinition r recur vc d w).isOk = false := by
  unfold visitDefinition
  cases hP : visitProperties r recur d vc w with
  | ok d1 w1 =>
    simp only
    have hA : d1.get allOfKey = d.get allOfKey :=
      visitProperties_get _ _ _ _ _ _ _ hP _ allOfKey_ne_propertiesKey
    -- the properties were visited without abort, so the malformed reference is under `allOf`
    have hprops : (match d.get propertiesKey with
        | some (Json.obj ps) => ps.any (fun e => itemMalformed e.2)
        | _ => false) = false := by
      cases hb : (match d.get propertiesKey with
        | some (Json.obj ps) => ps.any (fun e => itemMalformed e.2)
        | _ => false) with
      | false => rfl
      | true =>
        exfalso
        unfold visitProperties at hP
        split at hP
        · rename_i ps hget
          rw [hget] at hb
          have h2 := visitPropertyEntries_malformed r recur vc ps w hb
          split at hP
          · rename_i e
            rw [e] at h2
            simp [Outcome.isOk] at h2
          · simp at hP
          · simp at hP
        · rename_i hno
          split at hb
          · rename_i ps hget
            exact hno ps hget
          · simp at hb
    unfold definitionMalformed at h
    rw [hprops, Bool.false_or] at h
    unfold visitAllOf
    rw [hA]
    split
    · rename_i xs hget
      rw [hget] at h
      have h2 := visitAllOfItems_malformed r recur vc xs w1 h
      split
      · rename_i e
        rw [e] at h2
        simp [Outcome.isOk] at h2
      · rfl
      · rfl
    · rename_i hno
      split at h
      · rename_i xs hget
        exact absurd hget (hno xs)
      · simp at h
  | abort w1 => rfl
  | outOfFuel => rfl

theorem visitDefinitionEntries_malformed (r : relocator) (recur : Str → World → Outcome Unit)
    (vc : VisitorContext) (ds : List (Str × Json)) (w : World)
    (h : ds.any (fun e => definitionMalformed e.2) = true) :
    (visitDefinitionEntries r recur vc ds w).isOk = false := by
  induction ds generalizing w with
  | nil => simp at h
  | cons e0 rest ih =>
    obtain ⟨k, d⟩ := e0
    unfold visitDefinitionEntries
    by_cases hi : definitionMalformed d = true
    · have h1 := visitDefinition_malformed r recur vc d w hi
      split
      · rename_i e
        rw [e] at h1
        simp [Outcome.isOk] at h1
      · rfl
      · rfl
    · have hr : rest.any (fun e => definitionMalformed e.2) = true := by
        simp only [List.any_cons, Bool.or_eq_true] at h
        rcases h with h1 | h1
        · exact absurd h1 hi
        · exact h1
      split
      · rename_i d1 w1 _
        have h2 := ih w1 hr
        split
        · rename_i e
          rw [e] at h2
          simp [Outcome.isOk] at h2
        · rfl
        · rfl
      · rfl
      · rfl

theorem visit_malformed (r : relocator) (recur : Str → World → Outcome Unit)
    (vc : VisitorContext) (schema : Json) (w : World) (h : schemaMalformed schema = true) :
    (visit r recur schema vc w).isOk = false := by
  unfold visit
  by_cases hd : definitionMalformed schema = true
  · have h1 := visitDefinition_malformed r recur vc schema w hd
    split
    · rename_i e
      rw [e] at h1
      simp [Outcome.isOk] at h1
    · rfl
    · rfl
  · unfold schemaMalformed at h
    have hd1 : definitionMalformed schema = false := by simpa using hd
    rw [hd1, Bool.false_or] at h
    split
    · rename_i s2 w2 hv
      have hD : s2.get defKey = schema.get defKey :=
        visitDefinition_get _ _ _ _ _ _ _ hv _ defKey_ne_propertiesKey defKey_ne_allOfKey
      rw [hD]
      split
      · rename_i ds hget
        rw [hget] at h
        have h2 := visitDefinitionEntries_malformed r recur vc ds w2 h
        split
        · rename_i e
          rw [e] at h2
          simp [Outcome.isOk] at h2
        · rfl
        · rfl
      · rename_i hno
        split at h
        · rename_i ds hget
          exact absurd hget (hno ds)
        · simp at h
    · rfl
    · rfl

/-! ## The catalog only grows -/

theorem Grows_ok {α : Type} (w : World) (a : α) : Grows w (Outcome.ok a w) := by
  intro w1 h
  simp only [Outcome.world?, Option.some.injEq] at h
  rw [← h]
  exact fun _ hx => hx

theorem Grows_abort {α : Type} (w : World) : Grows w (Outcome.abort w : Outcome α) := by
  intro w1 h
  simp only [Outcome.world?, Option.some.injEq] at h
  rw [← h]
  exact fun _ hx => hx

theorem Grows_outOfFuel {α : Type} (w : World) : Grows w (Outcome.outOfFuel : Outcome α) := by
  intro w1 h
  simp [Outcome.world?] at h

theorem Grows_of_subset {α : Type} (w w1 : World) (o : Outcome α) (h : w.catalog ⊆ w1.catalog)
    (g : Grows w1 o) : Grows w o :=
  fun w2 h2 => fun _ hx => g w2 h2 (h hx)

theorem Grows_ok_iff {α : Type} (w w1 : World) (a : α) :
    Grows w (Outcome.ok a w1) ↔ w.catalog ⊆ w1.catalog := by
  constructor
  · exact fun g => g w1 rfl
  · intro h w2 h2
    simp only [Outcome.world?, Option.some.injEq] at h2
    rw [← h2]
    exact h

theorem Grows_abort_iff {α : Type} (w w1 : World) :
    Grows w (Outcome.abort w1 : Outcome α) ↔ w.catalog ⊆ w1.catalog := by
  constructor
  · exact fun g => g w1 rfl
  · intro h w2 h2
    simp only [Outcome.world?, Option.some.injEq] at h2
    rw [← h2]
    exact h

theorem resolveRef_grows (r : relocator) (recur : Str → World → Outcome Unit)
    (hrec : ∀ file w, Grows w (recur file w)) (ref : Str) (vc : VisitorContext) (w : World) :
    Grows w (resolveRef r recur ref vc w) := by
  unfold resolveRef
  split
  · split
    · split
      · exact Grows_ok w _
      · split
        · exact Grows_ok w _
        · rename_i absPath _ _ _ _
          have h := hrec absPath { w with catalog := absPath :: w.catalog }
          have hsub : w.catalog ⊆ absPath :: w.catalog := fun _ hx => List.mem_cons_of_mem _ hx
          split
          · rename_i u w1 e
            rw [e] at h
            exact (Grows_ok_iff _ _ _).2 (fun _ hx => (Grows_ok_iff _ _ _).1 h (hsub hx))
          · rename_i w1 e
            rw [e] at h
            exact (Grows_abort_iff _ _).2 (fun _ hx => (Grows_abort_iff _ _).1 h (hsub hx))
          · exact Grows_outOfFuel w
    · exact Grows_abort w
  · exact Grows_ok w _

theorem visitItem_grows (r : relocator) (recur : Str → World → Outcome Unit)
    (hrec : ∀ file w, Grows w (recur file w)) (vc : VisitorContext) (item : Json) (w : World) :
    Grows w (visitItem r recur vc item w) := by
  unfold visitItem
  split
  · split
    · exact Grows_ok w _
    · rename_i ref _
      have h := resolveRef_grows r recur hrec ref vc w
      split
      · rename_i e
        rw [e] at h
        exact (Grows_ok_iff _ _ _).2 ((Grows_ok_iff _ _ _).1 h)
      · rename_i e
        rw [e] at h
        exact (Grows_ok_iff _ _ _).2 ((Grows_ok_iff _ _ _).1 h)
      · rename_i e
        rw [e] at h
        exact (Grows_abort_iff _ _).2 ((Grows_abort_iff _ _).1 h)
      · exact Grows_outOfFuel w
    · exact Grows_abort w
  · exact Grows_ok w _

theorem visitAllOfItems_grows (r : relocator) (recur : Str → World → Outcome Unit)
    (hrec : ∀ file w, Grows w (recur file w)) (vc : VisitorContext) (items : List Json)
    (w : World) : Grows w (visitAllOfItems r recur vc items w) := by
  induction items generalizing w with
  | nil => exact Grows_ok w _
  | cons item rest ih =>
    unfold visitAllOfItems
    have h := visitItem_grows r recur hrec vc item w
    split
    · rename_i item1 w1 e
      rw [e] at h
      have hsub := (Grows_ok_iff _ _ _).1 h
      have h2 := ih w1
      split
      · rename_i e2
        rw [e2] at h2
        exact (Grows_ok_iff _ _ _).2 (fun _ hx => (Grows_ok_iff _ _ _).1 h2 (hsub hx))
      · rename_i e2
        rw [e2] at h2
        exact (Grows_abort_iff _ _).2 (fun _ hx => (Grows_abort_iff _ _).1 h2 (hsub hx))
      · exact Grows_outOfFuel w
    · rename_i e
      rw [e] at h
      exact (Grows_abort_iff _ _).2 ((Grows_abort_iff _ _).1 h)
    · exact Grows_outOfFuel w

theorem visitPropertyEntries_grows (r : relocator) (recur : Str → World → Outcome Unit)
    (hrec : ∀ file w, Grows w (recur file w)) (vc : VisitorContext) (ps : List (Str × Json))
    (w : World) : Grows w (visitPropertyEntries r recur vc ps w) := by
  induction ps generalizing w with
  | nil => exact Grows_ok w _
  | cons e0 rest ih =>
    obtain ⟨k, item⟩ := e0
    unfold visitPropertyEntries
    have h := visitItem_grows r recur hrec vc item w
    split
    · rename_i item1 w1 e
      rw [e] at h
      have hsub := (Grows_ok_iff _ _ _).1 h
      have h2 := ih w1
      split
      · rename_i e2
        rw [e2] at h2
        exact (Grows_ok_iff _ _ _).2 (fun _ hx => (Grows_ok_iff _ _ _).1 h2 (hsub hx))
      · rename_i e2
        rw [e2] at h2
        exact (Grows_abort_iff _ _).2 (fun _ hx => (Grows_abort_iff _ _).1 h2 (hsub hx))
      · exact Grows_outOfFuel w
    · rename_i e
      rw [e] at h
      exact (Grows_abort_iff _ _).2 ((Grows_abort_iff _ _).1 h)
    · exact Grows_outOfFuel w

theorem visitProperties_grows (r : relocator) (recur : Str → World → Outcome Unit)
    (hrec : ∀ file w, Grows w (recur file w)) (vc : VisitorContext) (d : Json) (w : World) :
    Grows w (visitProperties r recur d vc w) := by
  unfold visitProperties
  split
  · rename_i ps _
    have h := visitPropertyEntries_grows r recur hrec vc ps w
    split
    · rename_i e
      rw [e] at h
      exact (Grows_ok_iff _ _ _).2 ((Grows_ok_iff _ _ _).1 h)
    · rename_i e
      rw [e] at h
      exact (Grows_abort_iff _ _).2 ((Grows_abort_iff _ _).1 h)
    · exact Grows_outOfFuel w
  · exact Grows_ok w _

theorem visitAllOf_grows (r : relocator) (recur : Str → World → Outcome Unit)
    (hrec : ∀ file w, Grows w (recur file w)) (vc : VisitorContext) (d : Json) (w : World) :
    Grows w (visitAllOf r recur d vc w) := by
  unfold visitAllOf
  split
  · rename_i xs _
    have h := visitAllOfItems_grows r recur hrec vc xs w
    split
    · rename_i e
      rw [e] at h
      exact (Grows_ok_iff _ _ _).2 ((Grows_ok_iff _ _ _).1 h)
    · rename_i e
      rw [e] at h
      exact (Grows_abort_iff _ _).2 ((Grows_abort_iff _ _).1 h)
    · exact Grows_outOfFuel w
  · exact Grows_ok w _

theorem visitDefinition_grows (r : relocator) (recur : Str → World → Outcome Unit)
    (hrec : ∀ file w, Grows w (recur file w)) (vc : VisitorContext) (d : Json) (w : World) :
    Grows w (visitDefinition r recur vc d w) := by
  unfold visitDefinition
  have h := visitProperties_grows r recur hrec vc d w
  split
  · rename_i d1 w1 e
    rw [e] at h
    exact Grows_of_subset w w1 _ ((Grows_ok_iff _ _ _).1 h) (visitAllOf_grows r recur hrec vc d1 w1)
  · rename_i e
    rw [e] at h
    exact (Grows_abort_iff _ _).2 ((Grows_abort_iff _ _).1 h)
  · exact Grows_outOfFuel w

theorem visitDefinitionEntries_grows (r : relocator) (recur : Str → World → Outcome Unit)
    (hrec : ∀ file w, Grows w (recur file w)) (vc : VisitorContext) (ds : List (Str × Json))
    (w : World) : Grows w (visitDefinitionEntries r recur vc ds w) := by
  induction ds generalizing w with
  | nil => exact Grows_ok w _
  | cons e0 rest ih =>
    obtain ⟨k, d⟩ := e0
    unfold visitDefinitionEntries
    have h := visitDefinition_grows r recur hrec vc d w
    split
    · rename_i d1 w1 e
      rw [e] at h
      have hsub := (Grows_ok_iff _ _ _).1 h
      have h2 := ih w1
      split
      · rename_i e2
        rw [e2] at h2
        exact (Grows_ok_iff _ _ _).2 (fun _ hx => (Grows_ok_iff _ _ _).1 h2 (hsub hx))
      · rename_i e2
        rw [e2] at h2
        exact (Grows_abort_iff _ _).2 (fun _ hx => (Grows_abort_iff _ _).1 h2 (hsub hx))
      · exact Grows_outOfFuel w
    · rename_i e
      rw [e] at h
      exact (Grows_abort_iff _ _).2 ((Grows_abort_iff _ _).1 h)
    · exact Grows_outOfFuel w

theorem visit_grows (r : relocator) (recur : Str → World → Outcome Unit)
    (hrec : ∀ file w, Grows w (recur file w)) (vc : VisitorContext) (schema : Json)
    (w : World) : Grows w (visit r recur schema vc w) := by
  unfold visit
  have h := visitDefinition_grows r recur hrec vc schema w
  split
  · rename_i s2 w2 e
    rw [e] at h
    have hsub := (Grows_ok_iff _ _ _).1 h
    split
    · rename_i ds _
      have h2 := visitDefinitionEntries_grows r recur hrec vc ds w2
      split
      · rename_i e2
        rw [e2] at h2
        exact (Grows_ok_iff _ _ _).2 (fun _ hx => (Grows_ok_iff _ _ _).1 h2 (hsub hx))
      · rename_i e2
        rw [e2] at h2
        exact (Grows_abort_iff _ _).2 (fun _ hx => (Grows_abort_iff _ _).1 h2 (hsub hx))
      · exact Grows_outOfFuel w
    · exact (Grows_ok_iff _ _ _).2 hsub
  · rename_i e
    rw [e] at h
    exact (Grows_abort_iff _ _).2 ((Grows_abort_iff _ _).1 h)
  · exact Grows_outOfFuel w

theorem Load_grows (r : relocator) (recur : Str → World → Outcome Unit)
    (hrec : ∀ file w, Grows w (recur file w)) (vc : VisitorContext) (c : Content) (w : World) :
    Grows w (Load r recur c vc w) := by
  unfold Load
  split
  · exact visit_grows r recur hrec vc _ w
  · exact visit_grows r recur hrec vc _ w
  · exact Grows_ok w _

theorem writeFile_catalog (w : World) (target : Str) (data : Json) :
    (w.writeFile target data).catalog = w.catalog := by
  unfold World.writeFile
  split <;> rfl

/-- No step of a relocation removes a path from the catalog. -/
theorem relocateJsonFile_grows (r : relocator) (n : Nat) :
    ∀ file w, Grows w (relocateJsonFile r n file w) := by
  induction n with
  | zero => exact fun _ w => Grows_outOfFuel w
  | succ n ih =>
    intro file w
    unfold relocateJsonFile
    split
    · exact Grows_abort w
    · rename_i c _
      simp only
      have h := Load_grows r (relocateJsonFile r n) ih { File := file } c (w.logRead file)
      split
      · rename_i data w1 e
        rw [e] at h
        have hsub : w.catalog ⊆ w1.catalog := (Grows_ok_iff _ _ _).1 h
        split
        · apply (Grows_ok_iff _ _ _).2
          rw [writeFile_catalog]
          exact hsub
        · exact (Grows_abort_iff _ _).2 hsub
      · rename_i w1 e
        rw [e] at h
        exact (Grows_ok_iff _ _ _).2 ((Grows_ok_iff _ _ _).1 h)
      · rename_i w1 e
        rw [e] at h
        exact (Grows_abort_iff _ _).2 ((Grows_abort_iff _ _).1 h)
      · exact Grows_outOfFuel w

/-! ## The loops, piece by piece -/

theorem visitAllOfItems_cons (r : relocator) (recur : Str → World → Outcome Unit)
    (vc : VisitorContext) (item : Json) (rest : List Json) (w : World) :
    visitAllOfItems r recur vc (item :: rest) w =
      match visitItem r recur vc item w with
      | Outcome.ok item1 w1 =>
        match visitAllOfItems r recur vc rest w1 with
        | Outcome.ok rest1 w2 => Outcome.ok (item1 :: rest1) w2
        | Outcome.abort w2 => Outcome.abort w2
        | Outcome.outOfFuel => Outcome.outOfFuel
      | Outcome.abort w1 => Outcome.abort w1
      | Outcome.outOfFuel => Outcome.outOfFuel := rfl

theorem visitPropertyEntries_cons (r : relocator) (recur : Str → World → Outcome Unit)
    (vc : VisitorContext) (k : Str) (item : Json) (rest : List (Str × Json)) (w : World) :
    visitPropertyEntries r recur vc ((k, item) :: rest) w =
      match visitItem r recur vc item w with
      | Outcome.ok item1 w1 =>
        match visitPropertyEntries r recur vc rest w1 with
        | Outcome.ok rest1 w2 => Outcome.ok ((k, item1) :: rest1) w2
        | Outcome.abort w2 => Outcome.abort w2
        | Outcome.outOfFuel => Outcome.outOfFuel
      | Outcome.abort w1 => Outcome.abort w1
      | Outcome.outOfFuel => Outcome.outOfFuel := rfl

theorem visitAllOfItems_append (r : relocator) (recur : Str → World → Outcome Unit)
    (vc : VisitorContext) (pre post : List Json) (w : World) :
    visitAllOfItems r recur vc (pre ++ post) w =
      match visitAllOfItems r recur vc pre w with
      | Outcome.ok pre1 w1 =>
        match visitAllOfItems r recur vc post w1 with
        | Outcome.ok post1 w2 => Outcome.ok (pre1 ++ post1) w2
        | Outcome.abort w2 => Outcome.abort w2
        | Outcome.outOfFuel => Outcome.outOfFuel
      | Outcome.abort w1 => Outcome.abort w1
      | Outcome.outOfFuel => Outcome.outOfFuel := by
  induction pre generalizing w with
  | nil =>
    have e : visitAllOfItems r recur vc [] w = Outcome.ok [] w := rfl
    rw [List.nil_append, e]
    dsimp only
    cases visitAllOfItems r recur vc post w <;> rfl
  | cons item rest ih =>
    rw [List.cons_append, visitAllOfItems_cons, visitAllOfItems_cons]
    cases visitItem r recur vc item w with
    | ok item1 w1 =>
      dsimp only
      rw [ih w1]
      cases visitAllOfItems r recur vc rest w1 with
      | ok rest1 w2 =>
        dsimp only
        cases visitAllOfItems r recur vc post w2 <;> rfl
      | abort w2 => rfl
      | outOfFuel => rfl
    | abort w1 => rfl
    | outOfFuel => rfl

theorem visitPropertyEntries_append (r : relocator) (recur : Str → World → Outcome Unit)
    (vc : VisitorContext) (pre post : List (Str × Json)) (w : World) :
    visitPropertyEntries r recur vc (pre ++ post) w =
      match visitPropertyEntries r recur vc pre w with
      | Outcome.ok pre1 w1 =>
        match visitPropertyEntries r recur vc post w1 with
        | Outcome.ok post1 w2 => Outcome.ok (pre1 ++ post1) w2
        | Outcome.abort w2 => Outcome.abort w2
        | Outcome.outOfFuel => Outcome.outOfFuel
      | Outcome.abort w1 => Outcome.abort w1
      | Outcome.outOfFuel => Outcome.outOfFuel := by
  induction pre generalizing w with
  | nil =>
    have e : visitPropertyEntries r recur vc [] w = Outcome.ok [] w := rfl
    rw [List.nil_append, e]
    dsimp only
    cases visitPropertyEntries r recur vc post w <;> rfl
  | cons e0 rest ih =>
    obtain ⟨k, item⟩ := e0
    rw [List.cons_append, visitPropertyEntries_cons, visitPropertyEntries_cons]
    cases visitItem r recur vc item w with
    | ok item1 w1 =>
      dsimp only
      rw [ih w1]
      cases visitPropertyEntries r recur vc rest w1 with
      | ok rest1 w2 =>
        dsimp only
        cases visitPropertyEntries r recur vc post w2 <;> rfl
      | abort w2 => rfl
      | outOfFuel => rfl
    | abort w1 => rfl
    | outOfFuel => rfl

/-- An error of `resolveRef` comes from `resolveLocation`, before any change of state. -/
theorem resolveRef_error_state (r : relocator) (recur : Str → World → Outcome Unit)
    (ref : Str) (vc : VisitorContext) (w w1 : World)
    (h : resolveRef r recur ref vc w = Outcome.ok none w1) : w1 = w := by
  unfold resolveRef at h
  split at h
  · split at h
    · split at h
      · simp only [Outcome.ok.injEq, true_and] at h
        exact h.symm
      · split at h
        · simp at h
        · split at h
          · simp at h
          · simp at h
          · simp at h
    · simp at h
  · simp at h

theorem visit_returns_document (r : relocator) (recur : Str → World → Outcome Unit)
    (vc : VisitorContext) (schema : Json) (w w1 : World) :
    visit r recur schema vc w ≠ Outcome.ok none w1 := by
  unfold visit
  split
  · split
    · split
      · simp
      · simp
      · simp
    · simp
  · simp
  · simp

theorem resolveLocation_congr (r : relocator) (cwd location location2 : Str)
    (vc : VisitorContext)
    (h : Abs cwd (TrimPrefix location2 fileScheme) = Abs cwd (TrimPrefix location fileScheme)) :
    resolveLocation r cwd location2 vc = resolveLocation r cwd location vc := by
  simp only [resolveLocation, h]


/-! ## Indentation of the encoding -/

theorem leadingSpaces_replicate (n : Nat) (c : Char) (rest : Str) (hc : c ≠ ' ') :
    leadingSpaces (List.replicate n ' ' ++ c :: rest) = n := by
  have hb : (c == ' ') = false := by simp [hc]
  have e : List.takeWhile (fun c => c == ' ') (List.replicate n ' ' ++ c :: rest)
      = List.replicate n ' ' := by
    induction n with
    | zero => simp [List.takeWhile_cons, hb]
    | succ n ih => simp [List.replicate_succ, List.takeWhile_cons, ih]
  simp [leadingSpaces, e]

theorem IndentedAt_of_Ind (width level : Nat) (line : Str) (h : Ind width level line) :
    IndentedAt width level line := by
  obtain ⟨c, rest, hc, rfl⟩ := h
  unfold IndentedAt
  rw [leadingSpaces_replicate _ _ _ hc]
  refine ⟨rfl, ?_⟩
  simp

theorem Ind_append (width level : Nat) (line b : Str) (h : Ind width level line) :
    Ind width level (line ++ b) := by
  obtain ⟨c, rest, hc, rfl⟩ := h
  exact ⟨c, rest ++ b, hc, by simp⟩

theorem Split_pre (a s : Str) (c : Char) (h : c ∉ a) :
    Split (a ++ s) c = (a ++ (Split s c).headD []) :: (Split s c).tail := by
  induction a with
  | nil =>
    cases hs : Split s c with
    | nil => exact absurd hs (Split_ne_nil s c)
    | cons p t => simp [hs]
  | cons x xs ih =>
    have hx : x ≠ c := fun e => h (by simp [e])
    have hxs : c ∉ xs := fun e => h (by simp [e])
    rw [List.cons_append, Split_cons_ne _ _ _ hx, ih hxs]
    simp

theorem appendLast_cons (b l : Str) (ls : List Str) (h : ls ≠ []) :
    appendLast b (l :: ls) = l :: appendLast b ls := by
  cases ls with
  | nil => exact absurd rfl h
  | cons l1 rest => rfl

theorem Split_post (s b : Str) (c : Char) (h : c ∉ b) :
    Split (s ++ b) c = appendLast b (Split s c) := by
  induction s with
  | nil => simp [Split, appendLast, Split_of_not_mem _ _ h]
  | cons x xs ih =>
    by_cases hx : x = c
    · subst hx
      rw [List.cons_append, Split_cons_sep, Split_cons_sep, ih,
        appendLast_cons _ _ _ (Split_ne_nil xs x)]
    · rw [List.cons_append, Split_cons_ne _ _ _ hx, Split_cons_ne _ _ _ hx, ih]
      cases hs : Split xs c with
      | nil => exact absurd hs (Split_ne_nil xs c)
      | cons p t =>
        cases t with
        | nil => simp [appendLast]
        | cons q t => simp [appendLast]

theorem Forall₂_appendLast (width : Nat) (b : Str) (ls : List Str) (levels : List Nat)
    (h : List.Forall₂ (Ind width) levels ls) :
    List.Forall₂ (Ind width) levels (appendLast b ls) := by
  induction h with
  | nil => exact List.Forall₂.nil
  | @cons k l ks ls1 h1 h2 ih =>
    cases ls1 with
    | nil =>
      cases h2
      exact List.Forall₂.cons (Ind_append _ _ _ _ h1) List.Forall₂.nil
    | cons l1 rest =>
      exact List.Forall₂.cons h1 ih

theorem Forall₂_append {α β : Type} (R : α → β → Prop) (l1 l2 : List α) (m1 m2 : List β)
    (h1 : List.Forall₂ R l1 m1) (h2 : List.Forall₂ R l2 m2) :
    List.Forall₂ R (l1 ++ l2) (m1 ++ m2) := by
  induction h1 with
  | nil => exact h2
  | cons h _ ih => exact List.Forall₂.cons h ih

theorem Text_scalar (width : Nat) (c : Char) (cs : Str) (hc : c ≠ ' ')
    (hn : '\n' ∉ c :: cs) : Text width [] (c :: cs) :=
  ⟨c, cs, [], Split_of_not_mem _ _ hn, hc, List.Forall₂.nil⟩

theorem Text_pre (width : Nat) (rl : List Nat) (c : Char) (cs e : Str) (hc : c ≠ ' ')
    (hn : '\n' ∉ c :: cs) (h : Text width rl e) : Text width rl (c :: cs ++ e) := by
  obtain ⟨c1, cs1, tl, hs, _, hf⟩ := h
  refine ⟨c, cs ++ c1 :: cs1, tl, ?_, hc, hf⟩
  have := Split_pre (c :: cs) e '\n' hn
  rw [hs] at this
  simpa using this

theorem Text_post (width : Nat) (rl : List Nat) (e b : Str) (hn : '\n' ∉ b)
    (h : Text width rl e) : Text width rl (e ++ b) := by
  obtain ⟨c1, cs1, tl, hs, hc, hf⟩ := h
  rw [Text, Split_post _ _ _ hn, hs]
  cases tl with
  | nil =>
    cases hf
    exact ⟨c1, cs1 ++ b, [], by simp [appendLast], hc, List.Forall₂.nil⟩
  | cons l tl =>
    exact ⟨c1, cs1, appendLast b (l :: tl), by simp [appendLast], hc,
      Forall₂_appendLast _ _ _ _ hf⟩

theorem not_mem_replicate_space (n : Nat) : '\n' ∉ List.replicate n ' ' := by
  intro h
  have := List.eq_of_mem_replicate h
  exact absurd this (by decide)

theorem Member_indent (width depth : Nat) (lv : List Nat) (m : Str)
    (h : Member width depth lv m) :
    List.Forall₂ (Ind width) lv (Split (List.replicate (width * depth) ' ' ++ m) '\n') := by
  obtain ⟨rl, rfl, c, cs, tl, hs, hc, hf⟩ := h
  rw [Split_pre _ _ _ (not_mem_replicate_space _), hs]
  exact List.Forall₂.cons ⟨c, cs, hc, rfl⟩ hf

theorem Member_post (width depth : Nat) (lv : List Nat) (m b : Str) (hn : '\n' ∉ b)
    (h : Member width depth lv m) : Member width depth lv (m ++ b) := by
  obtain ⟨rl, e, ht⟩ := h
  exact ⟨rl, e, Text_post _ _ _ _ hn ht⟩

theorem Member_pre (width depth : Nat) (lv : List Nat) (c : Char) (cs m : Str) (hc : c ≠ ' ')
    (hn : '\n' ∉ c :: cs) (h : Member width depth lv m) :
    Member width depth lv (c :: cs ++ m) := by
  obtain ⟨rl, e, ht⟩ := h
  exact ⟨rl, e, Text_pre _ _ _ _ _ hc hn ht⟩

theorem flatten_replicate_spaces (width depth : Nat) :
    (List.replicate depth (List.replicate width ' ')).flatten
      = List.replicate (width * depth) ' ' := by
  induction depth with
  | zero => simp
  | succ n ih =>
    rw [List.replicate_succ, List.flatten_cons, ih, Nat.mul_succ, Nat.add_comm,
      List.replicate_add]

theorem newline_spaces (width depth : Nat) :
    json.newline [] (List.replicate width ' ') depth
      = '\n' :: List.replicate (width * depth) ' ' := by
  simp only [json.newline, flatten_replicate_spaces, List.nil_append]
  rfl

theorem membersBody_lines (width depth : Nat) (rb : Char) (hrb : rb ≠ ' ') (hrn : rb ≠ '\n')
    (ms : List Str) (lvs : List (List Nat)) (hne : ms ≠ [])
    (h : List.Forall₂ (Member width (depth + 1)) lvs ms) :
    List.Forall₂ (Ind width) (lvs.flatten ++ [depth])
      (Split (List.replicate (width * (depth + 1)) ' '
        ++ json.membersBody [] (List.replicate width ' ') depth ms
        ++ json.newline [] (List.replicate width ' ') depth ++ [rb]) '\n') := by
  have hlast : List.Forall₂ (Ind width) [depth]
      (Split (List.replicate (width * depth) ' ' ++ [rb]) '\n') := by
    rw [Split_of_not_mem]
    · exact List.Forall₂.cons ⟨rb, [], hrb, rfl⟩ List.Forall₂.nil
    · intro hm
      rcases List.mem_append.1 hm with h1 | h1
      · exact not_mem_replicate_space _ h1
      · simp at h1
        exact hrn h1.symm
  induction h with
  | nil => exact absurd rfl hne
  | cons h1 h2 ih =>
    rename_i lv m lvs1 ms1
    cases ms1 with
    | nil =>
      cases h2
      have e : List.replicate (width * (depth + 1)) ' '
          ++ json.membersBody [] (List.replicate width ' ') depth [m]
          ++ json.newline [] (List.replicate width ' ') depth ++ [rb]
          = (List.replicate (width * (depth + 1)) ' ' ++ m)
            ++ '\n' :: (List.replicate (width * depth) ' ' ++ [rb]) := by
        simp [json.membersBody, newline_spaces]
      rw [e, Split_append]
      simpa using Forall₂_append _ _ _ _ _ (Member_indent _ _ _ _ h1) hlast
    | cons m1 ms2 =>
      have e : List.replicate (width * (depth + 1)) ' '
          ++ json.membersBody [] (List.replicate width ' ') depth (m :: m1 :: ms2)
          ++ json.newline [] (List.replicate width ' ') depth ++ [rb]
          = (List.replicate (width * (depth + 1)) ' ' ++ (m ++ [',']))
            ++ '\n' :: (List.replicate (width * (depth + 1)) ' '
              ++ json.membersBody [] (List.replicate width ' ') depth (m1 :: ms2)
              ++ json.newline [] (List.replicate width ' ') depth ++ [rb]) := by
        simp [json.membersBody, newline_spaces]
      rw [e, Split_append]
      have hm := Member_indent _ _ _ _ (Member_post _ _ _ _ [','] (by decide) h1)
      have := Forall₂_append _ _ _ _ _ hm (ih (by simp))
      simpa using this

theorem bracket_text (width depth : Nat) (lb rb : Char) (hlb : lb ≠ ' ') (hln : lb ≠ '\n')
    (hrb : rb ≠ ' ') (hrn : rb ≠ '\n') (ms : List Str) (lvs : List (List Nat))
    (h : List.Forall₂ (Member width (depth + 1)) lvs ms) :
    Text width (closeLevels depth lvs)
      (json.bracket lb rb [] (List.replicate width ' ') depth ms) := by
  cases h with
  | nil =>
    exact Text_scalar _ _ _ hlb (by
      intro hm
      simp at hm
      rcases hm with h1 | h1
      · exact hln h1.symm
      · exact hrn h1.symm)
  | cons h1 h2 =>
    rename_i lv m lvs1 ms1
    have hb := membersBody_lines width depth rb hrb hrn (m :: ms1) (lv :: lvs1) (by simp)
      (List.Forall₂.cons h1 h2)
    have e : json.bracket lb rb [] (List.replicate width ' ') depth (m :: ms1)
        = [lb] ++ '\n' :: (List.replicate (width * (depth + 1)) ' '
          ++ json.membersBody [] (List.replicate width ' ') depth (m :: ms1)
          ++ json.newline [] (List.replicate width ' ') depth ++ [rb]) := by
      simp [json.bracket, newline_spaces]
    rw [e]
    refine ⟨lb, [], _, ?_, hlb, hb⟩
    rw [Split_append, Split_of_not_mem _ _ (by simpa using hln.symm)]
    rfl


theorem hexDigit_ne_newline (n : Nat) : json.hexDigit n ≠ '\n' := by
  unfold json.hexDigit
  split <;> decide

theorem escapeChar_no_newline (c : Char) : '\n' ∉ json.escapeChar c := by
  have h1 := hexDigit_ne_newline (c.toNat / 16)
  have h2 := hexDigit_ne_newline (c.toNat % 16)
  unfold json.escapeChar
  split_ifs with a1 a2 a3 a4 a5 a6 a7 a8
  all_goals try decide
  · simp only [List.mem_cons, List.mem_singleton, List.not_mem_nil, or_false, not_or]
    exact ⟨by decide, by decide, by decide, by decide, fun e => h1 e.symm, fun e => h2 e.symm⟩
  · simp only [List.mem_singleton]
    exact fun e => a3 e.symm

theorem quote_no_newline (s : Str) : '\n' ∉ json.quote s := by
  unfold json.quote
  intro h
  rcases List.mem_cons.1 h with h1 | h1
  · exact absurd h1 (by decide)
  · rcases List.mem_append.1 h1 with h2 | h2
    · obtain ⟨c, _, hc⟩ := List.mem_flatMap.1 h2
      exact escapeChar_no_newline c hc
    · exact absurd (List.mem_singleton.1 h2) (by decide)

theorem numberLiteral_shape (n : Str) (h : numberLiteral n = true) :
    ∃ c cs, n = c :: cs ∧ c ≠ ' ' ∧ '\n' ∉ c :: cs := by
  unfold numberLiteral at h
  simp only [Bool.and_eq_true, Bool.not_eq_true', List.all_eq_true] at h
  obtain ⟨hne, hall⟩ := h
  cases n with
  | nil => simp at hne
  | cons c cs =>
    refine ⟨c, cs, rfl, ?_, ?_⟩
    · intro e
      have := hall c (by simp)
      rw [e] at this
      exact absurd this (by decide)
    · intro hm
      exact absurd (hall _ hm) (by decide)

theorem insertByKey_sameKeys {α β : Type} (R : α → β → Prop) (a : Str × α) (b : Str × β)
    (hab : SameKeys R a b) (l1 : List (Str × α)) (l2 : List (Str × β))
    (h : List.Forall₂ (SameKeys R) l1 l2) :
    List.Forall₂ (SameKeys R) (json.insertByKey a l1) (json.insertByKey b l2) := by
  induction h with
  | nil => exact List.Forall₂.cons hab List.Forall₂.nil
  | @cons x y xs ys hxy hrest ih =>
    simp only [json.insertByKey]
    rw [← hab.1, ← hxy.1]
    split
    · exact List.Forall₂.cons hab (List.Forall₂.cons hxy hrest)
    · exact List.Forall₂.cons hxy ih

theorem sortByKey_sameKeys {α β : Type} (R : α → β → Prop) (l1 : List (Str × α))
    (l2 : List (Str × β)) (h : List.Forall₂ (SameKeys R) l1 l2) :
    List.Forall₂ (SameKeys R) (json.sortByKey l1) (json.sortByKey l2) := by
  induction h with
  | nil => exact List.Forall₂.nil
  | @cons x y xs ys hxy _ ih =>
    simp only [json.sortByKey]
    exact insertByKey_sameKeys R x y hxy _ _ ih

theorem object_members (width depth : Nat) (l1 : List (Str × List Nat))
    (l2 : List (Str × Str)) (h : List.Forall₂ (SameKeys (Member width depth)) l1 l2) :
    List.Forall₂ (Member width depth) (l1.map Prod.snd)
      (l2.map (fun e => json.quote e.1 ++ ':' :: ' ' :: e.2)) := by
  induction h with
  | nil => exact List.Forall₂.nil
  | @cons x y xs ys hxy _ ih =>
    refine List.Forall₂.cons ?_ ih
    have hq := quote_no_newline y.1
    have e : json.quote y.1 ++ ':' :: ' ' :: y.2
        = '"' :: ((y.1.flatMap json.escapeChar ++ ['"']) ++ [':', ' ']) ++ y.2 := by
      simp [json.quote]
    show Member width depth x.2 (json.quote y.1 ++ ':' :: ' ' :: y.2)
    rw [e]
    refine Member_pre _ _ _ _ _ _ (by decide) ?_ hxy.2
    intro hm
    apply hq
    unfold json.quote
    rcases List.mem_cons.1 hm with h1 | h1
    · exact absurd h1 (by decide)
    · rcases List.mem_append.1 h1 with h2 | h2
      · exact List.mem_cons_of_mem _ h2
      · exact absurd h2 (by decide)

mutual

theorem encodeValue_text (width depth : Nat) : (v : Json) → numbersOk v = true →
    Text width (restLevels depth v) (json.encodeValue [] (List.replicate width ' ') depth v)
  | Json.null, _ => Text_scalar _ _ _ (by decide) (by decide)
  | Json.bool true, _ => Text_scalar _ _ _ (by decide) (by decide)
  | Json.bool false, _ => Text_scalar _ _ _ (by decide) (by decide)
  | Json.number n, h => by
    simp only [numbersOk] at h
    obtain ⟨c, cs, e, hc, hn⟩ := numberLiteral_shape n h
    simp only [json.encodeValue, restLevels]
    rw [e]
    exact Text_scalar _ _ _ hc hn
  | Json.str s, _ => by
    simp only [json.encodeValue, restLevels]
    have hq := quote_no_newline s
    unfold json.quote at hq ⊢
    exact Text_scalar _ _ _ (by decide) hq
  | Json.arr items, h => by
    simp only [numbersOk] at h
    simp only [json.encodeValue, restLevels]
    exact bracket_text _ _ _ _ (by decide) (by decide) (by decide) (by decide) _ _
      (encodeItems_members width (depth + 1) items h)
  | Json.obj fields, h => by
    simp only [numbersOk] at h
    simp only [json.encodeValue, restLevels]
    exact bracket_text _ _ _ _ (by decide) (by decide) (by decide) (by decide) _ _
      (object_members _ _ _ _
        (sortByKey_sameKeys _ _ _ (encodeFields_members width (depth + 1) fields h)))

theorem encodeItems_members (width depth : Nat) : (items : List Json) →
    itemsNumbersOk items = true →
    List.Forall₂ (Member width depth) (itemsLevels depth items)
      (json.encodeItems [] (List.replicate width ' ') depth items)
  | [], _ => by
    simp only [itemsLevels, json.encodeItems]
    exact List.Forall₂.nil
  | x :: xs, h => by
    simp only [itemsNumbersOk, Bool.and_eq_true] at h
    simp only [itemsLevels, json.encodeItems]
    exact List.Forall₂.cons ⟨_, rfl, encodeValue_text width depth x h.1⟩
      (encodeItems_members width depth xs h.2)

theorem encodeFields_members (width depth : Nat) : (fields : List (Str × Json)) →
    fieldsNumbersOk fields = true →
    List.Forall₂ (SameKeys (Member width depth)) (fieldsLevels depth fields)
      (json.encodeFields [] (List.replicate width ' ') depth fields)
  | [], _ => by
    simp only [fieldsLevels, json.encodeFields]
    exact List.Forall₂.nil
  | (k, v) :: rest, h => by
    simp only [fieldsNumbersOk, Bool.and_eq_true] at h
    simp only [fieldsLevels, json.encodeFields]
    exact List.Forall₂.cons ⟨rfl, _, rfl, encodeValue_text width depth v h.1⟩
      (encodeFields_members width depth rest h.2)

end

theorem MarshalIndent_indented (width : Nat) (v : Json) (h : numbersOk v = true) :
    Indented width (lineLevels v) (json.MarshalIndent v [] (List.replicate width ' ')) := by
  obtain ⟨c, cs, tl, hs, hc, hf⟩ := encodeValue_text width 0 v h
  unfold Indented json.MarshalIndent lineLevels
  rw [hs]
  refine List.Forall₂.cons (IndentedAt_of_Ind _ _ _ ⟨c, cs, hc, by simp⟩) ?_
  exact List.Forall₂.imp (fun k l hk => IndentedAt_of_Ind _ _ _ hk) hf

/-! ## `getActualType` and `generatePropertiesTable` -/

theorem char_of_toNat (c d : Char) (h : c.toNat = d.toNat) : c = d := by
  apply Char.ext
  apply UInt32.ext
  exact h

theorem foldEq_small (c t : Char) (h1 : 97 ≤ t.toNat) (h2 : t.toNat ≤ 122)
    (hk : t.toNat ≠ 107) (hs : t.toNat ≠ 115) :
    strings.foldEq c t = true ↔ c = t ∨ c.toNat + 32 = t.toNat := by
  unfold strings.foldEq
  constructor
  · intro h
    by_cases e : c = t
    · exact Or.inl e
    · right
      simp only [e, decide_False, Bool.false_or] at h
      split at h
      · simp only [Bool.and_eq_true, decide_eq_true_eq] at h
        omega
      · simp only [Bool.or_eq_true, Bool.and_eq_true, decide_eq_true_eq] at h
        omega
  · intro h
    rcases h with e | e
    · simp [e]
    · have hlt : max c.toNat t.toNat < 128 := by omega
      simp only [hlt, if_true, Bool.or_eq_true, Bool.and_eq_true, decide_eq_true_eq]
      right
      omega

theorem foldEq_letter (c small capital : Char) (h1 : 97 ≤ small.toNat)
    (h2 : small.toNat ≤ 122) (hk : small.toNat ≠ 107) (hs : small.toNat ≠ 115)
    (hc : capital.toNat + 32 = small.toNat) :
    strings.foldEq c small = (decide (c = small) || decide (c = capital)) := by
  rw [Bool.eq_iff_iff, foldEq_small c small h1 h2 hk hs]
  simp only [Bool.or_eq_true, decide_eq_true_eq]
  constructor
  · rintro (h | h)
    · exact Or.inl h
    · exact Or.inr (char_of_toNat _ _ (by omega))
  · rintro (h | h)
    · exact Or.inl h
    · subst h
      exact Or.inr hc

theorem EqualFold_null (s : Str) :
    strings.EqualFold s "null".toList = markdown.isNullWord s := by
  have hn := fun c => foldEq_letter c 'n' 'N' (by decide) (by decide) (by decide) (by decide)
    (by decide)
  have hu := fun c => foldEq_letter c 'u' 'U' (by decide) (by decide) (by decide) (by decide)
    (by decide)
  have hl := fun c => foldEq_letter c 'l' 'L' (by decide) (by decide) (by decide) (by decide)
    (by decide)
  rcases s with _ | ⟨a, _ | ⟨b, _ | ⟨c, _ | ⟨d, _ | ⟨e, rest⟩⟩⟩⟩⟩ <;>
    simp [strings.EqualFold, markdown.isNullWord, hn, hu, hl, Bool.and_assoc]

theorem firstActualType_eq (items : List Json) :
    markdown.firstActualType items = markdown.firstNonNull items := by
  unfold markdown.firstNonNull
  induction items with
  | nil => rfl
  | cons x xs ih =>
    cases x with
    | str s =>
      simp only [markdown.firstActualType, markdown.stringElements, List.find?_cons,
        EqualFold_null]
      cases markdown.isNullWord s with
      | true => simpa using ih
      | false => simp
    | null => simpa [markdown.firstActualType, markdown.stringElements] using ih
    | bool b => simpa [markdown.firstActualType, markdown.stringElements] using ih
    | number n => simpa [markdown.firstActualType, markdown.stringElements] using ih
    | arr a => simpa [markdown.firstActualType, markdown.stringElements] using ih
    | obj o => simpa [markdown.firstActualType, markdown.stringElements] using ih

theorem requiredLoop_iff (property : Str) (items : List Json) :
    markdown.requiredLoop property items = true ↔ Json.str property ∈ items := by
  induction items with
  | nil => simp [markdown.requiredLoop]
  | cons x xs ih =>
    cases x with
    | str s =>
      simp only [markdown.requiredLoop, List.mem_cons, Json.str.injEq]
      by_cases e : s = property
      · simp [e]
      · have e1 : ¬ property = s := fun h => e h.symm
        simp [e, e1, ih]
    | null => simpa [markdown.requiredLoop] using ih
    | bool b => simpa [markdown.requiredLoop] using ih
    | number n => simpa [markdown.requiredLoop] using ih
    | arr a => simpa [markdown.requiredLoop] using ih
    | obj o => simpa [markdown.requiredLoop] using ih

theorem isRequiredProperty_iff (property : Str) (schema : Json) :
    markdown.isRequiredProperty property schema = true ↔ markdown.Required property schema := by
  unfold markdown.isRequiredProperty markdown.Required
  constructor
  · intro h
    split at h
    · rename_i items e
      exact ⟨items, e, (requiredLoop_iff _ _).1 h⟩
    · exact absurd h (by decide)
  · rintro ⟨items, e, hm⟩
    rw [e]
    exact (requiredLoop_iff _ _).2 hm

theorem getActualType_returns (schema : Json) (subSchemas : List (Str × Str))
    (h : markdown.refPanics schema = false) :
    ∃ typ, markdown.getActualType schema subSchemas = some typ := by
  unfold markdown.refPanics at h
  unfold markdown.getActualType
  cases h1 : schema.get markdown.typeKey with
  | some typ =>
    cases typ <;> exact ⟨_, rfl⟩
  | none =>
    cases h2 : schema.get refKey with
    | none => exact ⟨_, rfl⟩
    | some ref =>
      rw [h1, h2] at h
      cases ref with
      | str r =>
        dsimp only
        cases subSchemas.lookup r <;> exact ⟨_, rfl⟩
      | null => simp at h
      | bool b => simp at h
      | number n => simp at h
      | arr a => simp at h
      | obj o => simp at h

theorem propertyRows_spec (schema : Json) (subSchemas : List (Str × Str))
    (props : List (Str × Json)) (res : List Str)
    (hobj : ∀ e ∈ props, ∃ fields, e.2 = Json.obj fields)
    (href : ∀ e ∈ props, markdown.refPanics e.2 = false) :
    ∃ rows, markdown.propertyRows schema subSchemas props res = some (res ++ rows) ∧
      List.Forall₂ (markdown.IsRow schema subSchemas) props rows := by
  induction props generalizing res with
  | nil => exact ⟨[], by simp [markdown.propertyRows], List.Forall₂.nil⟩
  | cons e rest ih =>
    obtain ⟨property, innerSchema⟩ := e
    obtain ⟨fields, hf⟩ := hobj (property, innerSchema) (by simp)
    dsimp only at hf
    subst hf
    obtain ⟨typ, ht⟩ := getActualType_returns (Json.obj fields) subSchemas
      (href (property, Json.obj fields) (by simp))
    obtain ⟨rows, hr, hrows⟩ := ih
      (res ++ ['|' :: property ++ '|' :: (if typ = [] then "-".toList else typ)
        ++ '|' :: markdown.formatBool (markdown.isRequiredProperty property schema) ++ ['|']])
      (fun e he => hobj e (List.mem_cons_of_mem _ he))
      (fun e he => href e (List.mem_cons_of_mem _ he))
    refine ⟨_ :: rows, ?_, List.Forall₂.cons ⟨typ, _, ht, isRequiredProperty_iff _ _, rfl⟩ hrows⟩
    rw [markdown.propertyRows]
    simp only [ht]
    rw [hr]
    simp [markdown.formatBool]

section MergeMaps

open validate

/-! ## `mergeMaps`: the heap -/

theorem length_assignAt (h : Heap) (addr : Nat) (k : Str) (v : Value) :
    (assignAt h addr k v).length = h.length := by
  simp [assignAt]

theorem objectAt_assignAt_same (h : Heap) (addr : Nat) (k : Str) (v : Value)
    (ha : addr < h.length) :
    objectAt (assignAt h addr k v) addr = assign k v (objectAt h addr) := by
  simp [objectAt, assignAt, List.getElem?_set, ha]

theorem objectAt_assignAt_ne (h : Heap) (addr i : Nat) (k : Str) (v : Value)
    (hne : i ≠ addr) :
    objectAt (assignAt h addr k v) i = objectAt h i := by
  simp [objectAt, assignAt, List.getElem?_set, hne.symm]

theorem objectAt_append_lt (h t : Heap) (i : Nat) (hi : i < h.length) :
    objectAt (h ++ t) i = objectAt h i := by
  simp [objectAt, List.getElem?_append_left hi]

theorem objectAt_append_length (h : Heap) (m : Object) : objectAt (h ++ [m]) h.length = m := by
  simp [objectAt]

/-! ## `mergeMaps`: assignment to a key -/

theorem lookup_assign_same (k : Str) (v : Value) (m : Object) :
    (assign k v m).lookup k = some v := by
  induction m with
  | nil => simp [assign, List.lookup]
  | cons e rest ih =>
    obtain ⟨k1, v1⟩ := e
    by_cases e1 : k1 = k
    · simp [assign, e1, List.lookup]
    · have e3 : ¬ k = k1 := fun h => e1 h.symm
      have e2 : (k == k1) = false := by simp [e3]
      simp [assign, e1, List.lookup, e2, ih]

theorem lookup_assign_ne (k k1 : Str) (v : Value) (m : Object) (hne : k1 ≠ k) :
    (assign k v m).lookup k1 = m.lookup k1 := by
  induction m with
  | nil =>
    have e2 : (k1 == k) = false := by simp [hne]
    simp [assign, List.lookup, e2]
  | cons e rest ih =>
    obtain ⟨k2, v2⟩ := e
    by_cases e1 : k2 = k
    · subst e1
      have e2 : (k1 == k2) = false := by simp [hne]
      simp [assign, List.lookup, e2]
    · simp only [assign, e1, if_false, List.lookup]
      cases k1 == k2 with
      | true => rfl
      | false => exact ih

theorem mem_keys_assign (k k1 : Str) (v : Value) (m : Object) :
    k1 ∈ keys (assign k v m) ↔ k1 = k ∨ k1 ∈ keys m := by
  induction m with
  | nil => simp [assign, keys]
  | cons e rest ih =>
    obtain ⟨k2, v2⟩ := e
    by_cases e1 : k2 = k
    · subst e1
      simp [assign, keys]
    · simp only [keys] at ih
      simp only [assign, e1, if_false, keys, List.map_cons, List.mem_cons, ih]
      constructor
      · rintro (h | h | h)
        · exact Or.inr (Or.inl h)
        · exact Or.inl h
        · exact Or.inr (Or.inr h)
      · rintro (h | h | h)
        · exact Or.inr (Or.inl h)
        · exact Or.inl h
        · exact Or.inr (Or.inr h)

theorem assign_of_not_mem (k : Str) (v : Value) (m : Object) (h : k ∉ keys m) :
    assign k v m = m ++ [(k, v)] := by
  induction m with
  | nil => rfl
  | cons e rest ih =>
    obtain ⟨k2, v2⟩ := e
    simp only [keys, List.map_cons, List.mem_cons, not_or] at h
    have e1 : ¬ k2 = k := fun e => h.1 e.symm
    simp only [assign, e1, if_false, List.cons_append]
    rw [ih h.2]

theorem mem_of_lookup_some (k : Str) (v : Value) (m : Object) (h : m.lookup k = some v) :
    (k, v) ∈ m := by
  induction m with
  | nil => simp [List.lookup] at h
  | cons e rest ih =>
    obtain ⟨k2, v2⟩ := e
    simp only [List.lookup] at h
    by_cases e1 : k = k2
    · subst e1
      simp only [beq_self_eq_true, Option.some.injEq] at h
      subst h
      exact List.mem_cons_self _ _
    · have e2 : (k == k2) = false := by simp [e1]
      simp only [e2] at h
      exact List.mem_cons_of_mem _ (ih h)

theorem mem_children (k : Str) (y : Nat) (m : Object) (h : (k, Value.map y) ∈ m) :
    y ∈ children m := by
  induction m with
  | nil => simp at h
  | cons e rest ih =>
    obtain ⟨k2, v2⟩ := e
    rcases List.mem_cons.1 h with h1 | h1
    · cases h1
      simp [children]
    · cases v2 <;> simp [children, ih h1]

/-! ## `mergeMaps`: the two loops -/

theorem copyEntries_spec (out : Nat) (es : Object) (h : Heap) (hout : out < h.length) :
    (copyEntries out es h).length = h.length ∧
    (∀ i, i ≠ out → objectAt (copyEntries out es h) i = objectAt h i) ∧
    objectAt (copyEntries out es h) out
      = es.foldl (fun m e => assign e.1 e.2 m) (objectAt h out) := by
  induction es generalizing h with
  | nil => exact ⟨rfl, fun _ _ => rfl, rfl⟩
  | cons e rest ih =>
    obtain ⟨k, v⟩ := e
    obtain ⟨h1, h2, h3⟩ := ih (assignAt h out k v) (by rw [length_assignAt]; exact hout)
    simp only [copyEntries, List.foldl_cons]
    refine ⟨by rw [h1, length_assignAt], ?_, ?_⟩
    · intro i hi
      rw [h2 i hi, objectAt_assignAt_ne _ _ _ _ _ hi]
    · rw [h3, objectAt_assignAt_same _ _ _ _ hout]

theorem foldl_assign (es acc : Object) (hn : (keys es).Nodup)
    (hd : ∀ k ∈ keys es, k ∉ keys acc) :
    es.foldl (fun m e => assign e.1 e.2 m) acc = acc ++ es := by
  induction es generalizing acc with
  | nil => simp
  | cons e rest ih =>
    obtain ⟨k, v⟩ := e
    simp only [keys, List.map_cons, List.nodup_cons] at hn
    have hk : k ∉ keys acc := hd k (by simp [keys])
    simp only [List.foldl_cons]
    rw [assign_of_not_mem _ _ _ hk, ih _ hn.2]
    · simp
    · intro k1 hk1 hm
      simp only [keys, List.map_append, List.map_cons, List.map_nil, List.mem_append,
        List.mem_singleton] at hm
      rcases hm with hm | hm
      · exact hd k1 (by simp only [keys, List.map_cons]; exact List.mem_cons_of_mem _ hk1) hm
      · exact hn.1 (hm ▸ hk1)

theorem mergeEntries_step (rank : Nat → Nat) (hB : Heap) (n d : Nat)
    (recur : Nat → Nat → Heap → Option (Nat × Heap)) (hrec : Merges rank hB n d recur)
    (out : Nat) (hn : n ≤ out) (k : Str) (v : Value) (rest : Object) (h : Heap)
    (hout : out < h.length) (hbase : ∀ i < n, objectAt h i = objectAt hB i)
    (hy : ∀ y, v = Value.map y → y < n ∧ rank y < d)
    (hx : ∀ x, (objectAt h out).lookup k = some (Value.map x) → x < n) :
    ∃ hm v1, mergeEntries recur out ((k, v) :: rest) h = mergeEntries recur out rest hm ∧
      h.length ≤ hm.length ∧
      (∀ i < h.length, i ≠ out → objectAt hm i = objectAt h i) ∧
      objectAt hm out = assign k v1 (objectAt h out) ∧
      (∀ x y, v = Value.map y → (objectAt h out).lookup k = some (Value.map x) →
        ∃ r1 hi, v1 = Value.map r1 ∧ hi ≤ hm.length ∧
          ∀ h2, (∀ i, h.length ≤ i → i < hi → objectAt h2 i = objectAt hm i) →
            DeepMerge d hB x y h2 r1) ∧
      ((∀ x y, ¬ ((objectAt h out).lookup k = some (Value.map x) ∧ v = Value.map y)) →
        v1 = v) := by
  have plain : (∀ x y, ¬ ((objectAt h out).lookup k = some (Value.map x) ∧ v = Value.map y)) →
      mergeEntries recur out ((k, v) :: rest) h
        = mergeEntries recur out rest (assignAt h out k v) →
      ∃ hm v1, mergeEntries recur out ((k, v) :: rest) h = mergeEntries recur out rest hm ∧
        h.length ≤ hm.length ∧
        (∀ i < h.length, i ≠ out → objectAt hm i = objectAt h i) ∧
        objectAt hm out = assign k v1 (objectAt h out) ∧
        (∀ x y, v = Value.map y → (objectAt h out).lookup k = some (Value.map x) →
          ∃ r1 hi, v1 = Value.map r1 ∧ hi ≤ hm.length ∧
            ∀ h2, (∀ i, h.length ≤ i → i < hi → objectAt h2 i = objectAt hm i) →
              DeepMerge d hB x y h2 r1) ∧
        ((∀ x y, ¬ ((objectAt h out).lookup k = some (Value.map x) ∧ v = Value.map y)) →
          v1 = v) := by
    intro hno e
    refine ⟨assignAt h out k v, v, e, by rw [length_assignAt], ?_, ?_, ?_, fun _ => rfl⟩
    · intro i _ hi
      exact objectAt_assignAt_ne _ _ _ _ _ hi
    · exact objectAt_assignAt_same _ _ _ _ hout
    · intro x y e1 e2
      exact absurd ⟨e2, e1⟩ (hno x y)
  cases v with
  | map vm =>
    obtain ⟨o, hl⟩ : ∃ o, (objectAt h out).lookup k = o := ⟨_, rfl⟩
    cases o with
    | none =>
      exact plain (by intro x y hc; rw [hl] at hc; cases hc.1) (by simp only [mergeEntries, hl])
    | some bvv =>
      cases bvv with
      | map bv =>
        obtain ⟨hyn, hyr⟩ := hy vm rfl
        obtain ⟨h1, e1, hlen, hfr, hst⟩ := hrec h bv vm (Nat.le_trans hn (Nat.le_of_lt hout))
          hbase (hx bv hl) hyn hyr
        refine ⟨assignAt h1 out k (Value.map h.length), Value.map h.length, ?_, ?_, ?_, ?_, ?_,
          ?_⟩
        · simp only [mergeEntries, hl, e1]
        · rw [length_assignAt]
          exact Nat.le_of_lt hlen
        · intro i hi hio
          rw [objectAt_assignAt_ne _ _ _ _ _ hio, hfr i hi]
        · rw [objectAt_assignAt_same _ _ _ _ (Nat.lt_trans hout hlen), hfr out hout]
        · intro x y ey ex
          cases ey
          rw [hl] at ex
          cases ex
          refine ⟨h.length, h1.length, rfl, by rw [length_assignAt], ?_⟩
          intro h2 hagree
          apply hst
          intro i hi1 hi2
          rw [hagree i hi1 hi2, objectAt_assignAt_ne]
          omega
        · intro hno
          exact absurd ⟨hl, rfl⟩ (hno bv vm)
      | null =>
        exact plain (by intro x y hc; rw [hl] at hc; cases hc.1)
          (by simp only [mergeEntries, hl])
      | bool b =>
        exact plain (by intro x y hc; rw [hl] at hc; cases hc.1)
          (by simp only [mergeEntries, hl])
      | number m =>
        exact plain (by intro x y hc; rw [hl] at hc; cases hc.1)
          (by simp only [mergeEntries, hl])
      | str m =>
        exact plain (by intro x y hc; rw [hl] at hc; cases hc.1)
          (by simp only [mergeEntries, hl])
      | slice m =>
        exact plain (by intro x y hc; rw [hl] at hc; cases hc.1)
          (by simp only [mergeEntries, hl])
  | null => exact plain (by intro x y hc; cases hc.2) (by simp only [mergeEntries])
  | bool b => exact plain (by intro x y hc; cases hc.2) (by simp only [mergeEntries])
  | number m => exact plain (by intro x y hc; cases hc.2) (by simp only [mergeEntries])
  | str m => exact plain (by intro x y hc; cases hc.2) (by simp only [mergeEntries])
  | slice m => exact plain (by intro x y hc; cases hc.2) (by simp only [mergeEntries])

theorem mergeEntries_spec (rank : Nat → Nat) (hB : Heap) (n d : Nat)
    (recur : Nat → Nat → Heap → Option (Nat × Heap)) (hrec : Merges rank hB n d recur)
    (out : Nat) (hn : n ≤ out) (es : Object) (h : Heap)
    (hout : out < h.length) (hbase : ∀ i < n, objectAt h i = objectAt hB i)
    (hnd : (keys es).Nodup)
    (hy : ∀ k y, (k, Value.map y) ∈ es → y < n ∧ rank y < d)
    (hx : ∀ k x, k ∈ keys es → (objectAt h out).lookup k = some (Value.map x) → x < n) :
    ∃ h1, mergeEntries recur out es h = some h1 ∧ h.length ≤ h1.length ∧
      (∀ i < h.length, i ≠ out → objectAt h1 i = objectAt h i) ∧
      (∀ k, k ∈ keys (objectAt h1 out) ↔ k ∈ keys (objectAt h out) ∨ k ∈ keys es) ∧
      (∀ k, k ∉ keys es → (objectAt h1 out).lookup k = (objectAt h out).lookup k) ∧
      (∀ k x y, (k, Value.map y) ∈ es → (objectAt h out).lookup k = some (Value.map x) →
        ∃ r1 lo hi, h.length ≤ lo ∧ hi ≤ h1.length ∧
          (objectAt h1 out).lookup k = some (Value.map r1) ∧
          ∀ h2, (∀ i, lo ≤ i → i < hi → objectAt h2 i = objectAt h1 i) →
            DeepMerge d hB x y h2 r1) ∧
      (∀ k v, (k, v) ∈ es →
        (∀ x y, ¬ ((objectAt h out).lookup k = some (Value.map x) ∧ v = Value.map y)) →
        (objectAt h1 out).lookup k = some v) := by
  induction es generalizing h with
  | nil =>
    refine ⟨h, rfl, Nat.le_refl _, fun _ _ _ => rfl, ?_, fun _ _ => rfl, ?_, ?_⟩
    · intro k
      simp [keys]
    · intro k x y hm
      simp at hm
    · intro k v hm
      simp at hm
  | cons e rest ih =>
    obtain ⟨k, v⟩ := e
    have hnd1 : k ∉ keys rest ∧ (keys rest).Nodup := by
      simpa [keys] using hnd
    obtain ⟨hm, v1, estep, hlen, hfr, hobj, hboth, hother⟩ :=
      mergeEntries_step rank hB n d recur hrec out hn k v rest h hout hbase
        (fun y ey => hy k y (by rw [ey]; exact List.mem_cons_self _ _))
        (fun x ex => hx k x (by simp [keys]) ex)
    have hne : ∀ k1, k1 ∈ keys rest → k1 ≠ k := fun k1 hk1 e => hnd1.1 (e ▸ hk1)
    have hlk : ∀ k1, k1 ≠ k → (objectAt hm out).lookup k1 = (objectAt h out).lookup k1 := by
      intro k1 hk1
      rw [hobj, lookup_assign_ne _ _ _ _ hk1]
    obtain ⟨h1, e1, hlen1, hfr1, hkeys1, hlk1, hboth1, hother1⟩ :=
      ih hm (Nat.lt_of_lt_of_le hout hlen)
        (fun i hi => by
          rw [hfr i (by omega) (by omega)]
          exact hbase i hi)
        hnd1.2
        (fun k1 y hk1 => hy k1 y (List.mem_cons_of_mem _ hk1))
        (fun k1 x hk1 ex => hx k1 x
          (by simp only [keys, List.map_cons]; exact List.mem_cons_of_mem _ hk1)
          (by rw [← hlk k1 (hne k1 hk1)]; exact ex))
    have hk1 : (objectAt h1 out).lookup k = some v1 := by
      rw [hlk1 k hnd1.1, hobj, lookup_assign_same]
    refine ⟨h1, by rw [estep, e1], Nat.le_trans hlen hlen1, ?_, ?_, ?_, ?_, ?_⟩
    · intro i hi hio
      rw [hfr1 i (by omega) hio, hfr i hi hio]
    · intro k1
      rw [hkeys1 k1, hobj, mem_keys_assign]
      simp only [keys, List.map_cons, List.mem_cons]
      constructor
      · rintro ((h3 | h3) | h3)
        · exact Or.inr (Or.inl h3)
        · exact Or.inl h3
        · exact Or.inr (Or.inr h3)
      · rintro (h3 | h3 | h3)
        · exact Or.inl (Or.inr h3)
        · exact Or.inl (Or.inl h3)
        · exact Or.inr h3
    · intro k1 hk
      simp only [keys, List.map_cons, List.mem_cons, not_or] at hk
      rw [hlk1 k1 hk.2, hlk k1 hk.1]
    · intro k1 x y hmem ex
      rcases List.mem_cons.1 hmem with h3 | h3
      · cases h3
        obtain ⟨r1, hi, ev, hhi, hst⟩ := hboth x y rfl ex
        refine ⟨r1, h.length, hi, Nat.le_refl _, Nat.le_trans hhi hlen1, by rw [hk1, ev], ?_⟩
        intro h2 hagree
        apply hst
        intro i hi1 hi2
        rw [hagree i hi1 hi2, hfr1 i (by omega) (by omega)]
      · have hk : k1 ∈ keys rest := List.mem_map.2 ⟨_, h3, rfl⟩
        obtain ⟨r1, lo, hi, hlo, hhi, ev, hst⟩ :=
          hboth1 k1 x y h3 (by rw [hlk k1 (hne k1 hk)]; exact ex)
        exact ⟨r1, lo, hi, Nat.le_trans hlen hlo, hhi, ev, hst⟩
    · intro k1 v2 hmem hno
      rcases List.mem_cons.1 hmem with h3 | h3
      · cases h3
        rw [hk1, hother hno]
      · have hk : k1 ∈ keys rest := List.mem_map.2 ⟨_, h3, rfl⟩
        exact hother1 k1 v2 h3 (by rw [hlk k1 (hne k1 hk)]; exact hno)

/-! ## `mergeMaps` is the right-biased deep merge -/

theorem mergeMaps_merges (rank : Nat → Nat) (hB : Heap) (n : Nat)
    (hlay : Layered rank hB n) (fuel : Nat) : Merges rank hB n fuel (mergeMaps fuel) := by
  induction fuel with
  | zero =>
    intro h x y _ _ _ _ hr
    exact absurd hr (Nat.not_lt_zero _)
  | succ fuel ih =>
    intro h a b hn hbase ha hb hr
    have hout : h.length < (h ++ [([] : Object)]).length := by simp
    obtain ⟨c1, c2, c3⟩ := copyEntries_spec h.length (objectAt h a) (h ++ [[]]) hout
    have ea : objectAt h a = objectAt hB a := hbase a ha
    have eb : objectAt h b = objectAt hB b := hbase b hb
    have key : mergeMaps (fuel + 1) a b h
        = match mergeEntries (mergeMaps fuel) h.length
            (objectAt (copyEntries h.length (objectAt (h ++ [[]]) a) (h ++ [[]])) b)
            (copyEntries h.length (objectAt (h ++ [[]]) a) (h ++ [[]])) with
          | some h1 => some (h.length, h1)
          | none => none := rfl
    rw [objectAt_append_lt h [[]] a (by omega)] at key
    rw [objectAt_append_length, foldl_assign _ _ (ea ▸ (hlay a ha).1) (by simp [keys]),
      List.nil_append] at c3
    generalize copyEntries h.length (objectAt h a) (h ++ [[]]) = hc at key c1 c2 c3
    rw [ea] at c3
    rw [c2 b (by omega), objectAt_append_lt _ _ _ (by omega), eb] at key
    have hcbase : ∀ i < n, objectAt hc i = objectAt hB i := by
      intro i hi
      rw [c2 i (by omega), objectAt_append_lt _ _ _ (by omega)]
      exact hbase i hi
    have hc1 : hc.length = h.length + 1 := by
      rw [c1]
      simp
    obtain ⟨h1, e1, hlen1, hfr1, hkeys1, hlk1, hboth1, hother1⟩ :=
      mergeEntries_spec rank hB n fuel (mergeMaps fuel) ih h.length hn (objectAt hB b)
        hc (by omega) hcbase (hlay b hb).1
        (fun k y hm => by
          obtain ⟨hy1, hy2⟩ := (hlay b hb).2 y (mem_children k y _ hm)
          exact ⟨hy1, by omega⟩)
        (fun k x _ ex => by
          rw [c3] at ex
          exact ((hlay a ha).2 x (mem_children k x _ (mem_of_lookup_some _ _ _ ex))).1)
    rw [c3] at hkeys1 hlk1 hboth1 hother1
    refine ⟨h1, ?_, by omega, ?_, ?_⟩
    · rw [key, e1]
    · intro i hi
      rw [hfr1 i (by omega) (by omega), c2 i (by omega), objectAt_append_lt _ _ _ hi]
    · intro h2 hagree
      have eo : objectAt h2 h.length = objectAt h1 h.length :=
        hagree h.length (Nat.le_refl _) (by omega)
      refine ⟨?_, ?_, ?_, ?_⟩
      · intro k
        rw [eo]
        exact hkeys1 k
      · intro k hk
        rw [eo]
        exact hlk1 k hk
      · intro k x y ex ey
        obtain ⟨r1, lo, hi, hlo, hhi, ev, hst⟩ :=
          hboth1 k x y (mem_of_lookup_some _ _ _ ey) ex
        refine ⟨r1, by rw [eo]; exact ev, hst h2 ?_⟩
        intro i hi1 hi2
        exact hagree i (by omega) (by omega)
      · intro k v ev hno
        rw [eo]
        exact hother1 k v (mem_of_lookup_some _ _ _ ev) hno

/-! ## The maps of decoded documents -/

theorem Layered_of_Descending (h : Heap) (hd : Descending h) :
    Layered (fun i => i) h h.length := by
  intro i hi
  refine ⟨(hd i hi).1, fun y hy => ?_⟩
  have := (hd i hi).2 y hy
  exact ⟨by omega, this⟩

theorem Descending_append (h : Heap) (m : Object) (hd : Descending h)
    (hn : (keys m).Nodup) (hc : ∀ y ∈ children m, y < h.length) :
    Descending (h ++ [m]) := by
  intro i hi
  simp only [List.length_append, List.length_singleton] at hi
  by_cases e : i < h.length
  · rw [objectAt_append_lt _ _ _ e]
    exact hd i e
  · have e1 : i = h.length := by omega
    subst e1
    rw [objectAt_append_length]
    exact ⟨hn, hc⟩

mutual

theorem storeValue_spec : (v : Json) → (h : Heap) → uniqueKeys v = true → Descending h →
    Descending (storeValue v h).2 ∧ h.length ≤ (storeValue v h).2.length ∧
      ∀ y, (storeValue v h).1 = Value.map y → y < (storeValue v h).2.length
  | Json.null, h, _, hd => ⟨hd, Nat.le_refl _, fun y e => by simp [storeValue] at e⟩
  | Json.bool b, h, _, hd => ⟨hd, Nat.le_refl _, fun y e => by simp [storeValue] at e⟩
  | Json.number n, h, _, hd => ⟨hd, Nat.le_refl _, fun y e => by simp [storeValue] at e⟩
  | Json.str s, h, _, hd => ⟨hd, Nat.le_refl _, fun y e => by simp [storeValue] at e⟩
  | Json.arr items, h, hu, hd => by
    simp only [uniqueKeys] at hu
    obtain ⟨h1, h2⟩ := storeItems_spec items h hu hd
    exact ⟨by simpa [storeValue] using h1, by simpa [storeValue] using h2,
      fun y e => by simp [storeValue] at e⟩
  | Json.obj fields, h, hu, hd => by
    simp only [uniqueKeys, Bool.and_eq_true, decide_eq_true_eq] at hu
    obtain ⟨h1, h2, h3, h4⟩ := storeFields_spec fields h hu.2 hd
    simp only [storeValue]
    refine ⟨Descending_append _ _ h1 (by rw [h3]; exact hu.1) h4, ?_, ?_⟩
    · simp only [List.length_append, List.length_singleton]
      omega
    · intro y e
      cases e
      simp

theorem storeItems_spec : (items : List Json) → (h : Heap) → itemsUniqueKeys items = true →
    Descending h →
    Descending (storeItems items h).2 ∧ h.length ≤ (storeItems items h).2.length
  | [], h, _, hd => ⟨hd, Nat.le_refl _⟩
  | x :: xs, h, hu, hd => by
    simp only [itemsUniqueKeys, Bool.and_eq_true] at hu
    obtain ⟨h1, h2, _⟩ := storeValue_spec x h hu.1 hd
    obtain ⟨h3, h4⟩ := storeItems_spec xs (storeValue x h).2 hu.2 h1
    simp only [storeItems]
    exact ⟨h3, Nat.le_trans h2 h4⟩

theorem storeFields_spec : (fields : List (Str × Json)) → (h : Heap) →
    fieldsUniqueKeys fields = true → Descending h →
    Descending (storeFields fields h).2 ∧ h.length ≤ (storeFields fields h).2.length ∧
      keys (storeFields fields h).1 = fields.map Prod.fst ∧
      ∀ y ∈ children (storeFields fields h).1, y < (storeFields fields h).2.length
  | [], h, _, hd => ⟨hd, Nat.le_refl _, rfl, fun y hy => by simp [storeFields, children] at hy⟩
  | (k, v) :: rest, h, hu, hd => by
    simp only [fieldsUniqueKeys, Bool.and_eq_true] at hu
    obtain ⟨h1, h2, h3⟩ := storeValue_spec v h hu.1 hd
    obtain ⟨h4, h5, h6, h7⟩ := storeFields_spec rest (storeValue v h).2 hu.2 h1
    simp only [storeFields]
    refine ⟨h4, Nat.le_trans h2 h5, ?_, ?_⟩
    · simp only [keys, List.map_cons] at h6 ⊢
      rw [h6]
    · intro y hy
      cases hv : (storeValue v h).1 with
      | map y1 =>
        rw [hv] at hy
        simp only [children, List.mem_cons] at hy
        rcases hy with e | e
        · have := h3 y1 hv
          omega
        · exact h7 y e
      | null => rw [hv] at hy; exact h7 y (by simpa [children] using hy)
      | bool b => rw [hv] at hy; exact h7 y (by simpa [children] using hy)
      | number n => rw [hv] at hy; exact h7 y (by simpa [children] using hy)
      | str s => rw [hv] at hy; exact h7 y (by simpa [children] using hy)
      | slice l => rw [hv] at hy; exact h7 y (by simpa [children] using hy)

end

theorem mergeMaps_of_documents (a b : List (Str × Json)) (h0 h : Heap) (ia ib : Nat)
    (ha : uniqueKeys (Json.obj a) = true) (hb : uniqueKeys (Json.obj b) = true)
    (ea : storeValue (Json.obj a) [] = (Value.map ia, h0))
    (eb : storeValue (Json.obj b) h0 = (Value.map ib, h)) :
    ∃ out h1, mergeMaps (ib + 1) ia ib h = some (out, h1) ∧
      (∀ i < h.length, objectAt h1 i = objectAt h i) ∧
      DeepMerge (ib + 1) h ia ib h1 out := by
  have hd0 : Descending [] := fun i hi => absurd hi (Nat.not_lt_zero _)
  obtain ⟨a1, _, a3⟩ := storeValue_spec (Json.obj a) [] ha hd0
  rw [ea] at a1 a3
  obtain ⟨b1, b2, b3⟩ := storeValue_spec (Json.obj b) h0 hb a1
  rw [eb] at b1 b2 b3
  have hia : ia < h.length := Nat.lt_of_lt_of_le (a3 ia rfl) b2
  obtain ⟨h1, e1, _, hfr, hst⟩ :=
    mergeMaps_merges (fun i => i) h h.length (Layered_of_Descending h b1) (ib + 1) h ia ib
      (Nat.le_refl _) (fun _ _ => rfl) hia (b3 ib rfl) (Nat.lt_succ_self _)
  exact ⟨h.length, h1, e1, hfr, hst h1 (fun _ _ _ => rfl)⟩

theorem mergeMaps_mergeHeap :
    mergeMaps 3 0 1 mergeHeap
      = some (5, mergeHeap ++
          [[("x".toList, Value.number "1".toList), ("o".toList, Value.map 6),
            ("p".toList, Value.null), ("y".toList, Value.str "s".toList)],
           [("u".toList, Value.bool false), ("w".toList, Value.map 7),
            ("v".toList, Value.null)],
           []]) ∧
    mergeMaps 2 0 1 mergeHeap = none :=
  ⟨rfl, rfl⟩

end MergeMaps

/-! ## The claims -/

/-- C1: the containment guard compares strings, not path elements. With `execDir=/src` and
`destDir=/out`, a root that refers to `/outx/b.json` makes `Relocate` return normally after
writing `/outx/b.json`: the parent `/outx` has the string prefix `/out`, yet the
written path is not a descendant of `/out`. -/
theorem C1_write_outside_destDir :
    (Relocate scenarioRelocator 2 "/src/a.json".toList siblingWorld).isOk = true ∧
    (Relocate scenarioRelocator 2 "/src/a.json".toList siblingWorld).writes
      = ["/outx/b.json".toList, "/out/a.json".toList] ∧
    resolveLocation scenarioRelocator "/src".toList "/outx/b.json".toList
        { File := "/outx/b.json".toList }
      = some ("/outx/b.json".toList, "schemas/b.json".toList, "/outx/b.json".toList) ∧
    strings.HasPrefix (filepath.Dir "/outx/b.json".toList) scenarioRelocator.destDir = true ∧
    ¬ under scenarioRelocator.destDir "/outx/b.json".toList := by
  decide

/-- C2: the root file is not entered in the catalog. When `/src/a.json` and `/src/b.json`
refer to each other, `Relocate` on `/src/a.json` reads `a.json` twice and writes
`/out/a.json` twice. -/
theorem C2_root_processed_twice :
    (Relocate scenarioRelocator 3 "/src/a.json".toList cycleWorld).isOk = true ∧
    (Relocate scenarioRelocator 3 "/src/a.json".toList cycleWorld).reads
      = ["/src/a.json".toList, "/src/b.json".toList, "/src/a.json".toList] ∧
    (Relocate scenarioRelocator 3 "/src/a.json".toList cycleWorld).writes
      = ["/out/a.json".toList, "/out/b.json".toList, "/out/a.json".toList] := by
  decide

/-- C3: cycle safety. (1) For every configuration, root file and state (file system,
catalog), `Relocate` ends: some amount of fuel gives a result, and more fuel gives the same
result. (2) `resolveRef` either does not recurse at all, or makes its one recursive call on
a path that was not in the catalog, in a state whose catalog has that path added. (3) A
file reference whose target is already in the catalog is rewritten without a recursive call
and without a change of state. (4) A file that refers to itself is relocated without error
and its reference is rewritten. -/
theorem C3_cycle_safety :
    (∀ (r : relocator) (file : Str) (w : World),
      ∃ n, Relocate r n file w ≠ Outcome.outOfFuel ∧
        ∀ m, n ≤ m → Relocate r m file w = Relocate r n file w) ∧
    (∀ (r : relocator) (ref : Str) (vc : VisitorContext) (w : World),
      (∃ o, ∀ recur, resolveRef r recur ref vc w = o) ∨
      (∃ p v, p ∉ w.catalog ∧ ∀ recur, resolveRef r recur ref vc w =
        match recur p { w with catalog := p :: w.catalog } with
        | Outcome.ok _ w1 => Outcome.ok (some v) w1
        | Outcome.abort w1 => Outcome.abort w1
        | Outcome.outOfFuel => Outcome.outOfFuel)) ∧
    (∀ (r : relocator) (recur : Str → World → Outcome Unit) (ref : Str) (vc : VisitorContext)
        (w : World) (location resource : Str) (rest : List Str) (p newRef newPath : Str),
      strings.HasPrefix ref fileScheme = true →
      strings.Split ref '#' = location :: resource :: rest →
      resolveLocation r w.cwd location vc = some (p, newRef, newPath) →
      p ∈ w.catalog →
      resolveRef r recur ref vc w = Outcome.ok (some (newRef ++ '#' :: resource)) w) ∧
    ((Relocate scenarioRelocator 2 "/src/a.json".toList selfWorld).isOk = true ∧
      (((Relocate scenarioRelocator 2 "/src/a.json".toList selfWorld).world?.bind
          (fun w => w.fileJson "/out/a.json".toList)).bind
          (fun j => j.strAt [propertiesKey, "self".toList, refKey]))
        = some "schemas/a.json#/X".toList) := by
  refine ⟨?_, ?_, ?_, by decide⟩
  · intro r file w
    obtain ⟨n, hn⟩ := Relocate_terminates r file w
    refine ⟨n, hn n (Nat.le_refl n), fun m hm => ?_⟩
    exact relocateJsonFile_fuel r n m hm file _ (hn n (Nat.le_refl n))
  · intro r ref vc w
    unfold resolveRef
    split
    · split
      · rename_i location resource rest hs
        split
        · exact Or.inl ⟨_, fun _ => rfl⟩
        · rename_i absPath newRef newPath hl
          split
          · exact Or.inl ⟨_, fun _ => rfl⟩
          · rename_i hcat
            exact Or.inr ⟨absPath, newRef ++ '#' :: resource, hcat, fun _ => rfl⟩
      · exact Or.inl ⟨_, fun _ => rfl⟩
    · exact Or.inl ⟨_, fun _ => rfl⟩
  · intro r recur ref vc w location resource rest p newRef newPath hf hs hl hp
    unfold resolveRef
    rw [if_pos hf, hs]
    simp only [hl, hp, if_true]

/-- C4: `resolveRef` keeps only the text between the first and the second `#`. The reference
`file:///src/b.json#/a#b`, whose fragment is `/a#b`, is rewritten to
`schemas/b.json#/a`, whose fragment is `/a`. -/
theorem C4_fragment_truncated :
    (resolveRef scenarioRelocator (relocateJsonFile scenarioRelocator 1)
        "file:///src/b.json#/a#b".toList { File := "/src/a.json".toList }
        { flatWorld with cwd := "/src".toList }).value?
      = some (some "schemas/b.json#/a".toList) ∧
    fragment "file:///src/b.json#/a#b".toList = "/a#b".toList ∧
    fragment "schemas/b.json#/a".toList = "/a".toList := by
  decide

/-- C5: the worked scenario. With `execDir=/src`, `destDir=/out`, `newLocation="schemas"`,
`Relocate` on `/src/a.json` returns normally, reads `a.json` then `sub/b.json`, writes
`/out/sub/b.json` then `/out/a.json`, and the written `a.json` has
`properties.b.$ref = "schemas/sub/b.json#/X"`. -/
theorem C5_worked_scenario :
    (Relocate scenarioRelocator 2 "/src/a.json".toList workedWorld).isOk = true ∧
    (Relocate scenarioRelocator 2 "/src/a.json".toList workedWorld).reads
      = ["/src/a.json".toList, "/src/sub/b.json".toList] ∧
    (Relocate scenarioRelocator 2 "/src/a.json".toList workedWorld).writes
      = ["/out/sub/b.json".toList, "/out/a.json".toList] ∧
    (((Relocate scenarioRelocator 2 "/src/a.json".toList workedWorld).world?.bind
        (fun w => w.fileJson "/out/a.json".toList)).bind
        (fun j => j.strAt ["properties".toList, "b".toList, refKey]))
      = some "schemas/sub/b.json#/X".toList := by
  decide

/-- C6 (as stated, fails): the new reference is not the plain concatenation
`newLocation/rel#ptr`. With the URL `https://example.com/schemas` as `newLocation` the `//`
is collapsed; with `newLocation = "schemas"` and the hop `../b.json` the `..` consumes
`schemas`. -/
theorem C6_join_cleans_reference :
    (resolveRef urlRelocator (relocateJsonFile urlRelocator 1) "file:///src/b.json#/X".toList
        { File := "/src/a.json".toList } claimedWorld).value?
      = some (some "https:/example.com/schemas/b.json#/X".toList) ∧
    filepath.Rel (Dir "/src/a.json".toList) "/src/b.json".toList = some "b.json".toList ∧
    "https:/example.com/schemas/b.json#/X".toList
      ≠ urlRelocator.newLocation ++ "/".toList ++ "b.json".toList ++ "#".toList ++ "/X".toList ∧
    (resolveRef scenarioRelocator (relocateJsonFile scenarioRelocator 1)
        "file:///src/b.json#/X".toList { File := "/src/sub/a.json".toList } claimedWorld).value?
      = some (some "b.json#/X".toList) ∧
    filepath.Rel (Dir "/src/sub/a.json".toList) "/src/b.json".toList = some "../b.json".toList ∧
    "b.json#/X".toList
      ≠ scenarioRelocator.newLocation ++ "/".toList ++ "../b.json".toList ++ "#".toList
          ++ "/X".toList := by
  decide

/-- C6 (amended): for a reference `file://<path>#<ptr>` with no `#` in `path` and `ptr`, a
value returned by `resolveRef` is `filepath.Join(newLocation, rel) ++ "#" ++ ptr`, where
`rel` is the path of the target relative to the directory of the referencing file; it is
`newLocation ++ "/" ++ rel ++ "#" ++ ptr` when `newLocation` is not empty and that
concatenation is already a clean path. -/
theorem C6_rewritten_reference (r : relocator) (recur : Str → World → Outcome Unit)
    (vc : VisitorContext) (w w1 : World) (path ptr v : Str) (hpath : '#' ∉ path)
    (hptr : '#' ∉ ptr)
    (h : resolveRef r recur (fileScheme ++ path ++ '#' :: ptr) vc w = Outcome.ok (some v) w1) :
    ∃ rel, filepath.Rel (Dir vc.File) (Abs w.cwd path) = some rel ∧
      v = Join r.newLocation rel ++ '#' :: ptr ∧
      (r.newLocation ≠ [] →
        Clean (r.newLocation ++ Separator :: rel) = r.newLocation ++ Separator :: rel →
        v = r.newLocation ++ Separator :: rel ++ '#' :: ptr) := by
  have hf : HasPrefix (fileScheme ++ path ++ '#' :: ptr) fileScheme = true := by
    rw [List.append_assoc]
    exact HasPrefix_append _ _
  obtain ⟨location, resource, rest, absPath, newRef, newPath, hs, hl, hv⟩ :=
    resolveRef_file_inv _ _ _ _ _ _ _ hf h
  rw [Split_reference path ptr hpath hptr] at hs
  simp only [List.cons.injEq] at hs
  obtain ⟨hloc, hres, _⟩ := hs
  subst hloc hres
  obtain ⟨ha, _, rel, _, h2, _, hr⟩ := resolveLocation_inv _ _ _ _ _ _ _ hl
  rw [TrimPrefix_append] at ha
  refine ⟨rel, by rw [← ha]; exact h2, by rw [hv, hr], ?_⟩
  intro hne hc
  rw [hv, hr]
  simp only [filepath.Join, ne_eq, hne, not_false_eq_true, if_true, hc]

/-- Witness of C6 (amended): `file:///src/b.json#/X` seen from `/src/a.json`. -/
theorem C6_rewritten_reference_witness :
    '#' ∉ "/src/b.json".toList ∧ '#' ∉ "/X".toList ∧
    resolveRef scenarioRelocator (relocateJsonFile scenarioRelocator 1)
        (fileScheme ++ "/src/b.json".toList ++ '#' :: "/X".toList)
        { File := "/src/a.json".toList } claimedWorld
      = Outcome.ok (some "schemas/b.json#/X".toList) claimedWorld ∧
    ∃ rel, filepath.Rel (Dir "/src/a.json".toList) (Abs claimedWorld.cwd "/src/b.json".toList)
        = some rel ∧
      "schemas/b.json#/X".toList = Join scenarioRelocator.newLocation rel ++ '#' :: "/X".toList ∧
      (scenarioRelocator.newLocation ≠ [] →
        Clean (scenarioRelocator.newLocation ++ Separator :: rel)
          = scenarioRelocator.newLocation ++ Separator :: rel →
        "schemas/b.json#/X".toList
          = scenarioRelocator.newLocation ++ Separator :: rel ++ '#' :: "/X".toList) :=
  ⟨by decide, by decide, rfl,
    C6_rewritten_reference scenarioRelocator (relocateJsonFile scenarioRelocator 1)
      { File := "/src/a.json".toList } claimedWorld claimedWorld "/src/b.json".toList
      "/X".toList "schemas/b.json#/X".toList (by decide) (by decide) rfl⟩

/-- C7: relocated references stay correct. For absolute `execDir` and `destDir`, an absolute
referencing file `cur` strictly under `execDir` whose last element is a file name, and an
absolute target `tgt` under `execDir`: `resolveLocation` succeeds for `tgt` seen from `cur`
and for `cur` itself, its new reference is `newLocation` joined with the hop
`Rel(Dir(cur), tgt)`, and that hop applied from the directory of the destination of `cur`
is the destination of `tgt`. -/
theorem C7_hop_reaches_destination (r : relocator) (cwd cur tgt : Str)
    (he : IsAbs r.execDir = true) (hd : IsAbs r.destDir = true) (hcur : IsAbs cur = true)
    (htgt : IsAbs tgt = true) (hfile : RealElem (lastElem cur)) (hucur : under r.execDir cur)
    (hne : absElems cur ≠ absElems r.execDir) (hutgt : under r.execDir tgt) :
    ∃ absT hop destT absC refC destC,
      resolveLocation r cwd tgt { File := cur } = some (absT, Join r.newLocation hop, destT) ∧
      filepath.Rel (Dir cur) absT = some hop ∧
      resolveLocation r cwd cur { File := cur } = some (absC, refC, destC) ∧
      Join (Dir destC) hop = destT := by
  obtain ⟨hdabs, hdir, hsplit⟩ := Dir_abs cur hcur hfile
  have hDirAbs := IsAbs_Dir cur hcur hfile
  have hDirEl := absElems_Dir cur hcur hfile
  -- the elements of `cur` and `tgt` below `execDir`
  have hpre : absElems r.execDir <+: absElems (dirPart cur) :=
    prefix_of_prefix_concat _ _ _ (by rw [← hsplit]; exact hucur) (by rw [← hsplit]; exact hne)
  obtain ⟨cs, hcs⟩ := hpre
  obtain ⟨ts, hts⟩ := hutgt
  have hcsreal : ∀ x ∈ cs, RealElem x :=
    fun x hx => absElems_real (dirPart cur) x (by rw [← hcs]; simp [hx])
  -- absolute source paths
  have hT : IsAbs (Clean tgt) = true := IsAbs_Clean tgt htgt
  have hC : IsAbs (Clean cur) = true := IsAbs_Clean cur hcur
  have hTe : absElems (Clean tgt) = absElems r.execDir ++ ts := by
    rw [absElems_Clean tgt htgt, hts]
  have hCe : absElems (Clean cur) = absElems r.execDir ++ (cs ++ [lastElem cur]) := by
    rw [absElems_Clean cur hcur, hsplit, ← hcs, List.append_assoc]
  -- destinations
  obtain ⟨relT, hrT, _, hdT⟩ := destination_under r.execDir r.destDir (Clean tgt) cwd ts he hd hT hTe
  obtain ⟨relC, hrC, _, hdC⟩ :=
    destination_under r.execDir r.destDir (Clean cur) cwd (cs ++ [lastElem cur]) he hd hC hCe
  -- the directory of the destination of `cur`
  have hreal : ∀ x ∈ absElems r.destDir ++ cs, RealElem x := by
    intro x hx
    rcases List.mem_append.1 hx with h2 | h2
    · exact absElems_real _ x h2
    · exact hcsreal x h2
  have hdest : Separator :: joinElems (absElems r.destDir ++ (cs ++ [lastElem cur]))
      = Separator :: joinElems ((absElems r.destDir ++ cs) ++ [lastElem cur]) := by
    rw [List.append_assoc]
  have hreal2 : ∀ x ∈ (absElems r.destDir ++ cs) ++ [lastElem cur], RealElem x := by
    intro x hx
    rcases List.mem_append.1 hx with h2 | h2
    · exact hreal x h2
    · rw [List.mem_singleton.1 h2]
      exact hfile
  have hlast : lastElem (Separator :: joinElems ((absElems r.destDir ++ cs) ++ [lastElem cur]))
      = lastElem cur := lastElem_root_join _ _ hfile
  have hDC := Dir_abs (Separator :: joinElems ((absElems r.destDir ++ cs) ++ [lastElem cur]))
    (IsAbs_cons_sep _) (by rw [hlast]; exact hfile)
  have hDCel : absElems (Dir (Separator :: joinElems ((absElems r.destDir ++ cs) ++ [lastElem cur])))
      = absElems r.destDir ++ cs := by
    rw [absElems_Dir _ (IsAbs_cons_sep _) (by rw [hlast]; exact hfile)]
    have h3 := hDC.2.2
    rw [absElems_root_join _ hreal2, hlast] at h3
    exact (List.append_cancel_right h3).symm
  have hDCabs := IsAbs_Dir (Separator :: joinElems ((absElems r.destDir ++ cs) ++ [lastElem cur]))
    (IsAbs_cons_sep _) (by rw [hlast]; exact hfile)
  -- the hop
  obtain ⟨hop, hhop, hjoin⟩ := hop_reaches (Dir cur) (Clean tgt) _ (absElems r.execDir)
    (absElems r.destDir) cs ts hDirAbs hT hDCabs (by rw [hDirEl, hcs]) hTe hDCel
  -- `resolveLocation` for `cur` needs the hop from its own directory
  obtain ⟨hopC, hhopC, _⟩ := hop_reaches (Dir cur) (Clean cur) _ (absElems r.execDir)
    (absElems r.destDir) cs (cs ++ [lastElem cur]) hDirAbs hC hDCabs (by rw [hDirEl, hcs]) hCe hDCel
  refine ⟨Clean tgt, hop, Separator :: joinElems (absElems r.destDir ++ ts), Clean cur,
    Join r.newLocation hopC,
    Separator :: joinElems (absElems r.destDir ++ (cs ++ [lastElem cur])), ?_, hhop, ?_, ?_⟩
  · have e : Abs cwd (TrimPrefix tgt fileScheme) = Clean tgt := by
      rw [TrimPrefix_abs tgt htgt, Abs_abs cwd tgt htgt]
    rw [resolveLocation_of r cwd tgt { File := cur } relT hop (by rw [e]; exact hrT)
      (by rw [e]; exact hhop), e, hdT]
  · have e : Abs cwd (TrimPrefix cur fileScheme) = Clean cur := by
      rw [TrimPrefix_abs cur hcur, Abs_abs cwd cur hcur]
    rw [resolveLocation_of r cwd cur { File := cur } relC hopC (by rw [e]; exact hrC)
      (by rw [e]; exact hhopC), e, hdC]
  · rw [hdest, hjoin]

/-- Witness of C7: `cur = /src/sub/a.json` and `tgt = /src/lib/b.json` under `execDir=/src`. -/
theorem C7_hop_reaches_destination_witness :
    ∃ absT hop destT absC refC destC,
      resolveLocation scenarioRelocator "/src".toList "/src/lib/b.json".toList
          { File := "/src/sub/a.json".toList }
        = some (absT, Join scenarioRelocator.newLocation hop, destT) ∧
      filepath.Rel (Dir "/src/sub/a.json".toList) absT = some hop ∧
      resolveLocation scenarioRelocator "/src".toList "/src/sub/a.json".toList
          { File := "/src/sub/a.json".toList } = some (absC, refC, destC) ∧
      Join (Dir destC) hop = destT :=
  C7_hop_reaches_destination scenarioRelocator "/src".toList "/src/sub/a.json".toList
    "/src/lib/b.json".toList (by decide) (by decide) (by decide) (by decide) (by decide)
    (by decide) (by decide) (by decide)

/-- C8: the output mirrors the source tree. For absolute `execDir` and `destDir` and an
absolute working directory, whenever `resolveLocation` succeeds on a location whose absolute
path lies under `execDir`, that path is the location (without `file://`) made absolute
against the working directory, the destination is `destDir` joined with the path relative to
`execDir`, and the destination relative to `destDir` is that same relative path; the
absolute path and the destination do not depend on the referencing file. When `execDir` is
clean, `Relocate` runs `relocateJsonFile` with `execDir` as working directory, and a
relative location is joined to the working directory. -/
theorem C8_output_mirrors_source (r : relocator) (cwd location : Str) (vc : VisitorContext)
    (absPath newRef newPath : Str) (he : IsAbs r.execDir = true) (hd : IsAbs r.destDir = true)
    (hcwd : IsAbs cwd = true)
    (h : resolveLocation r cwd location vc = some (absPath, newRef, newPath))
    (hu : under r.execDir absPath) :
    absPath = Abs cwd (TrimPrefix location fileScheme) ∧
    (∃ rel, filepath.Rel r.execDir absPath = some rel ∧ newPath = Join r.destDir rel ∧
      filepath.Rel r.destDir newPath = some rel) ∧
    (∀ vc2 a2 n2 p2, resolveLocation r cwd location vc2 = some (a2, n2, p2) →
      a2 = absPath ∧ p2 = newPath) ∧
    (∀ fuel file w, Clean r.execDir = r.execDir →
      Relocate r fuel file w = relocateJsonFile r fuel file { w with cwd := r.execDir }) ∧
    (IsAbs (TrimPrefix location fileScheme) = false →
      absPath = Join cwd (TrimPrefix location fileScheme)) := by
  obtain ⟨ha, rel, hop, h1, _, hp, _⟩ := resolveLocation_inv _ _ _ _ _ _ _ h
  have hpabs : IsAbs absPath = true := by
    rw [ha]
    exact IsAbs_Abs _ _ hcwd
  obtain ⟨ys, hys⟩ := hu
  obtain ⟨rel1, hr1, hj, hab⟩ := destination_under r.execDir r.destDir absPath cwd ys he hd hpabs
    hys.symm
  rw [h1, Option.some.injEq] at hr1
  subst hr1
  have hnew : newPath = Join r.destDir rel := by rw [hp, hab, hj]
  refine ⟨ha, ⟨rel, h1, hnew, ?_⟩, ?_, ?_, ?_⟩
  · have hreal : ∀ x ∈ absElems r.destDir ++ ys, RealElem x := by
      intro x hx
      rcases List.mem_append.1 hx with h2 | h2
      · exact absElems_real _ x h2
      · exact absElems_real absPath x (by rw [← hys]; simp [h2])
    have hnabs : IsAbs newPath = true := by
      rw [hnew]
      exact IsAbs_Join _ _ hd
    have hne : absElems newPath = absElems r.destDir ++ ys := by
      rw [hnew, hj, absElems_root_join _ hreal]
    rw [Rel_abs_under r.destDir newPath ys hd hnabs hne, h1.symm,
      Rel_abs_under r.execDir absPath ys he hpabs hys.symm]
  · intro vc2 a2 n2 p2 h2
    obtain ⟨ha2, rel2, _, h3, _, hp2, _⟩ := resolveLocation_inv _ _ _ _ _ _ _ h2
    rw [ha2, ← ha] at h3 ⊢
    rw [h1, Option.some.injEq] at h3
    rw [hp2, hp, h3]
    exact ⟨rfl, rfl⟩
  · intro fuel file w hc
    unfold Relocate
    rw [Abs_abs _ _ he, hc]
  · intro hrel
    rw [ha]
    simp [Abs, hrel]

/-- Witness of C8: the relative location `file://sub/b.json` seen from `/src/a.json`. -/
theorem C8_output_mirrors_source_witness :
    resolveLocation scenarioRelocator "/src".toList "file://sub/b.json".toList
        { File := "/src/a.json".toList }
      = some ("/src/sub/b.json".toList, "schemas/sub/b.json".toList, "/out/sub/b.json".toList) ∧
    under scenarioRelocator.execDir "/src/sub/b.json".toList ∧
    "/src/sub/b.json".toList = Abs "/src".toList (TrimPrefix "file://sub/b.json".toList fileScheme) ∧
    (∃ rel, filepath.Rel scenarioRelocator.execDir "/src/sub/b.json".toList = some rel ∧
      "/out/sub/b.json".toList = Join scenarioRelocator.destDir rel ∧
      filepath.Rel scenarioRelocator.destDir "/out/sub/b.json".toList = some rel) ∧
    (∀ vc2 a2 n2 p2,
      resolveLocation scenarioRelocator "/src".toList "file://sub/b.json".toList vc2
          = some (a2, n2, p2) →
      a2 = "/src/sub/b.json".toList ∧ p2 = "/out/sub/b.json".toList) ∧
    (∀ fuel file w, Clean scenarioRelocator.execDir = scenarioRelocator.execDir →
      Relocate scenarioRelocator fuel file w
        = relocateJsonFile scenarioRelocator fuel file
            { w with cwd := scenarioRelocator.execDir }) ∧
    (IsAbs (TrimPrefix "file://sub/b.json".toList fileScheme) = false →
      "/src/sub/b.json".toList
        = Join "/src".toList (TrimPrefix "file://sub/b.json".toList fileScheme)) :=
  ⟨by decide, by decide,
    C8_output_mirrors_source scenarioRelocator "/src".toList "file://sub/b.json".toList
      { File := "/src/a.json".toList } "/src/sub/b.json".toList "schemas/sub/b.json".toList
      "/out/sub/b.json".toList (by decide) (by decide) (by decide) (by decide) (by decide)⟩

/-- C9 (as stated, fails): a document without `$def` keeps the file references of its
`definitions` block. On `definitionsSchema`, `visit` returns normally without relocating
any file, and both `definitions.X.properties.k.$ref` and `definitions.X.allOf[0].$ref` still
hold the `file://` references. -/
theorem C9_definitions_not_scanned :
    (definitionsSchema.get defKey).isNone = true ∧
    (visit scenarioRelocator (relocateJsonFile scenarioRelocator 1) definitionsSchema
        { File := "/src/a.json".toList } { flatWorld with cwd := "/src".toList }).isOk = true ∧
    (visit scenarioRelocator (relocateJsonFile scenarioRelocator 1) definitionsSchema
        { File := "/src/a.json".toList } { flatWorld with cwd := "/src".toList }).reads = [] ∧
    (((visit scenarioRelocator (relocateJsonFile scenarioRelocator 1) definitionsSchema
        { File := "/src/a.json".toList } { flatWorld with cwd := "/src".toList }).value?.bind id).bind
        (fun j => j.strAt [definitionsKey, "X".toList, propertiesKey, "k".toList, refKey]))
      = some "file:///src/b.json#/X".toList ∧
    ((((visit scenarioRelocator (relocateJsonFile scenarioRelocator 1) definitionsSchema
        { File := "/src/a.json".toList } { flatWorld with cwd := "/src".toList }).value?.bind id).bind
        (fun j => j.at? [definitionsKey, "X".toList, allOfKey])).bind
        (fun a => (a.item? 0).bind (fun i => i.strAt [refKey])))
      = some "file:///src/b.json#/Y".toList := by
  decide

/-- C9 (amended): `visit` scans the definitions under the key `$def` only. Whenever `visit`
returns a document, the value under `definitions` is the one of the input; if the input has an
object under `$def`, the output is the top-level result with `$def` replaced by its entries as
`visitDefinitionEntries` leaves them; otherwise the output is the top-level result. -/
theorem C9_only_def_scanned (r : relocator) (recur : Str → World → Outcome Unit)
    (vc : VisitorContext) (schema out : Json) (w w3 : World)
    (h : visit r recur schema vc w = Outcome.ok (some out) w3) :
    out.get definitionsKey = schema.get definitionsKey ∧
    (∀ defs, schema.get defKey = some (Json.obj defs) →
      ∃ s2 w2 defs1, visitDefinition r recur vc schema w = Outcome.ok s2 w2 ∧
        visitDefinitionEntries r recur vc defs w2 = Outcome.ok defs1 w3 ∧
        out = s2.set defKey (Json.obj defs1)) ∧
    ((∀ defs, schema.get defKey ≠ some (Json.obj defs)) →
      visitDefinition r recur vc schema w = Outcome.ok out w3) := by
  obtain ⟨s2, w2, h1, h2⟩ := visit_inv _ _ _ _ _ _ _ h
  have hD : s2.get defKey = schema.get defKey :=
    visitDefinition_get _ _ _ _ _ _ _ h1 _ defKey_ne_propertiesKey defKey_ne_allOfKey
  refine ⟨visit_get _ _ _ _ _ _ _ h _ (by decide) (by decide) (by decide), ?_, ?_⟩
  · intro defs hdefs
    rcases h2 with ⟨ds, ds1, hget, hv, hout⟩ | ⟨hno, _, _⟩
    · rw [hD, hdefs] at hget
      simp only [Option.some.injEq, Json.obj.injEq] at hget
      subst hget
      exact ⟨s2, w2, ds1, h1, hv, hout⟩
    · exact absurd (hD.trans hdefs) (hno defs)
  · intro hno
    rcases h2 with ⟨ds, ds1, hget, _, _⟩ | ⟨_, hout, hw⟩
    · exact absurd (hD.symm.trans hget) (hno ds)
    · rw [hout, hw]
      exact h1

/-- Witness of C9 (amended): `definitionsSchema` comes back from `visit` as it went in. -/
theorem C9_only_def_scanned_witness :
    visit scenarioRelocator (relocateJsonFile scenarioRelocator 1) definitionsSchema
        { File := "/src/a.json".toList } claimedWorld
      = Outcome.ok (some definitionsSchema) claimedWorld ∧
    definitionsSchema.get definitionsKey = definitionsSchema.get definitionsKey ∧
    (∀ defs, definitionsSchema.get defKey = some (Json.obj defs) →
      ∃ s2 w2 defs1,
        visitDefinition scenarioRelocator (relocateJsonFile scenarioRelocator 1)
          { File := "/src/a.json".toList } definitionsSchema claimedWorld = Outcome.ok s2 w2 ∧
        visitDefinitionEntries scenarioRelocator (relocateJsonFile scenarioRelocator 1)
          { File := "/src/a.json".toList } defs w2 = Outcome.ok defs1 claimedWorld ∧
        definitionsSchema = s2.set defKey (Json.obj defs1)) ∧
    ((∀ defs, definitionsSchema.get defKey ≠ some (Json.obj defs)) →
      visitDefinition scenarioRelocator (relocateJsonFile scenarioRelocator 1)
        { File := "/src/a.json".toList } definitionsSchema claimedWorld
        = Outcome.ok definitionsSchema claimedWorld) :=
  ⟨rfl, C9_only_def_scanned scenarioRelocator (relocateJsonFile scenarioRelocator 1)
    { File := "/src/a.json".toList } definitionsSchema definitionsSchema claimedWorld claimedWorld
    rfl⟩

/-- C10: the frame of `visit`. Whenever `visit` returns a document, the output and the input
agree once the references in scope (`properties.<k>.$ref` and `allOf[i].$ref` of the document
and of each entry of `$def`) are blanked; every top-level key other than `properties`, `allOf`
and `$def` keeps its value (so `oneOf`, `anyOf`, `not`, `patternProperties`, `items` do); and
inside each property every key other than `$ref` keeps its value (so references under nested
properties do). -/
theorem C10_rewrite_scope (r : relocator) (recur : Str → World → Outcome Unit)
    (vc : VisitorContext) (schema out : Json) (w w3 : World)
    (h : visit r recur schema vc w = Outcome.ok (some out) w3) :
    maskSchema out = maskSchema schema ∧
    (∀ k, k ≠ propertiesKey → k ≠ allOfKey → k ≠ defKey → out.get k = schema.get k) ∧
    (∀ k key, key ≠ refKey →
      out.at? [propertiesKey, k, key] = schema.at? [propertiesKey, k, key]) :=
  ⟨maskSchema_visit _ _ _ _ _ _ _ h, fun k hp ha hd => visit_get _ _ _ _ _ _ _ h k hp ha hd,
    fun k key hk => visit_at_properties _ _ _ _ _ _ _ h k key hk⟩

/-- Witness of C10: on `frameSchema` the reference `properties.b.$ref` is rewritten and the
references under `oneOf` and under the nested `properties` are not. -/
theorem C10_rewrite_scope_witness :
    visit scenarioRelocator (relocateJsonFile scenarioRelocator 1) frameSchema
        { File := "/src/a.json".toList } claimedWorld
      = Outcome.ok (some frameSchemaOut) claimedWorld ∧
    maskSchema frameSchemaOut = maskSchema frameSchema ∧
    (∀ k, k ≠ propertiesKey → k ≠ allOfKey → k ≠ defKey →
      frameSchemaOut.get k = frameSchema.get k) ∧
    (∀ k key, key ≠ refKey →
      frameSchemaOut.at? [propertiesKey, k, key] = frameSchema.at? [propertiesKey, k, key]) :=
  ⟨rfl, C10_rewrite_scope scenarioRelocator (relocateJsonFile scenarioRelocator 1)
    { File := "/src/a.json".toList } frameSchema frameSchemaOut claimedWorld claimedWorld rfl⟩

/-- C11 (as stated, fails): `numberRefSchema` has no file reference, its only `$ref` is the
number `5`; `visit` aborts on it instead of returning the document. -/
theorem C11_non_string_ref_aborts :
    docRefs numberRefSchema = [] ∧
    (visit scenarioRelocator (relocateJsonFile scenarioRelocator 1) numberRefSchema
        { File := "/src/a.json".toList } claimedWorld).isAbort = true := by
  decide

/-- C11 (amended): for every document in which no `$ref` in scope starts with `file://` and
every `$ref` in scope is a string, `visit` returns the input document itself, in the state
in which it started (same catalog, no file read or written), whatever the recursion. -/
theorem C11_no_file_reference (r : relocator) (recur : Str → World → Outcome Unit)
    (vc : VisitorContext) (schema : Json) (w : World)
    (hfile : ∀ ref ∈ docRefs schema, HasPrefix ref fileScheme = false)
    (hstr : schemaMalformed schema = false) :
    visit r recur schema vc w = Outcome.ok (some schema) w :=
  visit_plain r recur vc schema w hfile hstr

/-- An instance of C11 (amended): `plainSchema` in the state `claimedWorld`. -/
theorem C11_no_file_reference_witness :
    (∀ ref ∈ docRefs plainSchema, HasPrefix ref fileScheme = false) ∧
    schemaMalformed plainSchema = false ∧
    visit scenarioRelocator (relocateJsonFile scenarioRelocator 1) plainSchema
        { File := "/src/a.json".toList } claimedWorld
      = Outcome.ok (some plainSchema) claimedWorld :=
  ⟨by decide, by decide,
    C11_no_file_reference scenarioRelocator (relocateJsonFile scenarioRelocator 1)
      { File := "/src/a.json".toList } plainSchema claimedWorld (by decide) (by decide)⟩

/-- C12, counterexample: the document with the one member `"a": 1` is encoded on three
lines with the levels 0, 1, 0, and its second line starts with three spaces: the lines
are not indented by two spaces per nesting level. -/
theorem C12_indent_is_not_two_spaces :
    visitBytes oneMemberSchema = "\x7b\n   \"a\": 1\n\x7d".toList ∧
    lineLevels oneMemberSchema = [0, 1, 0] ∧
    ¬ Indented 2 (lineLevels oneMemberSchema) (visitBytes oneMemberSchema) := by
  decide

/-- C12 (amended): the bytes that `visit` produces for a document, and that
`relocateJsonFile` writes, are pretty-printed JSON in which each nesting level is
indented by exactly three spaces: every line starts with three spaces per nesting level
of the line, followed by text. The numbers of the document are number literals, as
`json.Unmarshal` leaves them. -/
theorem C12_three_space_indentation (schema : Json) (hnum : numbersOk schema = true) :
    Indented 3 (lineLevels schema) (visitBytes schema) :=
  MarshalIndent_indented 3 schema hnum

/-- C12 (amended), at the document with nested objects and arrays. -/
theorem C12_three_space_indentation_witness :
    numbersOk nestedSchema = true ∧
    Indented 3 (lineLevels nestedSchema) (visitBytes nestedSchema) :=
  ⟨by decide, C12_three_space_indentation nestedSchema (by decide)⟩

/-- C13: the partial-failure policy. If the resolution of the `$ref` of an item fails with
an error in the state `w`, the state is unchanged, the item is kept as it is, the loops of
`visitAllOf` and `visitProperties` handle the items before and after it exactly as they
handle them on their own, and `visit` never returns an error. -/
theorem C13_partial_failure (r : relocator) (recur : Str → World → Outcome Unit)
    (vc : VisitorContext) (ref : Str) (fields : List (Str × Json)) (w w1 : World)
    (hitem : fields.lookup refKey = some (Json.str ref))
    (herr : resolveRef r recur ref vc w = Outcome.ok none w1) :
    w1 = w ∧
    visitItem r recur vc (Json.obj fields) w = Outcome.ok (Json.obj fields) w ∧
    (∀ pre post pre1 w0, visitAllOfItems r recur vc pre w0 = Outcome.ok pre1 w →
      visitAllOfItems r recur vc (pre ++ Json.obj fields :: post) w0 =
        match visitAllOfItems r recur vc post w with
        | Outcome.ok post1 w2 => Outcome.ok (pre1 ++ Json.obj fields :: post1) w2
        | Outcome.abort w2 => Outcome.abort w2
        | Outcome.outOfFuel => Outcome.outOfFuel) ∧
    (∀ k pre post pre1 w0, visitPropertyEntries r recur vc pre w0 = Outcome.ok pre1 w →
      visitPropertyEntries r recur vc (pre ++ (k, Json.obj fields) :: post) w0 =
        match visitPropertyEntries r recur vc post w with
        | Outcome.ok post1 w2 => Outcome.ok (pre1 ++ (k, Json.obj fields) :: post1) w2
        | Outcome.abort w2 => Outcome.abort w2
        | Outcome.outOfFuel => Outcome.outOfFuel) ∧
    (∀ schema w0 w2, visit r recur schema vc w0 ≠ Outcome.ok none w2) := by
  have hw : w1 = w := resolveRef_error_state r recur ref vc w w1 herr
  subst hw
  have hitemv : visitItem r recur vc (Json.obj fields) w1 = Outcome.ok (Json.obj fields) w1 := by
    simp only [visitItem, hitem, herr]
  refine ⟨rfl, hitemv, ?_, ?_, fun schema w0 w2 => visit_returns_document r recur vc schema w0 w2⟩
  · intro pre post pre1 w0 hpre
    rw [visitAllOfItems_append, hpre]
    dsimp only
    rw [visitAllOfItems_cons, hitemv]
    dsimp only
    cases visitAllOfItems r recur vc post w1 <;> rfl
  · intro k pre post pre1 w0 hpre
    rw [visitPropertyEntries_append, hpre]
    dsimp only
    rw [visitPropertyEntries_cons, hitemv]
    dsimp only
    cases visitPropertyEntries r recur vc post w1 <;> rfl

/-- An instance of C13: seen from the relative file `a.json`, the reference
`file:///src/b.json#/X` fails to resolve; the item that holds it is kept. -/
theorem C13_partial_failure_witness :
    [(refKey, Json.str "file:///src/b.json#/X".toList)].lookup refKey
      = some (Json.str "file:///src/b.json#/X".toList) ∧
    resolveRef scenarioRelocator (relocateJsonFile scenarioRelocator 1)
        "file:///src/b.json#/X".toList { File := "a.json".toList } claimedWorld
      = Outcome.ok none claimedWorld ∧
    visitItem scenarioRelocator (relocateJsonFile scenarioRelocator 1)
        { File := "a.json".toList }
        (Json.obj [(refKey, Json.str "file:///src/b.json#/X".toList)]) claimedWorld
      = Outcome.ok (Json.obj [(refKey, Json.str "file:///src/b.json#/X".toList)])
          claimedWorld :=
  ⟨rfl, rfl,
    (C13_partial_failure scenarioRelocator (relocateJsonFile scenarioRelocator 1)
      { File := "a.json".toList } "file:///src/b.json#/X".toList
      [(refKey, Json.str "file:///src/b.json#/X".toList)] claimedWorld claimedWorld
      rfl rfl).2.1⟩

/-- C14: a file that does not parse is skipped in silence. `Load` returns no data and
`relocateJsonFile` ignores the error: with a root that does not parse, `Relocate` returns
normally and writes nothing; with a referenced file that does not parse, the run returns
normally, the referenced file is not written and the root is written with a reference to
it. -/
theorem C14_unparsable_file_skipped :
    (Relocate scenarioRelocator 2 "/src/a.json".toList garbageRootWorld).isOk = true ∧
    (Relocate scenarioRelocator 2 "/src/a.json".toList garbageRootWorld).reads
      = ["/src/a.json".toList] ∧
    (Relocate scenarioRelocator 2 "/src/a.json".toList garbageRootWorld).writes = [] ∧
    (Relocate scenarioRelocator 2 "/src/a.json".toList garbageRefWorld).isOk = true ∧
    (Relocate scenarioRelocator 2 "/src/a.json".toList garbageRefWorld).reads
      = ["/src/a.json".toList, "/src/b.json".toList] ∧
    (Relocate scenarioRelocator 2 "/src/a.json".toList garbageRefWorld).writes
      = ["/out/a.json".toList] ∧
    (((Relocate scenarioRelocator 2 "/src/a.json".toList garbageRefWorld).world?.bind
        (fun w => w.fileJson "/out/a.json".toList)).bind
        (fun j => j.strAt [propertiesKey, "b".toList, refKey]))
      = some "schemas/b.json#/X".toList := by
  decide

/-- C15: a file reference without `#` aborts. `strings.Split` returns one piece and
`refParts[1]` is out of range: `resolveRef` on `file:///src/b.json` aborts, and so does the
run on a root that holds this reference, before anything is written. -/
theorem C15_reference_without_fragment_aborts :
    '#' ∉ "file:///src/b.json".toList ∧
    (resolveRef scenarioRelocator (relocateJsonFile scenarioRelocator 1)
        "file:///src/b.json".toList { File := "/src/a.json".toList }
        { flatWorld with cwd := "/src".toList }).isAbort = true ∧
    (Relocate scenarioRelocator 2 "/src/a.json".toList noFragmentWorld).isAbort = true ∧
    (Relocate scenarioRelocator 2 "/src/a.json".toList noFragmentWorld).writes = [] := by
  decide

/-- C16: the guard compares the parent of the destination with `destDir` as it was given.
With `destDir = "/out/"` the destination of `/src/a.json` is `/out/a.json`, inside the
normalised `destDir`, yet its parent `/out` does not have the string prefix `/out/` and the
run aborts; with the relative `destDir = "out"` the destination `/src/out/a.json` is inside
the normalised `destDir` `/src/out` and the run aborts as well. -/
theorem C16_guard_on_raw_destDir :
    resolveLocation trailingSlashRelocator "/src".toList "/src/a.json".toList
        { File := "/src/a.json".toList }
      = some ("/src/a.json".toList, "schemas/a.json".toList, "/out/a.json".toList) ∧
    under (filepath.Abs "/src".toList trailingSlashRelocator.destDir) "/out/a.json".toList ∧
    strings.HasPrefix (filepath.Dir "/out/a.json".toList) trailingSlashRelocator.destDir
      = false ∧
    (Relocate trailingSlashRelocator 2 "/src/a.json".toList flatWorld).isAbort = true ∧
    (Relocate trailingSlashRelocator 2 "/src/a.json".toList flatWorld).writes = [] ∧
    resolveLocation relativeDestRelocator "/src".toList "/src/a.json".toList
        { File := "/src/a.json".toList }
      = some ("/src/a.json".toList, "schemas/a.json".toList, "/src/out/a.json".toList) ∧
    under (filepath.Abs "/src".toList relativeDestRelocator.destDir) "/src/out/a.json".toList ∧
    strings.HasPrefix (filepath.Dir "/src/out/a.json".toList) relativeDestRelocator.destDir
      = false ∧
    (Relocate relativeDestRelocator 2 "/src/a.json".toList flatWorld).isAbort = true ∧
    (Relocate relativeDestRelocator 2 "/src/a.json".toList flatWorld).writes = [] := by
  decide

/-- C17: a root given relative to `execDir` is not relocated. On the worked scenario the
root `/src/a.json` is relocated with its reference; the same root given as `a.json` names
the same file, but `Rel(Dir("a.json"), ...)` fails for every reference and for the root
itself: nothing is resolved, no file is written and the run aborts at the guard. -/
theorem C17_relative_root_aborts :
    filepath.Abs "/src".toList "a.json".toList = "/src/a.json".toList ∧
    (Relocate scenarioRelocator 2 "/src/a.json".toList workedWorld).isOk = true ∧
    (Relocate scenarioRelocator 2 "/src/a.json".toList workedWorld).writes
      = ["/out/sub/b.json".toList, "/out/a.json".toList] ∧
    resolveLocation scenarioRelocator "/src".toList "file:///src/sub/b.json".toList
        { File := "a.json".toList } = none ∧
    (Relocate scenarioRelocator 2 "a.json".toList workedWorld).isAbort = true ∧
    (Relocate scenarioRelocator 2 "a.json".toList workedWorld).reads
      = ["/src/a.json".toList] ∧
    (Relocate scenarioRelocator 2 "a.json".toList workedWorld).writes = [] := by
  decide

/-- C18: the catalog ordering invariant. (1) `resolveRef` either makes no recursive call, or
makes one call `relocateJsonFile(p)` where `p` is the absolute form of the location of the
reference and is in the catalog of the state in which the call is made. (2) The catalog of
a state in which `relocateJsonFile`, `Relocate` or `resolveRef` ends, normally or by an
abort, includes the catalog of the state in which it started. -/
theorem C18_catalog_order :
    (∀ (r : relocator) (ref : Str) (vc : VisitorContext) (w : World),
      (∃ o, ∀ recur, resolveRef r recur ref vc w = o) ∨
      (∃ location resource rest v p w1,
        Split ref '#' = location :: resource :: rest ∧
        p = Abs w.cwd (TrimPrefix location fileScheme) ∧
        p ∈ w1.catalog ∧
        ∀ recur, resolveRef r recur ref vc w =
          match recur p w1 with
          | Outcome.ok _ w2 => Outcome.ok (some v) w2
          | Outcome.abort w2 => Outcome.abort w2
          | Outcome.outOfFuel => Outcome.outOfFuel)) ∧
    (∀ (r : relocator) (fuel : Nat) (file : Str) (w w1 : World),
      (relocateJsonFile r fuel file w).world? = some w1 → w.catalog ⊆ w1.catalog) ∧
    (∀ (r : relocator) (fuel : Nat) (file : Str) (w w1 : World),
      (Relocate r fuel file w).world? = some w1 → w.catalog ⊆ w1.catalog) ∧
    (∀ (r : relocator) (fuel : Nat) (ref : Str) (vc : VisitorContext) (w w1 : World),
      (resolveRef r (relocateJsonFile r fuel) ref vc w).world? = some w1 →
      w.catalog ⊆ w1.catalog) := by
  refine ⟨?_, ?_, ?_, ?_⟩
  · intro r ref vc w
    unfold resolveRef
    split
    · split
      · rename_i location resource rest hs
        split
        · exact Or.inl ⟨_, fun _ => rfl⟩
        · rename_i absPath newRef newPath hl
          split
          · exact Or.inl ⟨_, fun _ => rfl⟩
          · refine Or.inr ⟨location, resource, rest, newRef ++ '#' :: resource, absPath,
              { w with catalog := absPath :: w.catalog }, hs, ?_, by simp, fun _ => rfl⟩
            exact (resolveLocation_inv _ _ _ _ _ _ _ hl).1
      · exact Or.inl ⟨_, fun _ => rfl⟩
    · exact Or.inl ⟨_, fun _ => rfl⟩
  · intro r fuel file w w1 h
    exact relocateJsonFile_grows r fuel file w w1 h
  · intro r fuel file w w1 h
    exact relocateJsonFile_grows r fuel file
      { w with cwd := filepath.Abs w.cwd r.execDir } w1 h
  · intro r fuel ref vc w w1 h
    exact resolveRef_grows r _ (relocateJsonFile_grows r fuel) ref vc w w1 h

/-- C19: the dedup is a silent no-op. Let a file reference `ref` return the rewritten
reference `v` on a first encounter. A reference `ref2` with the same fragment whose location
normalises to the same absolute path (`ref` itself, or another spelling), met with the same
working directory when that path is in the catalog, returns `v` as well, without recursive
call and in an unchanged state: no file is read or written, the catalog is the same. -/
theorem C19_dedup_no_op (r : relocator) (recur recur2 : Str → World → Outcome Unit)
    (vc : VisitorContext) (ref ref2 location location2 resource : Str) (rest rest2 : List Str)
    (v : Str) (w0 w01 w : World)
    (hf : HasPrefix ref fileScheme = true)
    (hs : Split ref '#' = location :: resource :: rest)
    (hfirst : resolveRef r recur ref vc w0 = Outcome.ok (some v) w01)
    (hf2 : HasPrefix ref2 fileScheme = true)
    (hs2 : Split ref2 '#' = location2 :: resource :: rest2)
    (hcwd : w.cwd = w0.cwd)
    (hsame : Abs w.cwd (TrimPrefix location2 fileScheme)
      = Abs w.cwd (TrimPrefix location fileScheme))
    (hcat : Abs w.cwd (TrimPrefix location2 fileScheme) ∈ w.catalog) :
    resolveRef r recur2 ref2 vc w = Outcome.ok (some v) w := by
  obtain ⟨loc1, res1, rest1, absPath, newRef, newPath, hs1, hl, hv⟩ :=
    resolveRef_file_inv r recur ref vc w0 w01 v hf hfirst
  rw [hs] at hs1
  simp only [List.cons.injEq] at hs1
  obtain ⟨h1, h2, _⟩ := hs1
  subst h1 h2
  have hl2 : resolveLocation r w.cwd location2 vc = some (absPath, newRef, newPath) := by
    rw [resolveLocation_congr r w.cwd location location2 vc hsame, hcwd]
    exact hl
  have hmem : absPath ∈ w.catalog := by
    rw [(resolveLocation_inv _ _ _ _ _ _ _ hl2).1]
    exact hcat
  unfold resolveRef
  rw [if_pos hf2, hs2]
  simp only [hl2, hmem, if_true, hv]

/-- An instance of C19: `file:///src/b.json#/X` is met first, then its other spelling
`file:///src/./sub/../b.json#/X` when `/src/b.json` is in the catalog. -/
theorem C19_dedup_no_op_witness :
    resolveRef scenarioRelocator (relocateJsonFile scenarioRelocator 1)
        "file:///src/b.json#/X".toList { File := "/src/a.json".toList }
        { flatWorld with cwd := "/src".toList }
      = Outcome.ok (some "schemas/b.json#/X".toList) flatWorldAfter ∧
    resolveRef scenarioRelocator (relocateJsonFile scenarioRelocator 1)
        "file:///src/./sub/../b.json#/X".toList { File := "/src/a.json".toList } claimedWorld
      = Outcome.ok (some "schemas/b.json#/X".toList) claimedWorld :=
  ⟨rfl,
    C19_dedup_no_op scenarioRelocator (relocateJsonFile scenarioRelocator 1)
      (relocateJsonFile scenarioRelocator 1) { File := "/src/a.json".toList }
      "file:///src/b.json#/X".toList "file:///src/./sub/../b.json#/X".toList
      "file:///src/b.json".toList "file:///src/./sub/../b.json".toList "/X".toList [] []
      "schemas/b.json#/X".toList { flatWorld with cwd := "/src".toList } flatWorldAfter
      claimedWorld (by decide) (by decide) rfl (by decide) (by decide) rfl (by decide)
      (by decide)⟩

/-- C20: a `$ref` in scope that is not a string aborts `visit`. For every document with such
a `$ref`, `visit` does not return (neither a document nor an error), and it aborts whenever
the recursion does not run out of fuel. A `properties` value that is not an object, an
`allOf` value that is not an array, and an item that is not an object are skipped: the
visit returns its argument unchanged. -/
theorem C20_malformed_ref_aborts (r : relocator) (recur : Str → World → Outcome Unit)
    (vc : VisitorContext) (schema : Json) (w : World) (hbad : schemaMalformed schema = true) :
    (visit r recur schema vc w).isOk = false ∧
    ((∀ file w1, recur file w1 ≠ Outcome.outOfFuel) →
      (visit r recur schema vc w).isAbort = true) ∧
    (∀ d w1, (∀ ps, d.get propertiesKey ≠ some (Json.obj ps)) →
      visitProperties r recur d vc w1 = Outcome.ok d w1) ∧
    (∀ d w1, (∀ xs, d.get allOfKey ≠ some (Json.arr xs)) →
      visitAllOf r recur d vc w1 = Outcome.ok d w1) ∧
    (∀ item w1, (∀ fields, item ≠ Json.obj fields) →
      visitItem r recur vc item w1 = Outcome.ok item w1) := by
  have hnot := visit_malformed r recur vc schema w hbad
  refine ⟨hnot, ?_, ?_, ?_, ?_⟩
  · intro hrec
    exact isAbort_of_not_ok _ hnot (visit_ends r recur hrec vc schema w)
  · intro d w1 hno
    unfold visitProperties
    split
    · rename_i ps hget
      exact absurd hget (hno ps)
    · rfl
  · intro d w1 hno
    unfold visitAllOf
    split
    · rename_i xs hget
      exact absurd hget (hno xs)
    · rfl
  · intro item w1 hno
    unfold visitItem
    split
    · rename_i fields
      exact absurd rfl (hno fields)
    · rfl

/-- An instance of C20: `numberRefSchema`, whose `properties.a.$ref` is a number. -/
theorem C20_malformed_ref_aborts_witness :
    schemaMalformed numberRefSchema = true ∧
    (visit scenarioRelocator (relocateJsonFile scenarioRelocator 1) numberRefSchema
        { File := "/src/a.json".toList } claimedWorld).isOk = false ∧
    (visit scenarioRelocator (relocateJsonFile scenarioRelocator 1) numberRefSchema
        { File := "/src/a.json".toList } claimedWorld).isAbort = true :=
  ⟨by decide,
    (C20_malformed_ref_aborts scenarioRelocator (relocateJsonFile scenarioRelocator 1)
      { File := "/src/a.json".toList } numberRefSchema claimedWorld (by decide)).1,
    by decide⟩

/-- C21: `mergeMaps` is a right-biased deep merge. In a heap whose maps have one entry per
key and are nested to a finite depth (`Layered`; the maps of decoded documents are, by
`mergeMaps_of_documents`), for all maps `a` and `b` the call `mergeMaps(a, b)` returns; the map `out` that it returns is
a new map; every map that existed before the call has the entries it had, so that neither
`a` nor `b` is modified; and `out` is the deep merge of `a` and `b`: its keys are the keys
of `a` and of `b`, a key that only `a` has keeps the value of `a`, a key whose values in
`a` and in `b` are both maps has the result of `mergeMaps` on the two maps, and every
other key of `b` has the value of `b`. -/
theorem C21_mergeMaps_right_biased (rank : Nat → Nat) (h : validate.Heap) (a b : Nat)
    (hlay : validate.Layered rank h h.length) (ha : a < h.length) (hb : b < h.length) :
    ∃ out h1, validate.mergeMaps (rank b + 1) a b h = some (out, h1) ∧
      h.length ≤ out ∧
      (∀ i < h.length, validate.objectAt h1 i = validate.objectAt h i) ∧
      validate.DeepMerge (rank b + 1) h a b h1 out := by
  obtain ⟨h1, e1, _, hfr, hst⟩ :=
    mergeMaps_merges rank h h.length hlay (rank b + 1) h a b (Nat.le_refl _) (fun _ _ => rfl)
      ha hb (Nat.lt_succ_self _)
  exact ⟨h.length, h1, e1, Nat.le_refl _, hfr, hst h1 (fun _ _ _ => rfl)⟩

/-- An instance of C21: the maps `0` and `1` of `mergeHeap`. -/
theorem C21_mergeMaps_right_biased_witness :
    validate.Layered mergeRank mergeHeap mergeHeap.length ∧
    ∃ out h1, validate.mergeMaps (mergeRank 1 + 1) 0 1 mergeHeap = some (out, h1) ∧
      mergeHeap.length ≤ out ∧
      (∀ i < mergeHeap.length, validate.objectAt h1 i = validate.objectAt mergeHeap i) ∧
      validate.DeepMerge (mergeRank 1 + 1) mergeHeap 0 1 h1 out :=
  ⟨by decide,
    C21_mergeMaps_right_biased mergeRank mergeHeap 0 1 (by decide) (by decide) (by decide)⟩

/-- C22, counterexample: the schema `numberRefItem` has no `type` and a `$ref` that is the
number 5, none of the three cases in which the claim names a result; `getActualType` does
not return the empty string on it, the type assertion `ref.(string)` panics. -/
theorem C22_non_string_ref_panics :
    numberRefItem.get markdown.typeKey = none ∧
    numberRefItem.get refKey = some (Json.number "5".toList) ∧
    markdown.getActualType numberRefItem [] = none ∧
    markdown.getActualType numberRefItem [] ≠ some [] :=
  ⟨rfl, rfl, rfl, by decide⟩

/-- C22 (amended): for every schema object and sub-schema name map, if `type` is a string
the result of `getActualType` is that string; if `type` is an array the result is its
first string element that is not `null` compared without regard to case, or the empty
string if there is none; if `type` is absent and `$ref` is a string, the result is the
sub-schema name registered for that reference, or else the reference with a leading
`file://` removed; if `type` is absent and `$ref` is present and not a string, the call
panics; in every other case (a `type` that is neither a string nor an array, or neither
`type` nor `$ref`) the result is the empty string. A `$ref` is ignored whenever a `type`
key is present. -/
theorem C22_getActualType (schema : Json) (subSchemas : List (Str × Str)) :
    (∀ s, schema.get markdown.typeKey = some (Json.str s) →
      markdown.getActualType schema subSchemas = some s) ∧
    (∀ items, schema.get markdown.typeKey = some (Json.arr items) →
      markdown.getActualType schema subSchemas = some (markdown.firstNonNull items)) ∧
    (∀ r, schema.get markdown.typeKey = none → schema.get refKey = some (Json.str r) →
      markdown.getActualType schema subSchemas
        = some ((subSchemas.lookup r).getD (strings.TrimPrefix r fileScheme))) ∧
    (∀ ref, schema.get markdown.typeKey = none → schema.get refKey = some ref →
      (∀ r, ref ≠ Json.str r) → markdown.getActualType schema subSchemas = none) ∧
    (∀ typ, schema.get markdown.typeKey = some typ → (∀ s, typ ≠ Json.str s) →
      (∀ items, typ ≠ Json.arr items) → markdown.getActualType schema subSchemas = some []) ∧
    (schema.get markdown.typeKey = none → schema.get refKey = none →
      markdown.getActualType schema subSchemas = some []) := by
  refine ⟨?_, ?_, ?_, ?_, ?_, ?_⟩
  · intro s h
    simp only [markdown.getActualType, h]
  · intro items h
    simp only [markdown.getActualType, h, firstActualType_eq]
  · intro r h1 h2
    simp only [markdown.getActualType, h1, h2]
    cases subSchemas.lookup r <;> rfl
  · intro ref h1 h2 h3
    simp only [markdown.getActualType, h1, h2]
  · intro typ h1 h2 h3
    simp only [markdown.getActualType, h1]
  · intro h1 h2
    simp only [markdown.getActualType, h1, h2]

/-- An instance of C22 (amended): a `type` array that starts with `NULL` and a number; the
result is its third element, `integer`. -/
theorem C22_getActualType_witness :
    markdown.getActualType typeListItem []
      = some (markdown.firstNonNull
          [Json.str "NULL".toList, Json.number "1".toList, Json.str "integer".toList]) ∧
    markdown.firstNonNull
        [Json.str "NULL".toList, Json.number "1".toList, Json.str "integer".toList]
      = "integer".toList :=
  ⟨(C22_getActualType typeListItem []).2.1 _ rfl, by decide⟩

/-- C23, counterexample: the `properties` of `numberRefTable` is an object with one entry,
which is an object, and `generatePropertiesTable` has no result on it: the call panics in
`getActualType`, on the `$ref` of the entry, which is a number. -/
theorem C23_table_panics :
    numberRefTable.get propertiesKey = some (Json.obj [("b".toList, numberRefItem)]) ∧
    (∃ fields, numberRefItem = Json.obj fields) ∧
    markdown.generatePropertiesTable "##".toList "T".toList numberRefTable [] = none :=
  ⟨rfl, ⟨_, rfl⟩, rfl⟩

/-- C23 (amended): for every schema without a `properties` key the result of
`generatePropertiesTable` is the empty string; for every schema whose `properties` is an
object of n entries that are all objects, none of which has a `$ref` that is not a string
without a `type` (the case in which `getActualType` panics), the result consists of the
heading line `<octothorpes> <name> Properties`, the header row `|Property|Type|Required|`,
the separator row, and exactly n rows, one per property in the order of the entries, of
the form `|<property>|<type>|<required>|`, where `<type>` is `getActualType` of the
property schema (`-` when empty) and `<required>` is `true` exactly when the property name
is an element of the `required` array of the schema, and `false` otherwise. -/
theorem C23_generatePropertiesTable (octothorpes name : Str) (schema : Json)
    (subSchemas : List (Str × Str)) :
    (schema.get propertiesKey = none →
      markdown.generatePropertiesTable octothorpes name schema subSchemas = some []) ∧
    (∀ props, schema.get propertiesKey = some (Json.obj props) →
      (∀ e ∈ props, ∃ fields, e.2 = Json.obj fields) →
      (∀ e ∈ props, markdown.refPanics e.2 = false) →
      ∃ rows, rows.length = props.length ∧
        List.Forall₂ (markdown.IsRow schema subSchemas) props rows ∧
        markdown.generatePropertiesTable octothorpes name schema subSchemas
          = some (strings.Join
              ((octothorpes ++ " ".toList ++ name ++ " Properties".toList)
                :: "|Property|Type|Required|".toList
                :: "|:------|:---|:--------|".toList
                :: rows) "\n".toList)) := by
  constructor
  · intro h
    simp [markdown.generatePropertiesTable, markdown.haveKey, h, strings.Join]
  · intro props h hobj href
    obtain ⟨rows, hr, hrows⟩ := propertyRows_spec schema subSchemas props
      [octothorpes ++ ' ' :: name ++ " Properties".toList,
       '|' :: strings.Join ["Property".toList, "Type".toList, "Required".toList] ['|']
         ++ ['|'],
       '|' :: strings.Join [":------".toList, ":---".toList, ":--------".toList] ['|']
         ++ ['|']] hobj href
    refine ⟨rows, (List.Forall₂.length_eq hrows).symm, hrows, ?_⟩
    simp only [markdown.generatePropertiesTable, markdown.haveKey, h, Option.isSome_some,
      if_true, hr]
    simp [strings.Join]

/-- An instance of C23 (amended): the table of `tableSchema`, whose four properties have a
string type, a reference, a type array and nothing; `b` is required. -/
theorem C23_generatePropertiesTable_witness :
    markdown.generatePropertiesTable "##".toList "T".toList tableSchema []
      = some ("## T Properties\n|Property|Type|Required|\n|:------|:---|:--------|\n".toList
          ++ "|a|string|false|\n|b|x.json|true|\n|c|integer|false|\n|d|-|false|".toList) ∧
    ∃ rows, rows.length = tableProperties.length ∧
      List.Forall₂ (markdown.IsRow tableSchema []) tableProperties rows ∧
      markdown.generatePropertiesTable "##".toList "T".toList tableSchema []
        = some (strings.Join
            (("##".toList ++ " ".toList ++ "T".toList ++ " Properties".toList)
              :: "|Property|Type|Required|".toList
              :: "|:------|:---|:--------|".toList
              :: rows) "\n".toList) :=
  ⟨by decide,
    (C23_generatePropertiesTable "##".toList "T".toList tableSchema []).2 tableProperties rfl
      (by
        intro e he
        simp only [tableProperties, List.mem_cons, List.mem_singleton, List.not_mem_nil,
          or_false] at he
        rcases he with rfl | rfl | rfl | rfl <;> exact ⟨_, rfl⟩)
      (by
        intro e he
        simp only [tableProperties, List.mem_cons, List.mem_singleton, List.not_mem_nil,
          or_false] at he
        rcases he with rfl | rfl | rfl | rfl <;> rfl)⟩

end JsonSchemaTools
